import Mathlib

/-!
Verification of the Pieskieo storage engine against its specification.

This file gives a shallow embedding of the Pieskieo multi-model database
core (crates `pieskieo-core` and `kaededb-core`) and settles the frozen
claims about it.  Rust `HashMap`/`BTreeMap` values are modelled as
association lists, machine floats (`f32`/`f64`) as exact rationals,
UUIDs as their 16-byte representation, and serialized payloads as the
structured values they encode (the binary codecs of the source are
injective on the types involved, so a structured payload together with a
constructor-directed decoder is a faithful model of `serde_json`/`bincode`
round trips).  Fallible operations return `Except`, paired with the
post-state reached when the operation returns.
-/

set_option maxRecDepth 4000
set_option synthInstance.maxSize 8192

namespace Pieskieo

/-- A UUID, as its 16-byte little-endian byte sequence (`uuid::Uuid`). -/
abbrev Uuid := List Nat

/-- The all-zero UUID (`Uuid::nil()`). -/
def nilUuid : Uuid := List.replicate 16 0

/-- First lookup in an association list, the model of `HashMap::get` /
`BTreeMap::get`. -/
def alget {α β : Type} [DecidableEq α] (l : List (α × β)) (k : α) : Option β :=
  match l with
  | [] => none
  | (k', v) :: rest => if k' = k then some v else alget rest k

/-- Replace-or-append update, the model of `HashMap::insert` /
`BTreeMap::insert` (content-wise; ordering of entries is not observed by
any claim). -/
def alput {α β : Type} [DecidableEq α] (l : List (α × β)) (k : α) (v : β) : List (α × β) :=
  match l with
  | [] => [(k, v)]
  | (k', v') :: rest => if k' = k then (k', v) :: rest else (k', v') :: alput rest k v

/-- Key removal, the model of `HashMap::remove` / `BTreeMap::remove`. -/
def alerase {α β : Type} [DecidableEq α] (l : List (α × β)) (k : α) : List (α × β) :=
  match l with
  | [] => []
  | (k', v') :: rest => if k' = k then rest else (k', v') :: alerase rest k

/-- Model of `entry(k).or_default()` followed by an in-place update `f`:
read the current value (or `d`), transform it, store it back. -/
def alupd {α β : Type} [DecidableEq α] (l : List (α × β)) (k : α) (d : β) (f : β → β) :
    List (α × β) :=
  alput l k (f ((alget l k).getD d))

theorem alget_alput_self {α β : Type} [DecidableEq α] (l : List (α × β)) (k : α) (v : β) :
    alget (alput l k v) k = some v := by
  induction l with
  | nil => simp [alget, alput]
  | cons hd tl ih =>
    obtain ⟨k', v'⟩ := hd
    by_cases h : k' = k <;> simp [alget, alput, h, ih]

theorem alget_alput_ne {α β : Type} [DecidableEq α] (l : List (α × β)) (k k' : α) (v : β)
    (h : k ≠ k') : alget (alput l k v) k' = alget l k' := by
  induction l with
  | nil => simp [alget, alput, h]
  | cons hd tl ih =>
    obtain ⟨k0, v0⟩ := hd
    by_cases h0 : k0 = k
    · subst h0
      simp [alget, alput, h]
    · simp only [alput, if_neg h0]
      by_cases h1 : k0 = k' <;> simp [alget, h1, ih]

theorem alget_mem {α β : Type} [DecidableEq α] {l : List (α × β)} {k : α} {v : β}
    (h : alget l k = some v) : (k, v) ∈ l := by
  induction l with
  | nil => simp [alget] at h
  | cons hd tl ih =>
    obtain ⟨k', v'⟩ := hd
    by_cases hk : k' = k
    · subst hk
      simp [alget] at h
      simp [h]
    · simp [alget, hk] at h
      exact List.mem_cons_of_mem _ (ih h)

theorem mem_alget {α β : Type} [DecidableEq α] {l : List (α × β)} {k : α} {v : β}
    (hnd : (l.map Prod.fst).Nodup) (h : (k, v) ∈ l) : alget l k = some v := by
  induction l with
  | nil => simp at h
  | cons hd tl ih =>
    obtain ⟨k', v'⟩ := hd
    simp only [List.map_cons, List.nodup_cons] at hnd
    rcases List.mem_cons.mp h with heq | hmem
    · cases heq
      simp [alget]
    · have hne : k' ≠ k := by
        rintro rfl
        exact hnd.1 (List.mem_map.mpr ⟨(k', v), hmem, rfl⟩)
      simp [alget, hne]
      exact ih hnd.2 hmem

theorem alget_isSome_of_mem {α β : Type} [DecidableEq α] {l : List (α × β)} {k : α} {v : β}
    (h : (k, v) ∈ l) : (alget l k).isSome := by
  induction l with
  | nil => simp at h
  | cons hd tl ih =>
    obtain ⟨k', v'⟩ := hd
    by_cases hk : k' = k
    · simp [alget, hk]
    · rcases List.mem_cons.mp h with heq | hmem
      · cases heq; simp at hk
      · simp [alget, hk, ih hmem]

/-! JSON values.

Here `serde_json::Value` is modelled, with numbers modelled as exact rationals (the
claims under verification do not depend on `f64` rounding).  The object
constructor carries its own spine (`JObj`) so that decidable equality can
be derived; `JObj.toList` recovers the association-list view. -/

mutual
inductive JValue where
  | null : JValue
  | bool (b : Bool) : JValue
  | num (q : Rat) : JValue
  | str (s : String) : JValue
  | arr (xs : JArr) : JValue
  | obj (fs : JObj) : JValue
deriving DecidableEq

inductive JArr where
  | anil : JArr
  | acons (v : JValue) (rest : JArr) : JArr
deriving DecidableEq

inductive JObj where
  | onil : JObj
  | ocons (k : String) (v : JValue) (rest : JObj) : JObj
deriving DecidableEq
end

/-- The association-list view of a JSON object spine. -/
def JObj.toList : JObj → List (String × JValue)
  | .onil => []
  | .ocons k v rest => (k, v) :: rest.toList

/-- Build an object spine from an association list. -/
def JObj.ofList : List (String × JValue) → JObj
  | [] => .onil
  | (k, v) :: rest => .ocons k v (JObj.ofList rest)

/-- The plain-list view of a JSON array spine. -/
def JArr.toList : JArr → List JValue
  | .anil => []
  | .acons v rest => v :: rest.toList

theorem JObj.toList_ofList (l : List (String × JValue)) : (JObj.ofList l).toList = l := by
  induction l with
  | nil => rfl
  | cons hd tl ih => obtain ⟨k, v⟩ := hd; simp [JObj.ofList, JObj.toList, ih]

/-- Model of `Value::get(key)`: field lookup on objects, `None` on anything else. -/
def jget (v : JValue) (k : String) : Option JValue :=
  match v with
  | .obj fs => alget fs.toList k
  | _ => none

/-- Model of `Value::as_object()` as an association list. -/
def asObjList (v : JValue) : Option (List (String × JValue)) :=
  match v with
  | .obj fs => some fs.toList
  | _ => none

/-- Model of `Value::as_f64()`: numbers convert, everything else is `None`. -/
def asF64 (v : JValue) : Option Rat :=
  match v with
  | .num q => some q
  | _ => none

/-- Three-way comparison of rationals. -/
def cmpRat (x y : Rat) : Ordering :=
  if x < y then .lt else if x = y then .eq else .gt

/-- Model of `cmp_values` (engine.rs): numeric order for numbers, lexicographic
for strings, natural for booleans; cross-type comparisons are `None`. -/
def cmp_values (a b : JValue) : Option Ordering :=
  match a, b with
  | .num x, .num y => some (cmpRat x y)
  | .str x, .str y => some (compare x y)
  | .bool x, .bool y => some (compare x y)
  | _, _ => none

/-- One `$op` clause of `value_compare` (engine.rs). -/
def compareOp (fieldv : JValue) (op : String) (val : JValue) : Bool :=
  if op = "$gt" then ((cmp_values fieldv val).map (fun o => o == Ordering.gt)).getD false
  else if op = "$gte" then ((cmp_values fieldv val).map (fun o => o != Ordering.lt)).getD false
  else if op = "$lt" then ((cmp_values fieldv val).map (fun o => o == Ordering.lt)).getD false
  else if op = "$lte" then ((cmp_values fieldv val).map (fun o => o != Ordering.gt)).getD false
  else if op = "$ne" then decide (fieldv ≠ val)
  else if op = "$in" then
    match val with
    | .arr xs => xs.toList.any (fun x => x = fieldv)
    | _ => false
  else if op = "$nin" then
    match val with
    | .arr xs => xs.toList.all (fun x => x ≠ fieldv)
    | _ => false
  else false

/-- Model of `value_compare` (engine.rs): a non-object condition is an equality
test; an object condition is a conjunction of `$op` clauses. -/
def value_compare (fieldv cond : JValue) : Bool :=
  match cond with
  | .obj fs => fs.toList.all (fun p => compareOp fieldv p.1 p.2)
  | _ => fieldv = cond

/-- Model of `value_matches` (engine.rs): every filter entry must be present in
the document and pass `value_compare`. -/
def value_matches (doc : JValue) (filter : List (String × JValue)) : Bool :=
  filter.all (fun p =>
    match jget doc p.1 with
    | some fv => value_compare fv p.2
    | none => false)

/-- Model of `PieskieoDb::index_key` (engine.rs): scalar values map to the string
key used by the secondary equality index; non-scalars are not indexed. -/
def index_key (v : JValue) : Option String :=
  match v with
  | .str s => some s
  | .num n => some (toString n)
  | .bool b => some (toString b)
  | _ => none

/-! WAL framing (wal.rs).

A WAL file is a byte sequence.  `Wal::replay` reads 4-byte little-endian
length frames; the external `bincode::deserialize` is abstracted as a
decode function supplied per record type. -/

/-- Errors `Wal::replay` can surface, per source branch: an
`UnexpectedEof` propagated from the payload read (an `Io` error), or a
`bincode` failure on a complete frame (a codec error). -/
inductive WalError where
  | ioUnexpectedEof : WalError
  | codec : WalError
deriving DecidableEq

/-- Little-endian byte-sequence value (`u32::from_le_bytes`). -/
def leNat (bs : List Nat) : Nat :=
  bs.foldr (fun b acc => b + 256 * acc) 0

/-- Model of the loop of `Wal::replay` (wal.rs lines 95-108) on the byte
level.  Reading the 4-byte length with fewer than 4 bytes left raises
`UnexpectedEof`, which the source catches and turns into clean
termination; reading the payload with fewer than `len` bytes left raises
`UnexpectedEof` from the second `read_exact`, which the source propagates
with `?` as an error. -/
def replayFrames {R : Type} (decode : List Nat → Option R) (bytes : List Nat) :
    Except WalError (List R) :=
  if bytes.length < 4 then .ok []
  else
    let len := leNat (bytes.take 4)
    let rest := bytes.drop 4
    if rest.length < len then .error .ioUnexpectedEof
    else
      match decode (rest.take len) with
      | none => .error .codec
      | some r =>
        match replayFrames decode (rest.drop len) with
        | .error e => .error e
        | .ok rs => .ok (r :: rs)
termination_by bytes.length
decreasing_by
  simp only [List.length_drop]
  omega

/-- A frame as `Wal::append` writes it: 4-byte little-endian length
followed by the payload bytes. -/
def frameBytes (payload : List Nat) : List Nat :=
  [payload.length % 256, payload.length / 256 % 256,
   payload.length / 65536 % 256, payload.length / 16777216 % 256] ++ payload

/-! Error types (error.rs of both crates). -/

/-- Model of `KaedeDbError` (kaededb-core/src/error.rs): note that this enum has
no validation or dimension-mismatch variant at all. -/
inductive KaedeDbError where
  | Io (msg : String) : KaedeDbError
  | Serde (msg : String) : KaedeDbError
  | Json (msg : String) : KaedeDbError
  | NotFound : KaedeDbError
deriving DecidableEq

/-- Model of `PieskieoError` (pieskieo-core/src/error.rs). -/
inductive PieskieoError where
  | Io (msg : String) : PieskieoError
  | Serde (msg : String) : PieskieoError
  | Json (msg : String) : PieskieoError
  | NotFound : PieskieoError
  | WrongShard : PieskieoError
  | Validation (msg : String) : PieskieoError
  | UniqueViolation (field : String) : PieskieoError
  | Internal (msg : String) : PieskieoError
deriving DecidableEq

/-! Graph store (graph.rs). -/

/-- Model of `graph::Edge`, with the `f32` weight as an exact rational. -/
structure Edge where
  src : Uuid
  dst : Uuid
  weight : Rat
deriving DecidableEq

/-- Adjacency map `src -> [Edge]` (`GraphStore.adj`). -/
abbrev GraphStore := List (Uuid × List Edge)

/-- Model of the bucket update inside `GraphStore::add_edge`: replace the weight
of an existing edge to `dst`, else append. -/
def bucketAdd (entry : List Edge) (src dst : Uuid) (w : Rat) : List Edge :=
  match entry with
  | [] => [⟨src, dst, w⟩]
  | e :: rest =>
    if e.dst = dst then { e with weight := w } :: rest
    else e :: bucketAdd rest src dst w

/-- Model of `GraphStore::add_edge` (graph.rs). -/
def GraphStore.add_edge (g : GraphStore) (src dst : Uuid) (w : Rat) : GraphStore :=
  alupd g src [] (fun entry => bucketAdd entry src dst w)

/-- Model of `GraphStore::neighbors` (graph.rs): up to `limit` edges in
insertion order. -/
def GraphStore.neighbors (g : GraphStore) (id : Uuid) (limit : Nat) : List Edge :=
  ((alget g id).getD []).take limit

/-! Vector index (kaededb-core/src/vector.rs; the twin module referenced by
pieskieo-core is not under src/ and is modelled from the spec below).

The state carries everything the claims can observe.  The `hnsw` handle
and `owned_store` of the source hold state of the external `hnsw_rs`
library (plus leaked backing slices) that no claim observes; they are not
modelled.  Cosine normalization divides by an `f32` square root, which has
no exact rational counterpart; it is abstracted as an explicit function
argument `normF` (every theorem below fixes the L2 metric, for which the
source never calls `normalize`). -/

inductive VectorMetric where
  | L2 : VectorMetric
  | Cosine : VectorMetric
  | Dot : VectorMetric
deriving DecidableEq

structure VectorIndex where
  inner : List (Uuid × List Rat)
  dim : Option Nat
  metric : VectorMetric
  id_map : List (Uuid × Nat)
  rev_map : List Uuid
  next_id : Nat
  tombstones : List Uuid
  ef_construction : Nat
  ef_search : Nat
  max_elements : Nat
  meta : List (Uuid × List (String × String))
deriving DecidableEq

/-- Model of `VectorIndex::new` (vector.rs). -/
def VectorIndex.new (metric : VectorMetric) : VectorIndex :=
  { inner := [], dim := none, metric := metric, id_map := [], rev_map := [],
    next_id := 0, tombstones := [], ef_construction := 200, ef_search := 50,
    max_elements := 100000, meta := [] }

/-- Model of `VectorIndex::with_params` (vector.rs): clamps the knobs to their
minima. -/
def VectorIndex.with_params (metric : VectorMetric) (efc efs maxe : Nat) : VectorIndex :=
  { VectorIndex.new metric with
    ef_construction := max efc 4, ef_search := max efs 4, max_elements := max maxe 1000 }

/-- Steps 2-5 of `VectorIndex::insert` (vector.rs lines 129-179), shared by the
kaededb source and the spec-modelled pieskieo twin: normalize under the
cosine metric, upsert the primary map and metadata, clear the tombstone,
and ensure a stable internal id. -/
def VectorIndex.insertCore (normF : List Rat → List Rat) (idx : VectorIndex) (id : Uuid)
    (vector : List Rat) (meta : Option (List (String × String))) : VectorIndex :=
  let vector := if idx.metric = .Cosine then normF vector else vector
  let idx := { idx with inner := alput idx.inner id vector }
  let idx :=
    match meta with
    | some m => { idx with meta := alput idx.meta id m }
    | none => idx
  let idx := { idx with tombstones := idx.tombstones.filter (fun x => x ≠ id) }
  match alget idx.id_map id with
  | some _ => idx
  | none =>
    let new_id := idx.next_id
    let rev :=
      if idx.rev_map.length ≤ new_id then
        idx.rev_map ++ List.replicate (new_id + 1 - idx.rev_map.length) nilUuid
      else idx.rev_map
    { idx with
      id_map := alput idx.id_map id new_id,
      rev_map := rev.set new_id id,
      next_id := idx.next_id + 1 }

/-- Model of `VectorIndex::insert` (kaededb-core/src/vector.rs lines 111-181):
a dimension mismatch against an already-set dimension fails with
`KaedeDbError::NotFound`, before any state is touched. -/
def VectorIndex.insert (normF : List Rat → List Rat) (idx : VectorIndex) (id : Uuid)
    (vector : List Rat) (meta : Option (List (String × String))) :
    Except KaedeDbError Unit × VectorIndex :=
  match idx.dim with
  | some d =>
    if vector.length ≠ d then (.error .NotFound, idx)
    else (.ok (), VectorIndex.insertCore normF idx id vector meta)
  | none =>
    (.ok (), VectorIndex.insertCore normF { idx with dim := some vector.length } id vector meta)

/-- Modelled from the spec: `pieskieo-core/src/vector.rs` is declared by
`pieskieo-core/src/lib.rs` but is not under src/.  Per spec section 4.3 its
`insert` performs the same steps as the kaededb twin above, with a
dimension mismatch failing with a `Validation`/`DimensionMismatch` error
(spec sections 4.3 and 7) and no state change. -/
def VectorIndex.insertP (normF : List Rat → List Rat) (idx : VectorIndex) (id : Uuid)
    (vector : List Rat) (meta : Option (List (String × String))) :
    Except PieskieoError Unit × VectorIndex :=
  match idx.dim with
  | some d =>
    if vector.length ≠ d then (.error (.Validation "DimensionMismatch"), idx)
    else (.ok (), VectorIndex.insertCore normF idx id vector meta)
  | none =>
    (.ok (), VectorIndex.insertCore normF { idx with dim := some vector.length } id vector meta)

/-- The id-mapping ensure loop of `VectorIndex::rebuild_hnsw` (vector.rs lines
324-355): every live (non-tombstoned) vector gets an internal id, reusing
existing assignments. -/
def ensureIds (inner : List (Uuid × List Rat)) (tombs : List Uuid)
    (maps : List (Uuid × Nat) × List Uuid × Nat) : List (Uuid × Nat) × List Uuid × Nat :=
  inner.foldl
    (fun acc p =>
      let (idm, rev, next) := acc
      if p.1 ∈ tombs then acc
      else
        match alget idm p.1 with
        | some _ => acc
        | none =>
          let rev2 := if rev.length ≤ next then rev ++ List.replicate (next + 1 - rev.length) nilUuid else rev
          (alput idm p.1 next, rev2.set next p.1, next + 1))
    maps

/-- Model of `VectorIndex::maybe_rebuild` (vector.rs lines 303-309): past the
tombstone threshold, rebuild (which ensures id mappings) and clear the
tombstone set. -/
def VectorIndex.maybe_rebuild (idx : VectorIndex) : VectorIndex :=
  if max (idx.max_elements / 10) 1000 < idx.tombstones.length then
    let (idm, rev, next) := ensureIds idx.inner idx.tombstones (idx.id_map, idx.rev_map, idx.next_id)
    { idx with id_map := idm, rev_map := rev, next_id := next, tombstones := [] }
  else idx

/-- Model of `VectorIndex::delete` (vector.rs lines 183-187): remove from the
primary map, mark the tombstone, then `maybe_rebuild`. -/
def VectorIndex.delete (idx : VectorIndex) (id : Uuid) : VectorIndex :=
  let idx := { idx with inner := alerase idx.inner id }
  let idx :=
    if id ∈ idx.tombstones then idx
    else { idx with tombstones := idx.tombstones ++ [id] }
  idx.maybe_rebuild

/-! WAL records (wal.rs `RecordKind`) and the engine state (engine.rs).

Record payloads are `Vec<u8>` in the source, produced by `serde_json` or
`bincode`; they are modelled as the structured values they encode, with
constructor-directed decoders standing in for deserialization (decoding a
payload as the type it was encoded from succeeds and yields the original
value; decoding it as a different type fails). -/

inductive DataFamily where
  | Row : DataFamily
  | Doc : DataFamily
  | Vec : DataFamily
  | Graph : DataFamily
deriving DecidableEq

/-- Schema field options (`SchemaField`, engine.rs); `ty` is the advisory
`type` entry, never read by enforcement. -/
structure SchemaField where
  required : Bool
  unique : Bool
  ty : Option String
deriving DecidableEq

/-- Model of `SchemaDef` (engine.rs): field name to options. -/
structure SchemaDef where
  fields : List (String × SchemaField)
deriving DecidableEq

/-- Model of `VecWalRecord` (engine.rs): the bincode payload of a vector put. -/
structure VecWalRecord where
  nspace : Option String
  vector : List Rat
  meta : Option (List (String × String))
deriving DecidableEq

/-- A serialized record payload, by originating type. -/
inductive Payload where
  | jsonVal (v : JValue) : Payload
  | vecRec (r : VecWalRecord) : Payload
  | edgeVal (e : Edge) : Payload
  | legacyVec (v : List Rat) : Payload
deriving DecidableEq

/-- Deserializing a payload as `serde_json::Value`. -/
def Payload.decodeJson : Payload → Except PieskieoError JValue
  | .jsonVal v => .ok v
  | _ => .error (.Json "payload is not a JSON value")

/-- Deserializing a payload as `VecWalRecord` (the fallible first attempt of
the replay Vec branch). -/
def Payload.decodeVecRec : Payload → Option VecWalRecord
  | .vecRec r => some r
  | _ => none

/-- Deserializing a payload as `graph::Edge`. -/
def Payload.decodeEdge : Payload → Except PieskieoError Edge
  | .edgeVal e => .ok e
  | _ => .error (.Serde "payload is not an edge")

/-- Deserializing a payload as a bare `Vec<f32>` (legacy vector format). -/
def Payload.decodeF32 : Payload → Except PieskieoError (List Rat)
  | .legacyVec v => .ok v
  | _ => .error (.Serde "payload is not a vector")

/-- Model of `RecordKind` (wal.rs).  `Record::Schema` carries
`serde_json::to_vec` of a `SchemaDef`, modelled structurally. -/
inductive Rec where
  | put (family : DataFamily) (key : Uuid) (payload : Payload)
      (ns coll tbl : Option String) : Rec
  | del (family : DataFamily) (key : Uuid) (ns coll tbl : Option String) : Rec
  | addEdge (src dst : Uuid) (weight : Rat) : Rec
  | schemaRec (family : DataFamily) (ns coll tbl : Option String)
      (schema : SchemaDef) : Rec
deriving DecidableEq

/-- Doc and row storage: namespace to collection/table to id to JSON. -/
abbrev DocMap := List (String × List (String × List (Uuid × JValue)))

/-- Secondary equality index: namespace to collection to field to value key
to id list. -/
abbrev IndexMap := List (String × List (String × List (String × List (String × List Uuid))))

/-- Schema registry: namespace to collection/table to schema. -/
abbrev SchemaMap := List (String × List (String × SchemaDef))

/-- Model of `Collections` (engine.rs). -/
structure Collections where
  rows : DocMap
  docs : DocMap
  row_index : IndexMap
  doc_index : IndexMap
  row_schema : SchemaMap
  doc_schema : SchemaMap
deriving DecidableEq

def Collections.empty : Collections :=
  ⟨[], [], [], [], [], []⟩

/-- Model of `Stats` (engine.rs): per (namespace, collection) doc/row counters. -/
structure Stats where
  docs : List (String × List (String × Nat))
  rows : List (String × List (String × Nat))
deriving DecidableEq

def Stats.empty : Stats := ⟨[], []⟩

/-- Model of `VectorParams` (engine.rs). -/
structure VectorParams where
  metric : VectorMetric
  ef_construction : Nat
  ef_search : Nat
  max_elements : Nat
  link_top_k : Nat
  shard_id : Nat
  shard_total : Nat
deriving DecidableEq

/-- Model of `VectorParams::default` (engine.rs). -/
def VectorParams.dfl : VectorParams :=
  ⟨.L2, 200, 50, 100000, 0, 0, 1⟩

/-- The state `PieskieoDb::open` reconstructs: collections, per-namespace
vector indexes, the vector-to-namespace reverse map, and the graph. -/
structure Mem where
  data : Collections
  vectors : List (String × VectorIndex)
  vector_ns : List (Uuid × String)
  graph : GraphStore
deriving DecidableEq

/-- Model of `PieskieoDb` (engine.rs): WAL plus in-memory state plus the shard
and parameter fields (the filesystem path is not modelled). -/
structure Engine where
  wal : List Rec
  mem : Mem
  stats : Stats
  link_top_k : Nat
  shard_id : Nat
  shard_total : Nat
  default_params : VectorParams
deriving DecidableEq

/-- Model of `Self::ns` / `Self::col` (engine.rs): a missing namespace or
collection defaults to the literal `"default"`. -/
def nsKey (o : Option String) : String :=
  o.getD "default"

/-- Model of `shard_hash` (engine.rs lines 2590-2595): `u64` from the first 8
bytes of the UUID, little-endian. -/
def shard_hash (id : Uuid) : Nat :=
  leNat (id.take 8)

/-- Model of `PieskieoDb::owns` as a function of the shard fields (engine.rs
lines 1541-1546). -/
def ownsFn (sid stot : Nat) (id : Uuid) : Bool :=
  if stot ≤ 1 then true else shard_hash id % stot == sid

def Engine.owns (st : Engine) (id : Uuid) : Bool :=
  ownsFn st.shard_id st.shard_total id

/-- Model of `PieskieoDb::append_record` (engine.rs lines 1380-1382): the
underlying buffered `Wal::append` either fails with an I/O error (modelled
by the `walErr` oracle) or extends the log by one frame. -/
def append_record (walErr : Option String) (st : Engine) (r : Rec) :
    Except PieskieoError Engine :=
  match walErr with
  | some msg => .error (.Io msg)
  | none => .ok { st with wal := st.wal ++ [r] }

/-- Model of `PieskieoDb::validate_object` (engine.rs lines 178-183). -/
def validate_object (json : JValue) : Except PieskieoError Unit :=
  match json with
  | .obj _ => .ok ()
  | _ => .error (.Validation "value must be object")

/-- The uniqueness test of `PieskieoDb::check_schema` for one field (engine.rs
lines 200-212): true exactly when the object holds a scalar value for the
field and the live index entry for that value contains some other id. -/
def unique_conflict (id : Uuid) (objFields : List (String × JValue))
    (index : Option (List (String × List (String × List Uuid)))) (field : String) : Bool :=
  match alget objFields field with
  | some val =>
    match index_key val with
    | some key =>
      match index.bind (fun m => alget m field) with
      | some fm =>
        match alget fm key with
        | some ids => ids.any (fun e => e ≠ id)
        | none => false
      | none => false
    | none => false
  | none => false

/-- The field loop of `PieskieoDb::check_schema` (engine.rs lines 194-213):
required fields must be present; a unique field whose scalar value is
indexed under any other id is a violation. -/
def check_fields (id : Uuid) (objFields : List (String × JValue))
    (index : Option (List (String × List (String × List Uuid)))) :
    List (String × SchemaField) → Except PieskieoError Unit
  | [] => .ok ()
  | (field, spec) :: rest =>
    if spec.required && !(alget objFields field).isSome then
      .error (.Validation "field is required")
    else if spec.unique && unique_conflict id objFields index field then
      .error (.UniqueViolation field)
    else check_fields id objFields index rest

/-- Model of `PieskieoDb::check_schema` (engine.rs lines 185-215). -/
def check_schema (id : Uuid) (json : JValue) (schema : SchemaDef)
    (index : Option (List (String × List (String × List Uuid)))) :
    Except PieskieoError Unit :=
  match asObjList json with
  | none => .error (.Validation "value must be object")
  | some objFields => check_fields id objFields index schema.fields

/-- Lookup through two association-list levels. -/
def alget2 {β : Type} (m : List (String × List (String × β))) (a b : String) : Option β :=
  (alget m a).bind (fun x => alget x b)

/-- Lookup of one index entry: namespace, collection, field, value key. -/
def idxget (i : IndexMap) (ns coll f k : String) : Option (List Uuid) :=
  (alget2 i ns coll).bind (fun colm => (alget colm f).bind (fun fm => alget fm k))

/-- Model of `PieskieoDb::enforce_doc_schema` (engine.rs lines 104-124). -/
def enforce_doc_schema (st : Engine) (ns coll : Option String) (id : Uuid)
    (json : JValue) : Except PieskieoError Unit :=
  match alget2 st.mem.data.doc_schema (nsKey ns) (nsKey coll) with
  | some schema =>
    match validate_object json with
    | .error e => .error e
    | .ok _ => check_schema id json schema (alget2 st.mem.data.doc_index (nsKey ns) (nsKey coll))
  | none => .ok ()

/-- Model of `PieskieoDb::enforce_row_schema` (engine.rs lines 156-176). -/
def enforce_row_schema (st : Engine) (ns tbl : Option String) (id : Uuid)
    (json : JValue) : Except PieskieoError Unit :=
  match alget2 st.mem.data.row_schema (nsKey ns) (nsKey tbl) with
  | some schema =>
    match validate_object json with
    | .error e => .error e
    | .ok _ => check_schema id json schema (alget2 st.mem.data.row_index (nsKey ns) (nsKey tbl))
  | none => .ok ()

/-- Insertion into a two-level doc/row map. -/
def docsInsert (m : DocMap) (ns coll : String) (id : Uuid) (json : JValue) : DocMap :=
  alupd m ns [] (fun nsm => alupd nsm coll [] (fun inn => alput inn id json))

/-- One entry update of `index_upsert_doc` / `index_upsert_row`: ensure the
path (`ns`, `coll`, field, value key) and push the id into the entry if it
is not already there. -/
def index_push (idx : IndexMap) (ns coll f k : String) (id : Uuid) : IndexMap :=
  alupd idx ns [] (fun nsm =>
    alupd nsm coll [] (fun colm =>
      alupd colm f [] (fun fm =>
        alupd fm k [] (fun entry =>
          if id ∈ entry then entry else entry ++ [id]))))

/-- Model of `PieskieoDb::index_upsert_doc` / `index_upsert_row` (engine.rs
lines 2451-2471 and 2491-2517): every scalar field of the object gains an
entry containing the id (pushed only if absent). -/
def index_upsert_into (idx : IndexMap) (ns coll : String) (id : Uuid) (json : JValue) :
    IndexMap :=
  match asObjList json with
  | none => idx
  | some fields =>
    fields.foldl
      (fun acc p =>
        match index_key p.2 with
        | none => acc
        | some key => index_push acc ns coll p.1 key id)
      idx

/-- One entry update of `index_remove_doc` / `index_remove_row`: if the path
(`ns`, `coll`, field, value key) exists, retain all ids other than the
removed one (the possibly-empty entry stays in place). -/
def index_pull (idx : IndexMap) (ns coll f k : String) (id : Uuid) : IndexMap :=
  match alget idx ns with
  | none => idx
  | some nsm =>
    match alget nsm coll with
    | none => idx
    | some colm =>
      match alget colm f with
      | none => idx
      | some fm =>
        match alget fm k with
        | none => idx
        | some entry =>
          alput idx ns (alput nsm coll (alput colm f
            (alput fm k (entry.filter (fun x => x ≠ id)))))

/-- Model of `PieskieoDb::index_remove_doc` / `index_remove_row` (engine.rs
lines 2473-2489 and 2519-2541): for each scalar field of the removed value,
retain all ids other than the removed one in the existing entry (entries
for other values are untouched; missing paths stay missing). -/
def index_remove_into (idx : IndexMap) (ns coll : String) (id : Uuid) (json : JValue) :
    IndexMap :=
  match asObjList json with
  | none => idx
  | some fields =>
    fields.foldl
      (fun acc p =>
        match index_key p.2 with
        | none => acc
        | some key => index_pull acc ns coll p.1 key id)
      idx

/-- The scrub-everything removal of `PieskieoDb::apply_record`
(engine.rs lines 1471-1477 and 1486-1492): drop the id from every entry of
the (namespace, collection) index. -/
def index_scrub_all (idx : IndexMap) (ns coll : String) (id : Uuid) : IndexMap :=
  match alget idx ns with
  | none => idx
  | some nsm =>
    match alget nsm coll with
    | none => idx
    | some colm =>
      alput idx ns (alput nsm coll
        (colm.map (fun fp => (fp.1, fp.2.map (fun kp => (kp.1, kp.2.filter (fun x => x ≠ id)))))))

/-- Model of `bump_doc_stats` / `bump_row_stats` (engine.rs lines 126-154). -/
def bumpStat (s : List (String × List (String × Nat))) (ns coll : String) (delta : Int) :
    List (String × List (String × Nat)) :=
  alupd s ns [] (fun m =>
    alupd m coll 0 (fun n => if delta < 0 then n - delta.natAbs else n + delta.toNat))

/-! Keyed engine mutations (engine.rs).  Each operation returns the
result together with the state it leaves behind; an early `return Err`
in the source leaves the receiver exactly as it was when the error arose. -/

/-- Model of `PieskieoDb::put_doc_ns` (engine.rs lines 647-682): shard check,
schema enforcement, WAL append, then (and only then) the in-memory and
index updates and the counter bump. -/
def put_doc_ns (walErr : Option String) (st : Engine) (ns coll : Option String)
    (id : Uuid) (json : JValue) : Except PieskieoError Unit × Engine :=
  if st.owns id = false then (.error .WrongShard, st)
  else
    match enforce_doc_schema st ns coll id json with
    | .error e => (.error e, st)
    | .ok _ =>
      match append_record walErr st
          (.put .Doc id (.jsonVal json) (some (nsKey ns)) (some (nsKey coll)) none) with
      | .error e => (.error e, st)
      | .ok st1 =>
        let ns_key := nsKey ns
        let col_key := nsKey coll
        let data := st1.mem.data
        let data2 := { data with
          docs := docsInsert data.docs ns_key col_key id json,
          doc_index := index_upsert_into data.doc_index ns_key col_key id json }
        (.ok (), { st1 with
          mem := { st1.mem with data := data2 },
          stats := { st1.stats with docs := bumpStat st1.stats.docs ns_key col_key 1 } })

/-- Model of `PieskieoDb::put_doc` (engine.rs lines 684-686). -/
def put_doc (walErr : Option String) (st : Engine) (id : Uuid) (json : JValue) :
    Except PieskieoError Unit × Engine :=
  put_doc_ns walErr st none none id json

/-- Model of `PieskieoDb::put_row_ns` (engine.rs lines 734-770); the generic
`T: Serialize` row is modelled as the JSON value it serializes to. -/
def put_row_ns (walErr : Option String) (st : Engine) (ns tbl : Option String)
    (id : Uuid) (json : JValue) : Except PieskieoError Unit × Engine :=
  if st.owns id = false then (.error .WrongShard, st)
  else
    match enforce_row_schema st ns tbl id json with
    | .error e => (.error e, st)
    | .ok _ =>
      match append_record walErr st
          (.put .Row id (.jsonVal json) (some (nsKey ns)) none (some (nsKey tbl))) with
      | .error e => (.error e, st)
      | .ok st1 =>
        let ns_key := nsKey ns
        let tbl_key := nsKey tbl
        let data := st1.mem.data
        let data2 := { data with
          rows := docsInsert data.rows ns_key tbl_key id json,
          row_index := index_upsert_into data.row_index ns_key tbl_key id json }
        (.ok (), { st1 with
          mem := { st1.mem with data := data2 },
          stats := { st1.stats with rows := bumpStat st1.stats.rows ns_key tbl_key 1 } })

/-- Model of `PieskieoDb::delete_doc_ns` (engine.rs lines 688-724): shard
check, WAL append, then removal plus index scrub of the removed value and
a counter decrement. -/
def delete_doc_ns (walErr : Option String) (st : Engine) (ns coll : Option String)
    (id : Uuid) : Except PieskieoError Unit × Engine :=
  if st.owns id = false then (.error .WrongShard, st)
  else
    match append_record walErr st
        (.del .Doc id (some (nsKey ns)) (some (nsKey coll)) none) with
    | .error e => (.error e, st)
    | .ok st1 =>
      let ns_key := nsKey ns
      let col_key := nsKey coll
      match alget st1.mem.data.docs ns_key with
      | none => (.ok (), st1)
      | some nsm =>
        match alget nsm col_key with
        | none => (.ok (), st1)
        | some inner =>
          match alget inner id with
          | none => (.ok (), st1)
          | some old =>
            let data := st1.mem.data
            let data2 := { data with
              docs := alput data.docs ns_key (alput nsm col_key (alerase inner id)),
              doc_index := index_remove_into data.doc_index ns_key col_key id old }
            (.ok (), { st1 with
              mem := { st1.mem with data := data2 },
              stats := { st1.stats with docs := bumpStat st1.stats.docs ns_key col_key (-1) } })

/-- Model of `PieskieoDb::delete_row_ns` (engine.rs lines 826-857). -/
def delete_row_ns (walErr : Option String) (st : Engine) (ns tbl : Option String)
    (id : Uuid) : Except PieskieoError Unit × Engine :=
  if st.owns id = false then (.error .WrongShard, st)
  else
    match append_record walErr st
        (.del .Row id (some (nsKey ns)) none (some (nsKey tbl))) with
    | .error e => (.error e, st)
    | .ok st1 =>
      let ns_key := nsKey ns
      let tbl_key := nsKey tbl
      match alget st1.mem.data.rows ns_key with
      | none => (.ok (), st1)
      | some nsm =>
        match alget nsm tbl_key with
        | none => (.ok (), st1)
        | some inner =>
          match alget inner id with
          | none => (.ok (), st1)
          | some old =>
            let data := st1.mem.data
            let data2 := { data with
              rows := alput data.rows ns_key (alput nsm tbl_key (alerase inner id)),
              row_index := index_remove_into data.row_index ns_key tbl_key id old }
            (.ok (), { st1 with
              mem := { st1.mem with data := data2 },
              stats := { st1.stats with rows := bumpStat st1.stats.rows ns_key tbl_key (-1) } })

/-- Model of `PieskieoDb::get_doc_ns` (engine.rs lines 867-882): a non-owned
key returns `None` before any lookup. -/
def get_doc_ns (st : Engine) (ns coll : Option String) (id : Uuid) : Option JValue :=
  if st.owns id = false then none
  else (alget2 st.mem.data.docs (nsKey ns) (nsKey coll)).bind (fun inner => alget inner id)

/-- Model of `PieskieoDb::get_doc` (engine.rs lines 884-886). -/
def get_doc (st : Engine) (id : Uuid) : Option JValue :=
  get_doc_ns st none none id

/-- Model of `PieskieoDb::get_row_ns` (engine.rs lines 888-898). -/
def get_row_ns (st : Engine) (ns tbl : Option String) (id : Uuid) : Option JValue :=
  if st.owns id = false then none
  else (alget2 st.mem.data.rows (nsKey ns) (nsKey tbl)).bind (fun inner => alget inner id)

/-- Model of `PieskieoDb::get_row` (engine.rs lines 900-902). -/
def get_row (st : Engine) (id : Uuid) : Option JValue :=
  get_row_ns st none none id

/-- Model of `VectorIndex::with_params` as invoked with the engine defaults. -/
def withParams (p : VectorParams) : VectorIndex :=
  VectorIndex.with_params p.metric p.ef_construction p.ef_search p.max_elements

/-- Model of `PieskieoDb::vector_index` (engine.rs lines 410-424): fetch the
namespace index or create one with the default parameters. -/
def vector_index (st : Engine) (ns : String) : VectorIndex × Engine :=
  match alget st.mem.vectors ns with
  | some idx => (idx, st)
  | none =>
    let idx := withParams st.default_params
    (idx, { st with mem := { st.mem with vectors := alput st.mem.vectors ns idx } })

/-- Model of `PieskieoDb::add_edge` (engine.rs lines 1206-1221): shard check
on `src`, WAL append of a Graph put, then the adjacency update. -/
def add_edge (walErr : Option String) (st : Engine) (src dst : Uuid) (weight : Rat) :
    Except PieskieoError Unit × Engine :=
  if st.owns src = false then (.error .WrongShard, st)
  else
    match append_record walErr st
        (.put .Graph src (.edgeVal ⟨src, dst, weight⟩) none none none) with
    | .error e => (.error e, st)
    | .ok st1 =>
      (.ok (), { st1 with mem := { st1.mem with
        graph := GraphStore.add_edge st1.mem.graph src dst weight } })

/-- Model of `PieskieoDb::auto_link_neighbors` (engine.rs lines 1095-1123).
The ANN search result is abstracted as the oracle `annHits` (its scores are
`f32` computations); with `link_top_k = 0` the function returns at once,
and every theorem below runs in that configuration. -/
def auto_link_neighbors (walErr : Option String) (annHits : List (Uuid × Rat))
    (st : Engine) (id : Uuid) (ns : String) : Engine :=
  if st.link_top_k = 0 then st
  else
    match (alget st.mem.vectors ns).bind (fun idx => alget idx.inner id) with
    | none => st
    | some _ =>
      let hits := (annHits.filter (fun h => h.1 ≠ id)).take st.link_top_k
      hits.foldl
        (fun acc h =>
          let weight := 1 / (1 + |h.2|)
          let acc1 := (add_edge walErr acc id h.1 weight).2
          (add_edge walErr acc1 h.1 id weight).2)
        st

/-- Model of `PieskieoDb::put_vector_with_meta_ns` (engine.rs lines 997-1026):
shard check, WAL append of the `VecWalRecord` payload, vector-index
insert (which can itself fail after the append), reverse-map update, and
best-effort auto-linking. -/
def put_vector_with_meta_ns (walErr : Option String) (normF : List Rat → List Rat)
    (annHits : List (Uuid × Rat)) (st : Engine) (ns : Option String) (id : Uuid)
    (vector : List Rat) (meta : Option (List (String × String))) :
    Except PieskieoError Unit × Engine :=
  if st.owns id = false then (.error .WrongShard, st)
  else
    let nspace := nsKey ns
    match append_record walErr st
        (.put .Vec id (.vecRec ⟨some nspace, vector, meta⟩) (some nspace) none none) with
    | .error e => (.error e, st)
    | .ok st1 =>
      let p := vector_index st1 nspace
      match VectorIndex.insertP normF p.1 id vector meta with
      | (.error e, _) => (.error e, p.2)
      | (.ok _, idx2) =>
        let st3 := { p.2 with mem := { p.2.mem with
          vectors := alput p.2.mem.vectors nspace idx2,
          vector_ns := alput p.2.mem.vector_ns id nspace } }
        (.ok (), auto_link_neighbors walErr annHits st3 id nspace)

/-- Model of `PieskieoDb::put_vector` (engine.rs lines 980-982). -/
def put_vector (walErr : Option String) (normF : List Rat → List Rat)
    (annHits : List (Uuid × Rat)) (st : Engine) (id : Uuid) (vector : List Rat) :
    Except PieskieoError Unit × Engine :=
  put_vector_with_meta_ns walErr normF annHits st none id vector none

/-- Model of `PieskieoDb::delete_vector` (engine.rs lines 1073-1093): shard
check, namespace from the reverse map, WAL append, tombstone-marking
delete on the index if the namespace exists, reverse-map removal. -/
def delete_vector (walErr : Option String) (st : Engine) (id : Uuid) :
    Except PieskieoError Unit × Engine :=
  if st.owns id = false then (.error .WrongShard, st)
  else
    let ns := (alget st.mem.vector_ns id).getD "default"
    match append_record walErr st (.del .Vec id (some ns) none none) with
    | .error e => (.error e, st)
    | .ok st1 =>
      let vecs :=
        match alget st1.mem.vectors ns with
        | some idx => alput st1.mem.vectors ns (idx.delete id)
        | none => st1.mem.vectors
      (.ok (), { st1 with mem := { st1.mem with
        vectors := vecs, vector_ns := alerase st1.mem.vector_ns id } })

/-- Model of `PieskieoDb::get_vector` (engine.rs lines 1242-1253).  The source
calls `vector_index`, which also creates a missing namespace index; that
side effect produces an empty index, does not change the returned value
and is not modelled here. -/
def get_vector (st : Engine) (id : Uuid) :
    Option (List Rat × Option (List (String × String))) :=
  let ns := (alget st.mem.vector_ns id).getD "default"
  match alget st.mem.vectors ns with
  | some idx => (alget idx.inner id).map (fun v => (v, alget idx.meta id))
  | none => none

/-- Model of `PieskieoDb::set_doc_schema` (engine.rs lines 772-795). -/
def set_doc_schema (walErr : Option String) (st : Engine) (ns coll : Option String)
    (schema : SchemaDef) : Except PieskieoError Unit × Engine :=
  match append_record walErr st
      (.schemaRec .Doc (some (nsKey ns)) (some (nsKey coll)) none schema) with
  | .error e => (.error e, st)
  | .ok st1 =>
    let data := st1.mem.data
    let data2 := { data with
      doc_schema := alupd data.doc_schema (nsKey ns) [] (fun m => alput m (nsKey coll) schema) }
    (.ok (), { st1 with mem := { st1.mem with data := data2 } })

/-- Model of `PieskieoDb::set_row_schema` (engine.rs lines 797-820). -/
def set_row_schema (walErr : Option String) (st : Engine) (ns tbl : Option String)
    (schema : SchemaDef) : Except PieskieoError Unit × Engine :=
  match append_record walErr st
      (.schemaRec .Row (some (nsKey ns)) none (some (nsKey tbl)) schema) with
  | .error e => (.error e, st)
  | .ok st1 =>
    let data := st1.mem.data
    let data2 := { data with
      row_schema := alupd data.row_schema (nsKey ns) [] (fun m => alput m (nsKey tbl) schema) }
    (.ok (), { st1 with mem := { st1.mem with data := data2 } })

/-! Opening an engine (engine.rs `open_with_params`, lines 426-645): replay
the WAL from byte 0 into fresh memory.  The vector-snapshot layering is
skipped here (it only applies when snapshot files exist on disk; the
durability claim is settled for the WAL-only reconstruction). -/

/-- The memory state before replay: empty collections, one default-namespace
vector index built from the parameters, empty reverse map and graph. -/
def initMem (params : VectorParams) : Mem :=
  { data := Collections.empty, vectors := [("default", withParams params)],
    vector_ns := [], graph := [] }

/-- One record of the replay loop of `open_with_params` (engine.rs lines
449-583). -/
def openStep (normF : List Rat → List Rat) (params : VectorParams) (m : Mem) (rec : Rec) :
    Except PieskieoError Mem :=
  match rec with
  | .put family key payload nso collo tblo =>
    match family with
    | .Doc =>
      let ns := nsKey nso
      let col := nsKey collo
      match payload.decodeJson with
      | .error e => .error e
      | .ok v =>
        .ok { m with data := { m.data with
          docs := docsInsert m.data.docs ns col key v,
          doc_index := index_upsert_into m.data.doc_index ns col key v } }
    | .Row =>
      let ns := nsKey nso
      let tbl := nsKey tblo
      match payload.decodeJson with
      | .error e => .error e
      | .ok v =>
        .ok { m with data := { m.data with
          rows := docsInsert m.data.rows ns tbl key v,
          row_index := index_upsert_into m.data.row_index ns tbl key v } }
    | .Vec =>
      match payload.decodeVecRec with
      | some r =>
        let ns := nsKey r.nspace
        let idx := (alget m.vectors ns).getD (withParams params)
        let idx2 := (VectorIndex.insertP normF idx key r.vector r.meta).2
        .ok { m with vectors := alput m.vectors ns idx2,
                     vector_ns := alput m.vector_ns key ns }
      | none =>
        match payload.decodeF32 with
        | .error e => .error e
        | .ok vec =>
          match alget m.vectors "default" with
          | some idx =>
            let idx2 := (VectorIndex.insertP normF idx key vec none).2
            .ok { m with vectors := alput m.vectors "default" idx2,
                         vector_ns := alput m.vector_ns key "default" }
          | none => .ok m
    | .Graph =>
      match payload.decodeEdge with
      | .error e => .error e
      | .ok e => .ok { m with graph := GraphStore.add_edge m.graph e.src e.dst e.weight }
  | .del family key nso collo tblo =>
    match family with
    | .Doc =>
      let ns := nsKey nso
      let col := nsKey collo
      match alget m.data.docs ns with
      | none => .ok m
      | some nsm =>
        match alget nsm col with
        | none => .ok m
        | some inner =>
          match alget inner key with
          | none => .ok m
          | some old =>
            .ok { m with data := { m.data with
              docs := alput m.data.docs ns (alput nsm col (alerase inner key)),
              doc_index := index_remove_into m.data.doc_index ns col key old } }
    | .Row =>
      let ns := nsKey nso
      let tbl := nsKey tblo
      match alget m.data.rows ns with
      | none => .ok m
      | some nsm =>
        match alget nsm tbl with
        | none => .ok m
        | some inner =>
          match alget inner key with
          | none => .ok m
          | some old =>
            .ok { m with data := { m.data with
              rows := alput m.data.rows ns (alput nsm tbl (alerase inner key)),
              row_index := index_remove_into m.data.row_index ns tbl key old } }
    | .Vec =>
      let ns := nsKey nso
      match alget m.vectors ns with
      | some idx =>
        .ok { m with vectors := alput m.vectors ns (idx.delete key),
                     vector_ns := alerase m.vector_ns key }
      | none => .ok m
    | .Graph => .ok m
  | .schemaRec family nso collo tblo schema =>
    match family with
    | .Doc =>
      .ok { m with data := { m.data with
        doc_schema := alupd m.data.doc_schema (nsKey nso) []
          (fun mm => alput mm (nsKey collo) schema) } }
    | .Row =>
      .ok { m with data := { m.data with
        row_schema := alupd m.data.row_schema (nsKey nso) []
          (fun mm => alput mm (nsKey tblo) schema) } }
    | _ => .ok m
  | .addEdge src dst weight =>
    .ok { m with graph := GraphStore.add_edge m.graph src dst weight }

/-- Replay a record list left to right, stopping at the first error
(errors during replay are fatal and prevent `open`). -/
def replaySteps (normF : List Rat → List Rat) (params : VectorParams) :
    List Rec → Mem → Except PieskieoError Mem
  | [], m => .ok m
  | r :: rest, m =>
    match openStep normF params m r with
    | .error e => .error e
    | .ok m2 => replaySteps normF params rest m2

/-- The memory `open_with_params` reconstructs from a WAL record list. -/
def replayMem (normF : List Rat → List Rat) (params : VectorParams) (recs : List Rec) :
    Except PieskieoError Mem :=
  replaySteps normF params recs (initMem params)

/-- The engine value `open_with_params` returns (engine.rs lines 632-644):
the given replayed memory, zeroed stats, and the shard fields derived from
the parameters (`shard_total` clamped to at least 1). -/
def mkOpened (params : VectorParams) (recs : List Rec) (m : Mem) : Engine :=
  { wal := recs, mem := m, stats := Stats.empty, link_top_k := params.link_top_k,
    shard_id := params.shard_id, shard_total := max params.shard_total 1,
    default_params := params }

/-- Model of `PieskieoDb::apply_record` (engine.rs lines 1400-1539), the
replication re-apply.  It differs from the open-replay step: deletes scrub
the id from every index entry, the Vec fallback inserts an empty vector,
and Graph payload decode failures are swallowed. -/
def apply_record (normF : List Rat → List Rat) (st : Engine) (rec : Rec) :
    Except PieskieoError Unit × Engine :=
  match rec with
  | .put family key payload nso collo tblo =>
    match family with
    | .Doc =>
      let ns := nsKey nso
      let col := nsKey collo
      match payload.decodeJson with
      | .error e => (.error e, st)
      | .ok v =>
        (.ok (), { st with mem := { st.mem with data := { st.mem.data with
          docs := docsInsert st.mem.data.docs ns col key v,
          doc_index := index_upsert_into st.mem.data.doc_index ns col key v } } })
    | .Row =>
      let ns := nsKey nso
      let tbl := nsKey tblo
      match payload.decodeJson with
      | .error e => (.error e, st)
      | .ok v =>
        (.ok (), { st with mem := { st.mem with data := { st.mem.data with
          rows := docsInsert st.mem.data.rows ns tbl key v,
          row_index := index_upsert_into st.mem.data.row_index ns tbl key v } } })
    | .Vec =>
      match payload.decodeVecRec with
      | some r =>
        let ns := nsKey r.nspace
        let p := vector_index st ns
        match VectorIndex.insertP normF p.1 key r.vector r.meta with
        | (.error e, _) => (.error e, p.2)
        | (.ok _, idx2) =>
          (.ok (), { p.2 with mem := { p.2.mem with
            vectors := alput p.2.mem.vectors ns idx2,
            vector_ns := alput p.2.mem.vector_ns key ns } })
      | none =>
        let p := vector_index st "default"
        match VectorIndex.insertP normF p.1 key [] none with
        | (.error e, _) => (.error e, p.2)
        | (.ok _, idx2) =>
          (.ok (), { p.2 with mem := { p.2.mem with
            vectors := alput p.2.mem.vectors "default" idx2,
            vector_ns := alput p.2.mem.vector_ns key "default" } })
    | .Graph =>
      match payload.decodeEdge with
      | .error _ => (.ok (), st)
      | .ok e =>
        (.ok (), { st with mem := { st.mem with
          graph := GraphStore.add_edge st.mem.graph e.src e.dst e.weight } })
  | .del family key nso collo tblo =>
    match family with
    | .Doc =>
      let ns := nsKey nso
      let col := nsKey collo
      let docs2 :=
        match alget st.mem.data.docs ns with
        | none => st.mem.data.docs
        | some nsm =>
          match alget nsm col with
          | none => st.mem.data.docs
          | some inner => alput st.mem.data.docs ns (alput nsm col (alerase inner key))
      (.ok (), { st with mem := { st.mem with data := { st.mem.data with
        docs := docs2,
        doc_index := index_scrub_all st.mem.data.doc_index ns col key } } })
    | .Row =>
      let ns := nsKey nso
      let tbl := nsKey tblo
      let rows2 :=
        match alget st.mem.data.rows ns with
        | none => st.mem.data.rows
        | some nsm =>
          match alget nsm tbl with
          | none => st.mem.data.rows
          | some inner => alput st.mem.data.rows ns (alput nsm tbl (alerase inner key))
      (.ok (), { st with mem := { st.mem with data := { st.mem.data with
        rows := rows2,
        row_index := index_scrub_all st.mem.data.row_index ns tbl key } } })
    | .Vec =>
      match alget st.mem.vector_ns key with
      | some ns =>
        let p := vector_index st ns
        (.ok (), { p.2 with mem := { p.2.mem with
          vectors := alput p.2.mem.vectors ns (p.1.delete key),
          vector_ns := alerase p.2.mem.vector_ns key } })
      | none => (.ok (), st)
    | .Graph => (.ok (), st)
  | .schemaRec family nso collo tblo schema =>
    match family with
    | .Doc =>
      (.ok (), { st with mem := { st.mem with data := { st.mem.data with
        doc_schema := alupd st.mem.data.doc_schema (nsKey nso) []
          (fun mm => alput mm (nsKey collo) schema) } } })
    | .Row =>
      (.ok (), { st with mem := { st.mem with data := { st.mem.data with
        row_schema := alupd st.mem.data.row_schema (nsKey nso) []
          (fun mm => alput mm (nsKey tblo) schema) } } })
    | _ => (.ok (), st)
  | .addEdge src dst weight =>
    (.ok (), { st with mem := { st.mem with
      graph := GraphStore.add_edge st.mem.graph src dst weight } })

/-- One iteration of `PieskieoDb::apply_records` (engine.rs lines 1392-1398):
append to this WAL, then re-apply in memory. -/
def apply_one (walErr : Option String) (normF : List Rat → List Rat) (st : Engine)
    (rec : Rec) : Except PieskieoError Unit × Engine :=
  match append_record walErr st rec with
  | .error e => (.error e, st)
  | .ok st1 => apply_record normF st1 rec

/-- Model of `PieskieoDb::vacuum` (engine.rs lines 1319-1338): drop
tombstoned vectors and clear tombstones, rebuild (which only re-ensures id
mappings in this model), then persist snapshots and truncate the WAL.
Snapshot or truncation I/O failure is modelled by the `ioErr` oracle and
leaves the WAL untruncated. -/
def vacuum (ioErr : Option String) (st : Engine) : Except PieskieoError Unit × Engine :=
  let vecs := st.mem.vectors.map (fun p =>
    let idx := p.2
    let inner2 :=
      if idx.tombstones.isEmpty then idx.inner
      else idx.inner.filter (fun q => !(q.1 ∈ idx.tombstones))
    let maps := ensureIds inner2 [] (idx.id_map, idx.rev_map, idx.next_id)
    (p.1, { idx with
            inner := inner2, tombstones := [],
            id_map := maps.1, rev_map := maps.2.1, next_id := maps.2.2 }))
  let st1 := { st with mem := { st.mem with vectors := vecs } }
  match ioErr with
  | some msg => (.error (.Io msg), st1)
  | none => (.ok (), { st1 with wal := [] })

/-! Filtered queries (engine.rs lines 2245-2440): full scans and the
secondary-index candidate path with its cost heuristic. -/

/-- Model of `collect_filtered_inner` (engine.rs lines 2331-2357): scan one
collection, keeping owned, matching entries past the offset, up to the
limit.  Returns the output together with the running skip counter (shared
across collections by the multi-collection scans). -/
def collect_filtered_inner (sid stot : Nat) (filter : List (String × JValue))
    (limit offset : Nat) : List (Uuid × JValue) → Nat → List (Uuid × JValue) →
    List (Uuid × JValue) × Nat
  | [], skipped, out => (out, skipped)
  | (id, v) :: rest, skipped, out =>
    if ownsFn sid stot id = false then
      collect_filtered_inner sid stot filter limit offset rest skipped out
    else if value_matches v filter = false then
      collect_filtered_inner sid stot filter limit offset rest skipped out
    else if skipped < offset then
      collect_filtered_inner sid stot filter limit offset rest (skipped + 1) out
    else if out.length < limit then
      let out2 := out ++ [(id, v)]
      if limit ≤ out2.length then (out2, skipped)
      else collect_filtered_inner sid stot filter limit offset rest skipped out2
    else collect_filtered_inner sid stot filter limit offset rest skipped out

/-- The multi-collection scan of `filter_map` (engine.rs lines 2273-2326),
over the list of reachable collections.  (The source breaks out of a loop
level once the limit is reached; since a full output admits no further
push, stopping outright yields the same output.) -/
def filter_map_inners (sid stot : Nat) (filter : List (String × JValue))
    (limit offset : Nat) : List (List (Uuid × JValue)) → List (Uuid × JValue) → Nat →
    List (Uuid × JValue)
  | [], out, _ => out
  | inner :: rest, out, skipped =>
    let p := collect_filtered_inner sid stot filter limit offset inner skipped out
    if limit ≤ p.1.length then p.1
    else filter_map_inners sid stot filter limit offset rest p.1 p.2

/-- Model of `PieskieoDb::filter_map` (engine.rs lines 2246-2329): the full
scan, over the collections selected by the optional namespace and
collection arguments. -/
def filter_map (sid stot : Nat) (map : DocMap) (ns coll : Option String)
    (filter : List (String × JValue)) (limit offset : Nat) : List (Uuid × JValue) :=
  match ns, coll with
  | some nsv, some collv =>
    match alget2 map nsv collv with
    | some inner => (collect_filtered_inner sid stot filter limit offset inner 0 []).1
    | none => []
  | some nsv, none =>
    match alget map nsv with
    | some nsm => filter_map_inners sid stot filter limit offset (nsm.map Prod.snd) [] 0
    | none => []
  | none, some collv =>
    filter_map_inners sid stot filter limit offset
      (map.filterMap (fun nsm => alget nsm.2 collv)) [] 0
  | none, none =>
    filter_map_inners sid stot filter limit offset
      ((map.map Prod.snd).flatMap (fun nsm => nsm.map Prod.snd)) [] 0

/-- The candidate-gathering fold of `filter_map_with_index` (engine.rs lines
2387-2404): probe the index for each scalar filter value and intersect the
entry lists that were found. -/
def gather_candidates (colMap : List (String × List (String × List Uuid)))
    (filter : List (String × JValue)) : Option (List Uuid) :=
  filter.foldl
    (fun cand p =>
      match index_key p.2 with
      | none => cand
      | some key =>
        match alget colMap p.1 with
        | none => cand
        | some fm =>
          match alget fm key with
          | none => cand
          | some ids =>
            some (match cand with
              | none => ids
              | some prev => ids.filter (fun i => i ∈ prev)))
    none

/-- The candidate-iteration loop of `filter_map_with_index` (engine.rs lines
2411-2431): look each candidate up in the collection, re-check the full
predicate, apply offset and limit. -/
def candidate_loop (sid stot : Nat) (inner : List (Uuid × JValue))
    (filter : List (String × JValue)) (limit offset : Nat) :
    List Uuid → Nat → List (Uuid × JValue) → List (Uuid × JValue)
  | [], _, out => out
  | id :: rest, skipped, out =>
    if ownsFn sid stot id = false then
      candidate_loop sid stot inner filter limit offset rest skipped out
    else
      match alget inner id with
      | none => candidate_loop sid stot inner filter limit offset rest skipped out
      | some v =>
        if value_matches v filter = false then
          candidate_loop sid stot inner filter limit offset rest skipped out
        else if skipped < offset then
          candidate_loop sid stot inner filter limit offset rest (skipped + 1) out
        else
          let out2 := out ++ [(id, v)]
          if limit ≤ out2.length then out2
          else candidate_loop sid stot inner filter limit offset rest skipped out2

/-- Model of `PieskieoDb::filter_map_with_index` (engine.rs lines 2359-2440).
Note the cost estimate reads the engine doc stats whichever family is
being queried (the source always consults `self.stats.docs`), falling back
to the collection size; `estimated <= max(total/2, 10)` selects the
candidate path, anything else falls back to the full scan. -/
def filter_map_with_index (sid stot : Nat) (statsDocs : List (String × List (String × Nat)))
    (map : DocMap) (index : IndexMap) (ns coll : Option String)
    (filter : List (String × JValue)) (limit offset : Nat) : List (Uuid × JValue) :=
  match ns, coll with
  | some nsv, some collv =>
    match alget index nsv with
    | none => filter_map sid stot map ns coll filter limit offset
    | some ns_map =>
      match alget ns_map collv with
      | none => filter_map sid stot map ns coll filter limit offset
      | some col_map =>
        let total_rows :=
          match alget2 statsDocs nsv collv with
          | some n => n
          | none => ((alget2 map nsv collv).map List.length).getD 0
        match gather_candidates col_map filter with
        | none => filter_map sid stot map ns coll filter limit offset
        | some ids =>
          match alget2 map nsv collv with
          | none => filter_map sid stot map ns coll filter limit offset
          | some inner =>
            if ids.length ≤ max (total_rows / 2) 10 then
              candidate_loop sid stot inner filter limit offset ids 0 []
            else filter_map sid stot map ns coll filter limit offset
  | _, _ => filter_map sid stot map ns coll filter limit offset

/-- Model of `PieskieoDb::query_docs_ns` (engine.rs lines 913-931). -/
def query_docs_ns (st : Engine) (ns coll : Option String)
    (filter : List (String × JValue)) (limit offset : Nat) : List (Uuid × JValue) :=
  filter_map_with_index st.shard_id st.shard_total st.stats.docs
    st.mem.data.docs st.mem.data.doc_index ns coll filter limit offset

/-- Model of `PieskieoDb::query_rows_ns` (engine.rs lines 942-960); the cost
estimate still reads the doc stats, per the source. -/
def query_rows_ns (st : Engine) (ns tbl : Option String)
    (filter : List (String × JValue)) (limit offset : Nat) : List (Uuid × JValue) :=
  filter_map_with_index st.shard_id st.shard_total st.stats.docs
    st.mem.data.rows st.mem.data.row_index ns tbl filter limit offset

/-! Global SQL aggregates (engine.rs `exec_select` lines 1796-1836, `parse_agg`
lines 2076-2115, helpers lines 2117-2128).  The `sqlparser` front end is
an external crate; the aggregate expressions are modelled at the level the
engine consumes them. -/

inductive AggKind where
  | count : AggKind
  | sum : AggKind
  | avg : AggKind
  | amin : AggKind
  | amax : AggKind
deriving DecidableEq

/-- Model of `AggExpr` (engine.rs lines 1655-1660); `aliasName` is the `alias`
field. -/
structure AggExpr where
  aliasName : String
  field : Option String
  kind : AggKind
deriving DecidableEq

/-- An aggregate argument as `parse_agg` inspects it. -/
inductive AggArgM where
  | wildcard : AggArgM
  | ident (s : String) : AggArgM
deriving DecidableEq

/-- Model of `PieskieoDb::parse_agg` (engine.rs lines 2076-2115): the function
name is lowercased, and the default alias is that lowercased name. -/
def parse_agg (fname : String) (args : List AggArgM) (aliasO : Option String) :
    Except PieskieoError AggExpr :=
  let name := fname.toLower
  let kindO : Option AggKind :=
    if name = "count" then some .count
    else if name = "sum" then some .sum
    else if name = "avg" then some .avg
    else if name = "min" then some .amin
    else if name = "max" then some .amax
    else none
  match kindO with
  | none => .error (.Internal "aggregate function not supported")
  | some kind =>
    match args.head? with
    | some .wildcard =>
      if kind = .count then .ok ⟨aliasO.getD name, none, kind⟩
      else .error (.Internal "only count star supports wildcard")
    | some (.ident id) => .ok ⟨aliasO.getD name, some id, kind⟩
    | none => .ok ⟨aliasO.getD name, none, kind⟩

/-- Model of `PieskieoDb::collect_nums` (engine.rs lines 2117-2122): the field
values that exist and are numeric. -/
def collect_nums (rows : List (Uuid × JValue)) (field : String) : List Rat :=
  rows.filterMap (fun p => (jget p.2 field).bind asF64)

/-- Model of `PieskieoDb::num_or_null` (engine.rs lines 2124-2128):
`Number::from_f64` is `None` only for non-finite floats, which the exact
rational model excludes, so this always yields a number. -/
def num_or_null (x : Rat) : JValue :=
  .num x

/-- One aggregate of the aggregation block of `exec_select` (engine.rs lines
1799-1829). -/
def aggValue (rows : List (Uuid × JValue)) (agg : AggExpr) : JValue :=
  match agg.kind with
  | .count => .num ((rows.length : Nat) : Rat)
  | .sum =>
    num_or_null ((collect_nums rows (agg.field.getD "")).foldl (fun a b => a + b) 0)
  | .avg =>
    let nums := collect_nums rows (agg.field.getD "")
    if nums.isEmpty then .null
    else num_or_null ((nums.foldl (fun a b => a + b) 0) / ((nums.length : Nat) : Rat))
  | .amin =>
    (((collect_nums rows (agg.field.getD "")).foldl
        (fun acc v => some (match acc with | some a => min a v | none => v)) none).map
      num_or_null).getD .null
  | .amax =>
    (((collect_nums rows (agg.field.getD "")).foldl
        (fun acc v => some (match acc with | some a => max a v | none => v)) none).map
      num_or_null).getD .null

/-- The aggregation block of `exec_select` (engine.rs lines 1796-1836): a
single row keyed by the nil UUID whose object carries one field per
aggregate under its alias (later duplicates overwrite, as in the
`serde_json::Map` the source builds). -/
def exec_select_aggs (aggs : List AggExpr) (rows : List (Uuid × JValue)) :
    List (Uuid × JValue) :=
  [(nilUuid, .obj (JObj.ofList
    (aggs.foldl (fun obj a => alput obj a.aliasName (aggValue rows a)) [])))]

/-- A concrete one-byte record codec for exercising `replayFrames`: the
payload `[7]` decodes to the record `1`, anything else is undecodable. -/
def decNat (l : List Nat) : Option Nat :=
  if l = [7] then some 1 else none

/-! Well-formedness of the doc/row maps and their secondary indexes, and
the reachable engine states. -/

/-- Every stored collection has unique ids (the source maps are
`BTreeMap<Uuid, _>`). -/
def InnersNodup (m : DocMap) : Prop :=
  ∀ ns coll inner, alget2 m ns coll = some inner → (inner.map Prod.fst).Nodup

/-- Every index entry lists each id at most once (the source pushes only
absent ids). -/
def EntriesNodup (idx : IndexMap) : Prop :=
  ∀ ns coll f k ids, idxget idx ns coll f k = some ids → ids.Nodup

/-- Every indexable scalar field of every stored value is reachable through
the secondary equality index. -/
def IndexComplete (m : DocMap) (idx : IndexMap) : Prop :=
  ∀ ns coll inner, alget2 m ns coll = some inner →
    ∀ id v, (id, v) ∈ inner → ∀ fl fv k, jget v fl = some fv → index_key fv = some k →
      ∃ ids, idxget idx ns coll fl k = some ids ∧ id ∈ ids

/-- Well-formedness of one map/index pair. -/
def SideWF (m : DocMap) (idx : IndexMap) : Prop :=
  InnersNodup m ∧ EntriesNodup idx ∧ IndexComplete m idx

/-- Well-formedness of a reconstructed memory: both sides. -/
def MemWF (m : Mem) : Prop :=
  SideWF m.data.docs m.data.doc_index ∧ SideWF m.data.rows m.data.row_index

/-- Well-formedness of an engine state. -/
def EngineWF (st : Engine) : Prop :=
  MemWF st.mem

/-- The engine states reachable through the public API: a successful
`open_with_params` (replaying any WAL), followed by any sequence of keyed
mutations, schema updates, replication applies, and vacuums (read-only
operations do not change the state). -/
inductive Reached : Engine → Prop where
  | opened (normF : List Rat → List Rat) (params : VectorParams) (recs : List Rec)
      (m : Mem) (h : replayMem normF params recs = .ok m) :
      Reached (mkOpened params recs m)
  | put_doc_step (walErr : Option String) (st : Engine) (ns coll : Option String)
      (id : Uuid) (json : JValue) (h : Reached st) :
      Reached (put_doc_ns walErr st ns coll id json).2
  | put_row_step (walErr : Option String) (st : Engine) (ns tbl : Option String)
      (id : Uuid) (json : JValue) (h : Reached st) :
      Reached (put_row_ns walErr st ns tbl id json).2
  | delete_doc_step (walErr : Option String) (st : Engine) (ns coll : Option String)
      (id : Uuid) (h : Reached st) :
      Reached (delete_doc_ns walErr st ns coll id).2
  | delete_row_step (walErr : Option String) (st : Engine) (ns tbl : Option String)
      (id : Uuid) (h : Reached st) :
      Reached (delete_row_ns walErr st ns tbl id).2
  | put_vector_step (walErr : Option String) (normF : List Rat → List Rat)
      (annHits : List (Uuid × Rat)) (st : Engine) (ns : Option String) (id : Uuid)
      (vector : List Rat) (meta : Option (List (String × String))) (h : Reached st) :
      Reached (put_vector_with_meta_ns walErr normF annHits st ns id vector meta).2
  | delete_vector_step (walErr : Option String) (st : Engine) (id : Uuid)
      (h : Reached st) : Reached (delete_vector walErr st id).2
  | add_edge_step (walErr : Option String) (st : Engine) (src dst : Uuid) (w : Rat)
      (h : Reached st) : Reached (add_edge walErr st src dst w).2
  | set_doc_schema_step (walErr : Option String) (st : Engine) (ns coll : Option String)
      (schema : SchemaDef) (h : Reached st) :
      Reached (set_doc_schema walErr st ns coll schema).2
  | set_row_schema_step (walErr : Option String) (st : Engine) (ns tbl : Option String)
      (schema : SchemaDef) (h : Reached st) :
      Reached (set_row_schema walErr st ns tbl schema).2
  | apply_step (walErr : Option String) (normF : List Rat → List Rat) (st : Engine)
      (rec : Rec) (h : Reached st) : Reached (apply_one walErr normF st rec).2
  | vacuum_step (ioErr : Option String) (st : Engine) (h : Reached st) :
      Reached (vacuum ioErr st).2

/-! Named fold bodies and derived lookups used by the proofs. -/

/-- The fold body of `index_upsert_into`. -/
def upsertStep (ns coll : String) (id : Uuid) (acc : IndexMap) (p : String × JValue) :
    IndexMap :=
  match index_key p.2 with
  | none => acc
  | some key => index_push acc ns coll p.1 key id

/-- The fold body of `index_remove_into`. -/
def removeStep (ns coll : String) (id : Uuid) (acc : IndexMap) (p : String × JValue) :
    IndexMap :=
  match index_key p.2 with
  | none => acc
  | some key => index_pull acc ns coll p.1 key id

/-- The fold body of `gather_candidates`. -/
def gatherStep (colMap : List (String × List (String × List Uuid)))
    (cand : Option (List Uuid)) (p : String × JValue) : Option (List Uuid) :=
  match index_key p.2 with
  | none => cand
  | some key =>
    match alget colMap p.1 with
    | none => cand
    | some fm =>
      match alget fm key with
      | none => cand
      | some ids =>
        some (match cand with
          | none => ids
          | some prev => ids.filter (fun i => i ∈ prev))

/-- What one candidate contributes to the output of `candidate_loop` when no
offset or limit truncation is in effect: the candidate is kept when it is
owned, present in the collection and passes the predicate. -/
def candFilter (sid stot : Nat) (inner : List (Uuid × JValue))
    (filter : List (String × JValue)) (id : Uuid) : Option (Uuid × JValue) :=
  if ownsFn sid stot id = false then none
  else
    match alget inner id with
    | none => none
    | some v => if value_matches v filter = false then none else some (id, v)

/-- Looking up an edge by destination in a source bucket, as `neighbors`
exposes the bucket. -/
def edgeLookup (g : GraphStore) (src dst : Uuid) : Option Edge :=
  ((alget g src).getD []).find? (fun e => decide (e.dst = dst))

/-! Concrete states used by the witnesses and counterexamples. -/

/-- A second UUID, distinct from `nilUuid`. -/
def uuidB : Uuid := 1 :: List.replicate 15 0

/-- A third UUID, distinct from the other two. -/
def uuidC : Uuid := 2 :: List.replicate 15 0

/-- A kaededb vector index holding one 2-dimensional vector, obtained by a
successful insert into a fresh index. -/
def c3Index : VectorIndex :=
  (VectorIndex.insert (fun v => v) (VectorIndex.with_params .L2 200 50 100000)
    nilUuid [1, 0] none).2

/-- An engine with two shards (this one is shard 0) whose memory holds a
document under the non-owned key `uuidB`. -/
def c10Engine : Engine :=
  { wal := [], stats := Stats.empty, link_top_k := 0, shard_id := 0, shard_total := 2,
    default_params := VectorParams.dfl,
    mem := { data := { Collections.empty with
               docs := [("default", [("default", [(uuidB, .str "x")])])] },
             vectors := [], vector_ns := [], graph := [] } }

/-- The engine obtained by opening a fresh data directory with the default
parameters (empty WAL, empty memory, single shard). -/
def emptyEngine : Engine :=
  mkOpened VectorParams.dfl [] (initMem VectorParams.dfl)

/-- Schema used by the C8 witness: one required, unique field. -/
def c8Schema : SchemaDef :=
  ⟨[("email", ⟨true, true, none⟩)]⟩

/-- Engine used by the C8 witness: the schema is attached to the default
doc collection, one document under `nilUuid` holds email `x@y`, and the
secondary index records it. -/
def c8Engine : Engine :=
  { emptyEngine with mem := { emptyEngine.mem with data := { Collections.empty with
      doc_schema := [("default", [("default", c8Schema)])],
      docs := [("default", [("default",
        [(nilUuid, .obj (.ocons "email" (.str "x@y") .onil))])])],
      doc_index := [("default", [("default", [("email", [("x@y", [nilUuid])])])])] } } }

/-- The document `{ "a": "1" }`. -/
def c9objA : JValue := .obj (.ocons "a" (.str "1") .onil)

/-- The document `{ "a": "2" }`. -/
def c9objB : JValue := .obj (.ocons "a" (.str "2") .onil)

/-- The engine after putting `{ "a": "1" }` under the nil UUID in the default
doc collection of a freshly opened engine. -/
def c9a : Engine :=
  (put_doc_ns none emptyEngine none none nilUuid c9objA).2

/-- The engine after overwriting that document with `{ "a": "2" }`. -/
def c9b : Engine :=
  (put_doc_ns none c9a none none nilUuid c9objB).2

/-! Theorems settling the claims. -/

/-- C1: the claim says `Wal::replay` tolerates a trailing frame truncated
at any byte position, inside the length prefix or inside the payload.
The code only catches `UnexpectedEof` on the 4-byte length read; the
payload `read_exact` propagates it.  At the concrete WAL below — one
complete frame encoding the record `1`, then a trailing frame whose
length prefix announces 2 payload bytes but only 1 is present — replay
returns an I/O error instead of the one complete record, diverging from
the claim; truncation inside the length prefix is tolerated as claimed. -/
theorem C1_replay_truncation_divergence :
    replayFrames decNat (frameBytes [7]) = .ok [1] ∧
    replayFrames decNat (frameBytes [7] ++ [2, 0]) = .ok [1] ∧
    replayFrames decNat (frameBytes [7] ++ [2, 0, 0, 0, 9]) =
      .error .ioUnexpectedEof := by
  refine ⟨?_, ?_, ?_⟩ <;>
    simp [replayFrames, frameBytes, decNat, leNat]

/-- C3 counterexample: the claim says a mismatched insert fails with a
`Validation`/`DimensionMismatch` error.  On the cited code
(`kaededb-core/src/vector.rs` line 122) the returned error is
`KaedeDbError::NotFound` — the error enum of that crate has no validation
or dimension variant at all — so the claim is false at this input. -/
theorem C3_counterexample :
    c3Index.dim = some 2 ∧
    VectorIndex.insert (fun v => v) c3Index uuidB [1, 2, 3] none =
      (.error KaedeDbError.NotFound, c3Index) ∧
    KaedeDbError.NotFound ≠ KaedeDbError.Serde "DimensionMismatch" := by
  refine ⟨by decide, rfl, by simp⟩

/-- C3 (amended): on a namespace index whose dimension is already set, an
insert of a vector of any other length fails with `KaedeDbError::NotFound`
(kaededb-core has no `Validation`/`DimensionMismatch` variant) and returns
the index exactly as it was — in particular the primary vector map and
the metadata map are identical before and after. -/
theorem C3_dimension_mismatch_rejected (normF : List Rat → List Rat)
    (idx : VectorIndex) (d : Nat) (hdim : idx.dim = some d) (id : Uuid)
    (vector : List Rat) (hlen : vector.length ≠ d)
    (meta : Option (List (String × String))) :
    VectorIndex.insert normF idx id vector meta = (.error .NotFound, idx) ∧
    (VectorIndex.insert normF idx id vector meta).2.inner = idx.inner ∧
    (VectorIndex.insert normF idx id vector meta).2.meta = idx.meta := by
  have h : VectorIndex.insert normF idx id vector meta = (.error .NotFound, idx) := by
    simp [VectorIndex.insert, hdim, hlen]
  exact ⟨h, by rw [h], by rw [h]⟩

/-- C3 witness: the amended theorem applied at the concrete index above and
a 3-dimensional vector. -/
theorem C3_dimension_mismatch_rejected_witness :
    c3Index.dim = some 2 ∧ ([1, 2, 3] : List Rat).length ≠ 2 ∧
    VectorIndex.insert (fun v => v) c3Index uuidB [1, 2, 3] none =
      (.error .NotFound, c3Index) :=
  ⟨by decide, by decide,
    (C3_dimension_mismatch_rejected (fun v => v) c3Index 2 (by decide) uuidB
      [1, 2, 3] (by decide) none).1⟩

/-- C10: on a non-owned key, the keyed reads `get_doc_ns` and `get_row_ns`
(and their default-namespace wrappers) return `None` — never a
`WrongShard` error (their return type has no error channel) and never
data, whatever the in-memory contents. -/
theorem C10_nonowned_reads_return_none (st : Engine) (id : Uuid)
    (h : st.owns id = false) (ns coll tbl : Option String) :
    get_doc_ns st ns coll id = none ∧ get_row_ns st ns tbl id = none ∧
    get_doc st id = none ∧ get_row st id = none := by
  refine ⟨?_, ?_, ?_, ?_⟩ <;> simp [get_doc, get_row, get_doc_ns, get_row_ns, h]

/-- C10 witness: shard 0 of 2 does not own `uuidB`; the read returns `None`
even though the document map holds a value for `uuidB`. -/
theorem C10_nonowned_reads_return_none_witness :
    c10Engine.owns uuidB = false ∧
    alget2 c10Engine.mem.data.docs "default" "default" = some [(uuidB, .str "x")] ∧
    get_doc c10Engine uuidB = none :=
  ⟨by decide, by decide,
    (C10_nonowned_reads_return_none c10Engine uuidB (by decide) none none none).2.2.1⟩

/-- C5: with shard count `S > 1`, exactly one shard index owns a UUID
(namely `u64_le(u[0..8]) mod S`, which is below `S`), and every keyed
write submitted to an engine that does not own the key fails with
`WrongShard`, returning the engine exactly as it was — nothing appended
to its WAL and no in-memory structure changed. -/
theorem C5_shard_ownership_unique (S : Nat) (hS : 1 < S) (u : Uuid) :
    (∃! i, ownsFn i S u = true) ∧
    (∀ i, ownsFn i S u = true → i < S) ∧
    (∀ st : Engine, st.owns u = false →
      ∀ (walErr : Option String) (normF : List Rat → List Rat)
        (annHits : List (Uuid × Rat)) (ns coll tbl : Option String) (json : JValue)
        (vector : List Rat) (meta : Option (List (String × String)))
        (dst : Uuid) (w : Rat),
        put_doc_ns walErr st ns coll u json = (.error .WrongShard, st) ∧
        put_row_ns walErr st ns tbl u json = (.error .WrongShard, st) ∧
        put_vector_with_meta_ns walErr normF annHits st ns u vector meta =
          (.error .WrongShard, st) ∧
        delete_doc_ns walErr st ns coll u = (.error .WrongShard, st) ∧
        delete_row_ns walErr st ns tbl u = (.error .WrongShard, st) ∧
        delete_vector walErr st u = (.error .WrongShard, st) ∧
        add_edge walErr st u dst w = (.error .WrongShard, st)) := by
  have hnot : ¬ S ≤ 1 := by omega
  refine ⟨⟨shard_hash u % S, ?_, ?_⟩, ?_, ?_⟩
  · simp [ownsFn, hnot]
  · intro j hj
    simp [ownsFn, hnot] at hj
    omega
  · intro i hi
    simp [ownsFn, hnot] at hi
    have := Nat.mod_lt (shard_hash u) (show 0 < S by omega)
    omega
  · intro st h walErr normF annHits ns coll tbl json vector meta dst w
    refine ⟨?_, ?_, ?_, ?_, ?_, ?_, ?_⟩ <;>
      simp [put_doc_ns, put_row_ns, put_vector_with_meta_ns, delete_doc_ns,
        delete_row_ns, delete_vector, add_edge, h]

/-- C5 witness: with two shards, `uuidB` (whose low 8 bytes read 1) is owned
exactly by shard 1; shard 0 (the engine above) rejects a document write of
`uuidB` with `WrongShard` and is returned unchanged. -/
theorem C5_shard_ownership_unique_witness :
    1 < 2 ∧ c10Engine.owns uuidB = false ∧
    ownsFn 1 2 uuidB = true ∧
    put_doc_ns none c10Engine none none uuidB (.str "y") =
      (.error .WrongShard, c10Engine) :=
  ⟨by decide, by decide, by decide,
    ((C5_shard_ownership_unique 2 (by decide) uuidB).2.2 c10Engine (by decide)
      none (fun v => v) [] none none none (.str "y") [] none nilUuid 0).1⟩

/-- C4: when the WAL append step of a keyed mutation fails, the operation
returns that I/O error and the engine is exactly as before — no in-memory
structure (docs, rows, secondary indexes, counters, vector maps, graph
adjacency) changes, because mutation only follows a successful append.
The hypotheses on each conjunct state that execution reached the append:
the shard check (and, for puts, schema enforcement) passed. -/
theorem C4_wal_error_aborts_mutations (msg : String) (st : Engine)
    (normF : List Rat → List Rat) (annHits : List (Uuid × Rat)) :
    (∀ (ns coll : Option String) (id : Uuid) (json : JValue),
      st.owns id = true → enforce_doc_schema st ns coll id json = .ok () →
      put_doc_ns (some msg) st ns coll id json = (.error (.Io msg), st)) ∧
    (∀ (ns tbl : Option String) (id : Uuid) (json : JValue),
      st.owns id = true → enforce_row_schema st ns tbl id json = .ok () →
      put_row_ns (some msg) st ns tbl id json = (.error (.Io msg), st)) ∧
    (∀ (ns : Option String) (id : Uuid) (vector : List Rat)
        (meta : Option (List (String × String))),
      st.owns id = true →
      put_vector_with_meta_ns (some msg) normF annHits st ns id vector meta =
        (.error (.Io msg), st)) ∧
    (∀ (ns coll : Option String) (id : Uuid), st.owns id = true →
      delete_doc_ns (some msg) st ns coll id = (.error (.Io msg), st)) ∧
    (∀ (ns tbl : Option String) (id : Uuid), st.owns id = true →
      delete_row_ns (some msg) st ns tbl id = (.error (.Io msg), st)) ∧
    (∀ id : Uuid, st.owns id = true →
      delete_vector (some msg) st id = (.error (.Io msg), st)) ∧
    (∀ (src dst : Uuid) (w : Rat), st.owns src = true →
      add_edge (some msg) st src dst w = (.error (.Io msg), st)) := by
  refine ⟨?_, ?_, ?_, ?_, ?_, ?_, ?_⟩
  · intro ns coll id json howns hsch
    simp [put_doc_ns, howns, hsch, append_record]
  · intro ns tbl id json howns hsch
    simp [put_row_ns, howns, hsch, append_record]
  · intro ns id vector meta howns
    simp [put_vector_with_meta_ns, howns, append_record]
  · intro ns coll id howns
    simp [delete_doc_ns, howns, append_record]
  · intro ns tbl id howns
    simp [delete_row_ns, howns, append_record]
  · intro id howns
    simp [delete_vector, howns, append_record]
  · intro src dst w howns
    simp [add_edge, howns, append_record]

/-- C4 witness: on the freshly opened engine, a document put whose append
fails with a disk error returns `Io` and the identical engine. -/
theorem C4_wal_error_aborts_mutations_witness :
    emptyEngine.owns nilUuid = true ∧
    enforce_doc_schema emptyEngine none none nilUuid (.str "v") = .ok () ∧
    put_doc_ns (some "disk full") emptyEngine none none nilUuid (.str "v") =
      (.error (.Io "disk full"), emptyEngine) :=
  ⟨by decide, rfl,
    (C4_wal_error_aborts_mutations "disk full" emptyEngine (fun v => v) []).1
      none none nilUuid (.str "v") (by decide) rfl⟩

/-- Lookup in the aggregate-output fold is unchanged for keys that are not
aliases of the remaining aggregates. -/
theorem foldl_aggs_alget_notmem (rows : List (Uuid × JValue)) (aggs : List AggExpr)
    (o : List (String × JValue)) (k : String)
    (h : k ∉ aggs.map AggExpr.aliasName) :
    alget (aggs.foldl (fun obj a => alput obj a.aliasName (aggValue rows a)) o) k =
      alget o k := by
  induction aggs generalizing o with
  | nil => rfl
  | cons hd tl ih =>
    simp only [List.map_cons, List.mem_cons, not_or] at h
    simp only [List.foldl_cons]
    rw [ih _ h.2, alget_alput_ne _ _ _ _ (fun he => h.1 he.symm)]

/-- With distinct aliases, each aggregate is found in the output object
under its alias with the value the aggregation block computes. -/
theorem foldl_aggs_alget_mem (rows : List (Uuid × JValue)) (aggs : List AggExpr)
    (o : List (String × JValue)) (agg : AggExpr)
    (hnd : (aggs.map AggExpr.aliasName).Nodup) (hmem : agg ∈ aggs) :
    alget (aggs.foldl (fun obj a => alput obj a.aliasName (aggValue rows a)) o)
      agg.aliasName = some (aggValue rows agg) := by
  induction aggs generalizing o with
  | nil => cases hmem
  | cons hd tl ih =>
    simp only [List.map_cons, List.nodup_cons] at hnd
    rcases List.mem_cons.mp hmem with heq | hmem'
    · subst heq
      simp only [List.foldl_cons]
      rw [foldl_aggs_alget_notmem rows tl _ _ hnd.1, alget_alput_self]
    · exact ih _ hnd.2 hmem'

/-- C6 counterexample: with zero surviving rows, `SUM(x)` evaluates to the
JSON number `0` (the fold over an empty `collect_nums` sums to `0.0` and
`num_or_null` keeps it), not to `null` as the claim states. -/
theorem C6_counterexample :
    exec_select_aggs [⟨"sum", some "x", .sum⟩] [] =
      [(nilUuid, .obj (.ocons "sum" (.num 0) .onil))] ∧
    JValue.num 0 ≠ JValue.null :=
  ⟨rfl, by simp⟩

/-- C6 (amended): a SELECT with aggregate projections and no GROUP BY
produces a single row keyed by the nil UUID whose fields carry the
aggregate values under their aliases (default alias = lowercase function
name); over zero surviving rows AVG, MIN and MAX yield `null`, COUNT
yields `0`, and SUM yields the number `0`; COUNT counts the surviving
rows, and SUM/AVG/MIN/MAX ignore rows whose field value is missing or
non-numeric. -/
theorem C6_global_aggregates (rows : List (Uuid × JValue)) (aggs : List AggExpr)
    (hnd : (aggs.map AggExpr.aliasName).Nodup) :
    (∃ o : JObj, exec_select_aggs aggs rows = [(nilUuid, .obj o)] ∧
      ∀ agg ∈ aggs, jget (.obj o) agg.aliasName = some (aggValue rows agg)) ∧
    (∀ (fname : String) (args : List AggArgM) (aliasO : Option String) (a : AggExpr),
      parse_agg fname args aliasO = .ok a → a.aliasName = aliasO.getD fname.toLower) ∧
    (∀ (al : String) (f : Option String),
      aggValue [] ⟨al, f, .count⟩ = .num 0 ∧
      aggValue [] ⟨al, f, .sum⟩ = .num 0 ∧
      aggValue [] ⟨al, f, .avg⟩ = .null ∧
      aggValue [] ⟨al, f, .amin⟩ = .null ∧
      aggValue [] ⟨al, f, .amax⟩ = .null) ∧
    (∀ (al : String) (f : Option String),
      aggValue rows ⟨al, f, .count⟩ = .num ((rows.length : Nat) : Rat)) ∧
    (∀ (agg : AggExpr) (id : Uuid) (v : JValue), agg.kind ≠ .count →
      (jget v (agg.field.getD "")).bind asF64 = none →
      aggValue (rows ++ [(id, v)]) agg = aggValue rows agg) := by
  refine ⟨?_, ?_, ?_, ?_, ?_⟩
  · refine ⟨_, rfl, ?_⟩
    intro agg hmem
    simp only [jget, JObj.toList_ofList]
    exact foldl_aggs_alget_mem rows aggs [] agg hnd hmem
  · intro fname args aliasO a h
    simp only [parse_agg] at h
    split at h
    · exact absurd h (by simp)
    · split at h
      · split at h
        · cases h; rfl
        · exact absurd h (by simp)
      · cases h; rfl
      · cases h; rfl
  · intro al f
    refine ⟨rfl, rfl, rfl, rfl, rfl⟩
  · intro al f
    rfl
  · intro agg id v hk hnone
    have hcn : ∀ fld, fld = agg.field.getD "" →
        collect_nums (rows ++ [(id, v)]) fld = collect_nums rows fld := by
      intro fld hf
      subst hf
      simp [collect_nums, List.filterMap_append, hnone]
    obtain ⟨al, f, kind⟩ := agg
    cases kind with
    | count => exact absurd rfl hk
    | sum => simp only [aggValue, hcn _ rfl]
    | avg => simp only [aggValue, hcn _ rfl]
    | amin => simp only [aggValue, hcn _ rfl]
    | amax => simp only [aggValue, hcn _ rfl]

/-- C6 witness: the amended theorem at one SUM aggregate over zero rows. -/
theorem C6_global_aggregates_witness :
    (([⟨"sum", some "x", .sum⟩] : List AggExpr).map AggExpr.aliasName).Nodup ∧
    aggValue [] ⟨"sum", some "x", .sum⟩ = .num 0 ∧
    aggValue [] ⟨"avg", some "x", .avg⟩ = .null :=
  ⟨by decide,
    ((C6_global_aggregates [] [⟨"sum", some "x", .sum⟩] (by decide)).2.2.1
      "sum" (some "x")).2.1,
    (((C6_global_aggregates [] [⟨"sum", some "x", .sum⟩] (by decide)).2.2.1
      "avg" (some "x")).2.2.1)⟩

/-- A true uniqueness conflict implies the field is present in the object. -/
theorem unique_conflict_isSome {id : Uuid} {objFields : List (String × JValue)}
    {index : Option (List (String × List (String × List Uuid)))} {field : String}
    (h : unique_conflict id objFields index field = true) :
    (alget objFields field).isSome := by
  unfold unique_conflict at h
  cases hv : alget objFields field with
  | none => rw [hv] at h; simp at h
  | some val => simp

/-- The schema field loop reports the unique violation of `field` when every
other check passes. -/
theorem check_fields_unique_error (id : Uuid) (objFields : List (String × JValue))
    (index : Option (List (String × List (String × List Uuid))))
    (flds : List (String × SchemaField)) (field : String) (spec : SchemaField)
    (hnd : (flds.map Prod.fst).Nodup) (hmem : (field, spec) ∈ flds)
    (hu : spec.unique = true)
    (hreq : ∀ f s, (f, s) ∈ flds → s.required = true → (alget objFields f).isSome)
    (hnoconf : ∀ f s, (f, s) ∈ flds → f ≠ field → s.unique = true →
      unique_conflict id objFields index f = false)
    (hconf : unique_conflict id objFields index field = true) :
    check_fields id objFields index flds = .error (.UniqueViolation field) := by
  induction flds with
  | nil => cases hmem
  | cons hd rest ih =>
    obtain ⟨f0, s0⟩ := hd
    simp only [List.map_cons, List.nodup_cons] at hnd
    rcases List.mem_cons.mp hmem with heq | hmem'
    · cases heq
      have hsome := unique_conflict_isSome hconf
      simp [check_fields, hsome, hu, hconf]
    · have hne : f0 ≠ field := by
        rintro rfl
        exact hnd.1 (List.mem_map.mpr ⟨(f0, spec), hmem', rfl⟩)
      have hreq0 : (s0.required && !(alget objFields f0).isSome) = false := by
        cases hr : s0.required with
        | false => simp [hr]
        | true => simp [hr, hreq f0 s0 (List.mem_cons_self _ _) hr]
      have hconf0 : (s0.unique && unique_conflict id objFields index f0) = false := by
        cases hc : s0.unique with
        | false => simp [hc]
        | true => simp [hc, hnoconf f0 s0 (List.mem_cons_self _ _) hne hc]
      rw [check_fields, hreq0, hconf0]
      simp only [Bool.false_eq_true, if_false]
      exact ih hnd.2 hmem'
        (fun f s hin => hreq f s (List.mem_cons_of_mem _ hin))
        (fun f s hin => hnoconf f s (List.mem_cons_of_mem _ hin))

/-- The schema field loop succeeds when every required field is present and no
unique field conflicts. -/
theorem check_fields_ok (id : Uuid) (objFields : List (String × JValue))
    (index : Option (List (String × List (String × List Uuid))))
    (flds : List (String × SchemaField))
    (hreq : ∀ f s, (f, s) ∈ flds → s.required = true → (alget objFields f).isSome)
    (hnoconf : ∀ f s, (f, s) ∈ flds → s.unique = true →
      unique_conflict id objFields index f = false) :
    check_fields id objFields index flds = .ok () := by
  induction flds with
  | nil => rfl
  | cons hd rest ih =>
    obtain ⟨f0, s0⟩ := hd
    have hreq0 : (s0.required && !(alget objFields f0).isSome) = false := by
      cases hr : s0.required with
      | false => simp [hr]
      | true => simp [hr, hreq f0 s0 (List.mem_cons_self _ _) hr]
    have hconf0 : (s0.unique && unique_conflict id objFields index f0) = false := by
      cases hc : s0.unique with
      | false => simp [hc]
      | true => simp [hc, hnoconf f0 s0 (List.mem_cons_self _ _) hc]
    rw [check_fields, hreq0, hconf0]
    simp only [Bool.false_eq_true, if_false]
    exact ih (fun f s hin => hreq f s (List.mem_cons_of_mem _ hin))
      (fun f s hin => hnoconf f s (List.mem_cons_of_mem _ hin))

/-- C8: with an attached schema holding a `unique` field, a doc or row put of
an object whose value for that field is scalar and already indexed under a
different UUID fails with `UniqueViolation(field)` (the object otherwise
passing validation), leaving the engine unchanged; re-putting under a UUID
that owns every conflicting entry (in particular, the same UUID with the
same value) succeeds. -/
theorem C8_unique_enforcement (walErr : Option String) (st : Engine)
    (ns coll : Option String) (id : Uuid) (fs : JObj) (schema : SchemaDef)
    (field : String) (spec : SchemaField)
    (howns : st.owns id = true)
    (hnd : (schema.fields.map Prod.fst).Nodup)
    (hmem : (field, spec) ∈ schema.fields) (hu : spec.unique = true)
    (hreq : ∀ f s, (f, s) ∈ schema.fields → s.required = true →
      (alget fs.toList f).isSome) :
    (alget2 st.mem.data.doc_schema (nsKey ns) (nsKey coll) = some schema →
      (∀ f s, (f, s) ∈ schema.fields → f ≠ field → s.unique = true →
        unique_conflict id fs.toList
          (alget2 st.mem.data.doc_index (nsKey ns) (nsKey coll)) f = false) →
      unique_conflict id fs.toList
        (alget2 st.mem.data.doc_index (nsKey ns) (nsKey coll)) field = true →
      put_doc_ns walErr st ns coll id (.obj fs) =
        (.error (.UniqueViolation field), st)) ∧
    (alget2 st.mem.data.doc_schema (nsKey ns) (nsKey coll) = some schema →
      (∀ f s, (f, s) ∈ schema.fields → s.unique = true →
        unique_conflict id fs.toList
          (alget2 st.mem.data.doc_index (nsKey ns) (nsKey coll)) f = false) →
      (put_doc_ns none st ns coll id (.obj fs)).1 = .ok ()) ∧
    (alget2 st.mem.data.row_schema (nsKey ns) (nsKey coll) = some schema →
      (∀ f s, (f, s) ∈ schema.fields → f ≠ field → s.unique = true →
        unique_conflict id fs.toList
          (alget2 st.mem.data.row_index (nsKey ns) (nsKey coll)) f = false) →
      unique_conflict id fs.toList
        (alget2 st.mem.data.row_index (nsKey ns) (nsKey coll)) field = true →
      put_row_ns walErr st ns coll id (.obj fs) =
        (.error (.UniqueViolation field), st)) ∧
    (alget2 st.mem.data.row_schema (nsKey ns) (nsKey coll) = some schema →
      (∀ f s, (f, s) ∈ schema.fields → s.unique = true →
        unique_conflict id fs.toList
          (alget2 st.mem.data.row_index (nsKey ns) (nsKey coll)) f = false) →
      (put_row_ns none st ns coll id (.obj fs)).1 = .ok ()) := by
  refine ⟨?_, ?_, ?_, ?_⟩
  · intro hsch hnoconf hconf
    have henf : enforce_doc_schema st ns coll id (.obj fs) =
        .error (.UniqueViolation field) := by
      simp only [enforce_doc_schema, hsch, validate_object, check_schema, asObjList]
      exact check_fields_unique_error id fs.toList _ schema.fields field spec
        hnd hmem hu hreq hnoconf hconf
    simp [put_doc_ns, howns, henf]
  · intro hsch hnoconf
    have henf : enforce_doc_schema st ns coll id (.obj fs) = .ok () := by
      simp only [enforce_doc_schema, hsch, validate_object, check_schema, asObjList]
      exact check_fields_ok id fs.toList _ schema.fields hreq hnoconf
    simp [put_doc_ns, howns, henf, append_record]
  · intro hsch hnoconf hconf
    have henf : enforce_row_schema st ns coll id (.obj fs) =
        .error (.UniqueViolation field) := by
      simp only [enforce_row_schema, hsch, validate_object, check_schema, asObjList]
      exact check_fields_unique_error id fs.toList _ schema.fields field spec
        hnd hmem hu hreq hnoconf hconf
    simp [put_row_ns, howns, henf]
  · intro hsch hnoconf
    have henf : enforce_row_schema st ns coll id (.obj fs) = .ok () := by
      simp only [enforce_row_schema, hsch, validate_object, check_schema, asObjList]
      exact check_fields_ok id fs.toList _ schema.fields hreq hnoconf
    simp [put_row_ns, howns, henf, append_record]

/-- C8 witness: a put of the same email under `uuidB` fails with
`UniqueViolation("email")` and leaves the engine unchanged; re-putting
`nilUuid` itself with the same value succeeds. -/
theorem C8_unique_enforcement_witness :
    c8Engine.owns uuidB = true ∧
    unique_conflict uuidB [("email", .str "x@y")]
      (alget2 c8Engine.mem.data.doc_index "default" "default") "email" = true ∧
    put_doc_ns none c8Engine none none uuidB
      (.obj (.ocons "email" (.str "x@y") .onil)) =
      (.error (.UniqueViolation "email"), c8Engine) ∧
    (put_doc_ns none c8Engine none none nilUuid
      (.obj (.ocons "email" (.str "x@y") .onil))).1 = .ok () :=
  ⟨by decide, by decide,
    (C8_unique_enforcement none c8Engine none none uuidB
      (.ocons "email" (.str "x@y") .onil) c8Schema "email" ⟨true, true, none⟩
      (by decide) (by decide) (by decide) (by decide)
      (by intro f s hin hr; simp [c8Schema] at hin; rcases hin with ⟨rfl, rfl⟩; decide)).1
      (by decide)
      (by intro f s hin hne hu2
          simp [c8Schema] at hin
          exact absurd hin.1 hne)
      (by decide),
    (C8_unique_enforcement none c8Engine none none nilUuid
      (.ocons "email" (.str "x@y") .onil) c8Schema "email" ⟨true, true, none⟩
      (by decide) (by decide) (by decide) (by decide)
      (by intro f s hin hr; simp [c8Schema] at hin; rcases hin with ⟨rfl, rfl⟩; decide)).2.1
      (by decide)
      (by intro f s hin hu2
          simp [c8Schema] at hin
          rcases hin with ⟨rfl, rfl⟩
          decide)⟩

/-! Helper lemmas for the close/reopen round trip (C2). -/

theorem alget_alupd_self {α β : Type} [DecidableEq α] (l : List (α × β)) (k : α)
    (d : β) (f : β → β) : alget (alupd l k d f) k = some (f ((alget l k).getD d)) :=
  alget_alput_self l k _

theorem nsKey_some (s : String) : nsKey (some s) = s := rfl

theorem alget_alupd_ne {α β : Type} [DecidableEq α] (l : List (α × β)) (k k' : α)
    (d : β) (f : β → β) (h : k ≠ k') : alget (alupd l k d f) k' = alget l k' :=
  alget_alput_ne l k k' _ h

/-- An inserted document is found again through the two-level map. -/
theorem docsInsert_alget (m : DocMap) (ns coll : String) (id : Uuid) (json : JValue) :
    (alget2 (docsInsert m ns coll id json) ns coll).bind (fun inner => alget inner id) =
      some json := by
  simp only [docsInsert, alget2, alget_alupd_self, Option.getD, Option.bind]
  simp [alget_alupd_self, alget_alput_self]

/-- Replay over an extended log: replay the prefix, then apply the final
record. -/
theorem replaySteps_append (normF : List Rat → List Rat) (params : VectorParams)
    (recs : List Rec) (r : Rec) (m : Mem) :
    replaySteps normF params (recs ++ [r]) m =
      match replaySteps normF params recs m with
      | .error e => .error e
      | .ok m2 => openStep normF params m2 r := by
  induction recs generalizing m with
  | nil =>
    simp only [List.nil_append, replaySteps]
    cases openStep normF params m r <;> rfl
  | cons hd tl ih =>
    simp only [List.cons_append, replaySteps]
    cases openStep normF params m hd <;> simp [ih]

/-- After `add_edge`, the bucket holds weight `w` for `dst`. -/
theorem bucketAdd_find (bucket : List Edge) (src dst : Uuid) (w : Rat) :
    ((bucketAdd bucket src dst w).find? (fun e => decide (e.dst = dst))).map
      Edge.weight = some w := by
  induction bucket with
  | nil => simp [bucketAdd, List.find?]
  | cons e rest ih =>
    by_cases h : e.dst = dst
    · simp [bucketAdd, h, List.find?]
    · simp only [bucketAdd, if_neg h, List.find?_cons]
      simp [h, ih]

/-- After `GraphStore.add_edge`, `edgeLookup` reads back weight `w`. -/
theorem edgeLookup_add_edge (g : GraphStore) (src dst : Uuid) (w : Rat) :
    (edgeLookup (GraphStore.add_edge g src dst w) src dst).map Edge.weight = some w := by
  simp only [edgeLookup, GraphStore.add_edge, alget_alupd_self]
  exact bucketAdd_find _ src dst w

/-- A successful `insertP` under a non-cosine metric stores the vector and
metadata verbatim. -/
theorem insertCore_lookup (normF : List Rat → List Rat) (idx : VectorIndex)
    (id : Uuid) (v : List Rat) (mv : List (String × String))
    (hm : idx.metric ≠ .Cosine) :
    alget (VectorIndex.insertCore normF idx id v (some mv)).inner id = some v ∧
    alget (VectorIndex.insertCore normF idx id v (some mv)).meta id = some mv := by
  simp only [VectorIndex.insertCore, if_neg hm]
  cases h : alget idx.id_map id <;> simp [h, alget_alput_self]

/-- Dimension-compatible `insertP` succeeds and the inserted vector and
metadata are found in the result. -/
theorem insertP_ok_lookup (normF : List Rat → List Rat) (idx : VectorIndex)
    (id : Uuid) (v : List Rat) (mv : List (String × String))
    (hm : idx.metric ≠ .Cosine) (hd : idx.dim = none ∨ idx.dim = some v.length) :
    (VectorIndex.insertP normF idx id v (some mv)).1 = .ok () ∧
    alget (VectorIndex.insertP normF idx id v (some mv)).2.inner id = some v ∧
    alget (VectorIndex.insertP normF idx id v (some mv)).2.meta id = some mv := by
  rcases hd with hd | hd
  · have h2 := insertCore_lookup normF { idx with dim := some v.length } id v mv hm
    simp [VectorIndex.insertP, hd, h2.1, h2.2]
  · have h2 := insertCore_lookup normF idx id v mv hm
    simp [VectorIndex.insertP, hd, h2.1, h2.2]

/-- C2: on an engine whose memory is what replaying its WAL reconstructs
(as `open` guarantees) and whose shard fields derive from its parameters,
a successful `put_x` followed by close and reopen (replaying the WAL from
byte 0; no snapshots present) finds the written value through `get_x`, for
each family: doc, row, vector-with-metadata (under the default non-cosine
metric and with auto-linking off, its default), and edge (looked up by
destination in the source bucket, as `neighbors` exposes it). -/
theorem C2_close_reopen_get (st : Engine) (normF : List Rat → List Rat)
    (hcons : replayMem normF st.default_params st.wal = .ok st.mem)
    (hsid : st.shard_id = st.default_params.shard_id)
    (hstot : st.shard_total = max st.default_params.shard_total 1) :
    (∀ (ns coll : Option String) (id : Uuid) (json : JValue),
      st.owns id = true → enforce_doc_schema st ns coll id json = .ok () →
      (put_doc_ns none st ns coll id json).1 = .ok () ∧
      ∃ m', replayMem normF st.default_params (put_doc_ns none st ns coll id json).2.wal =
              .ok m' ∧
        get_doc_ns (mkOpened st.default_params (put_doc_ns none st ns coll id json).2.wal m')
          ns coll id = some json) ∧
    (∀ (ns tbl : Option String) (id : Uuid) (json : JValue),
      st.owns id = true → enforce_row_schema st ns tbl id json = .ok () →
      (put_row_ns none st ns tbl id json).1 = .ok () ∧
      ∃ m', replayMem normF st.default_params (put_row_ns none st ns tbl id json).2.wal =
              .ok m' ∧
        get_row_ns (mkOpened st.default_params (put_row_ns none st ns tbl id json).2.wal m')
          ns tbl id = some json) ∧
    (∀ (ns : Option String) (id : Uuid) (vector : List Rat)
        (mv : List (String × String)) (annHits : List (Uuid × Rat)),
      st.owns id = true → st.link_top_k = 0 →
      ((alget st.mem.vectors (nsKey ns)).getD (withParams st.default_params)).metric ≠
        .Cosine →
      (((alget st.mem.vectors (nsKey ns)).getD (withParams st.default_params)).dim = none ∨
       ((alget st.mem.vectors (nsKey ns)).getD (withParams st.default_params)).dim =
         some vector.length) →
      (put_vector_with_meta_ns none normF annHits st ns id vector (some mv)).1 = .ok () ∧
      ∃ m', replayMem normF st.default_params
              (put_vector_with_meta_ns none normF annHits st ns id vector (some mv)).2.wal =
              .ok m' ∧
        get_vector (mkOpened st.default_params
            (put_vector_with_meta_ns none normF annHits st ns id vector (some mv)).2.wal m')
          id = some (vector, some mv)) ∧
    (∀ (src dst : Uuid) (w : Rat),
      st.owns src = true →
      (add_edge none st src dst w).1 = .ok () ∧
      ∃ m', replayMem normF st.default_params (add_edge none st src dst w).2.wal = .ok m' ∧
        (edgeLookup m'.graph src dst).map Edge.weight = some w) := by
  have hreplay : ∀ r : Rec,
      replayMem normF st.default_params (st.wal ++ [r]) =
        openStep normF st.default_params st.mem r := by
    intro r
    unfold replayMem at hcons ⊢
    rw [replaySteps_append, hcons]
  refine ⟨?_, ?_, ?_, ?_⟩
  · intro ns coll id json howns henf
    have h1 : (put_doc_ns none st ns coll id json).1 = .ok () := by
      simp [put_doc_ns, howns, henf, append_record]
    have hwal : (put_doc_ns none st ns coll id json).2.wal =
        st.wal ++ [.put .Doc id (.jsonVal json) (some (nsKey ns)) (some (nsKey coll)) none] := by
      simp [put_doc_ns, howns, henf, append_record]
    refine ⟨h1, ?_⟩
    rw [hwal, hreplay]
    refine ⟨_, rfl, ?_⟩
    have howns' : ownsFn st.default_params.shard_id (max st.default_params.shard_total 1)
        id = true := by
      rw [← hsid, ← hstot]; exact howns
    simp [get_doc_ns, Engine.owns, mkOpened, howns', openStep, Payload.decodeJson,
      nsKey_some, docsInsert_alget]
  · intro ns tbl id json howns henf
    have h1 : (put_row_ns none st ns tbl id json).1 = .ok () := by
      simp [put_row_ns, howns, henf, append_record]
    have hwal : (put_row_ns none st ns tbl id json).2.wal =
        st.wal ++ [.put .Row id (.jsonVal json) (some (nsKey ns)) none (some (nsKey tbl))] := by
      simp [put_row_ns, howns, henf, append_record]
    refine ⟨h1, ?_⟩
    rw [hwal, hreplay]
    refine ⟨_, rfl, ?_⟩
    have howns' : ownsFn st.default_params.shard_id (max st.default_params.shard_total 1)
        id = true := by
      rw [← hsid, ← hstot]; exact howns
    simp [get_row_ns, Engine.owns, mkOpened, howns', openStep, Payload.decodeJson,
      nsKey_some, docsInsert_alget]
  · intro ns id vector mv annHits howns hlink hcos hdim
    have hins := insertP_ok_lookup normF
      ((alget st.mem.vectors (nsKey ns)).getD (withParams st.default_params))
      id vector mv hcos hdim
    cases halget : alget st.mem.vectors (nsKey ns) with
    | some idx0 =>
      rw [halget] at hins
      simp only [Option.getD] at hins
      have h1 : (put_vector_with_meta_ns none normF annHits st ns id vector (some mv)).1 =
          .ok () ∧
          (put_vector_with_meta_ns none normF annHits st ns id vector (some mv)).2.wal =
          st.wal ++ [.put .Vec id (.vecRec ⟨some (nsKey ns), vector, some mv⟩)
            (some (nsKey ns)) none none] := by
        simp only [put_vector_with_meta_ns, howns, Bool.true_eq_false, if_neg,
          if_false, append_record, vector_index, halget]
        rcases hok : VectorIndex.insertP normF idx0 id vector (some mv) with ⟨res, idx2⟩
        rw [hok] at hins
        simp only at hins
        rw [hins.1]
        constructor
        · simp
        · simp [auto_link_neighbors, hlink]
      refine ⟨h1.1, ?_⟩
      rw [h1.2, hreplay]
      refine ⟨_, rfl, ?_⟩
      rcases hok : VectorIndex.insertP normF idx0 id vector (some mv) with ⟨res, idx2⟩
      rw [hok] at hins
      simp only at hins
      simp [openStep, Payload.decodeVecRec, nsKey_some, halget, hok, get_vector,
        mkOpened, alget_alput_self, hins.2.1, hins.2.2]
    | none =>
      rw [halget] at hins
      simp only [Option.getD] at hins
      have h1 : (put_vector_with_meta_ns none normF annHits st ns id vector (some mv)).1 =
          .ok () ∧
          (put_vector_with_meta_ns none normF annHits st ns id vector (some mv)).2.wal =
          st.wal ++ [.put .Vec id (.vecRec ⟨some (nsKey ns), vector, some mv⟩)
            (some (nsKey ns)) none none] := by
        simp only [put_vector_with_meta_ns, howns, Bool.true_eq_false, if_neg,
          if_false, append_record, vector_index, halget]
        rcases hok : VectorIndex.insertP normF (withParams st.default_params) id vector
            (some mv) with ⟨res, idx2⟩
        rw [hok] at hins
        simp only at hins
        rw [hins.1]
        constructor
        · simp
        · simp [auto_link_neighbors, hlink]
      refine ⟨h1.1, ?_⟩
      rw [h1.2, hreplay]
      refine ⟨_, rfl, ?_⟩
      rcases hok : VectorIndex.insertP normF (withParams st.default_params) id vector
          (some mv) with ⟨res, idx2⟩
      rw [hok] at hins
      simp only at hins
      simp [openStep, Payload.decodeVecRec, nsKey_some, halget, hok, get_vector,
        mkOpened, alget_alput_self, hins.2.1, hins.2.2]
  · intro src dst w howns
    have h1 : (add_edge none st src dst w).1 = .ok () := by
      simp [add_edge, howns, append_record]
    have hwal : (add_edge none st src dst w).2.wal =
        st.wal ++ [.put .Graph src (.edgeVal ⟨src, dst, w⟩) none none none] := by
      simp [add_edge, howns, append_record]
    refine ⟨h1, ?_⟩
    rw [hwal, hreplay]
    refine ⟨_, rfl, ?_⟩
    exact edgeLookup_add_edge st.mem.graph src dst w

/-- C2 witness: the round trip applied on the freshly opened engine for a
document put under `nilUuid`. -/
theorem C2_close_reopen_get_witness :
    replayMem (fun v => v) emptyEngine.default_params emptyEngine.wal =
      .ok emptyEngine.mem ∧
    emptyEngine.owns nilUuid = true ∧
    ((put_doc_ns none emptyEngine none none nilUuid (.str "hi")).1 = .ok () ∧
     ∃ m', replayMem (fun v => v) emptyEngine.default_params
         (put_doc_ns none emptyEngine none none nilUuid (.str "hi")).2.wal = .ok m' ∧
       get_doc_ns (mkOpened emptyEngine.default_params
           (put_doc_ns none emptyEngine none none nilUuid (.str "hi")).2.wal m')
         none none nilUuid = some (.str "hi")) :=
  ⟨rfl, by decide,
    (C2_close_reopen_get emptyEngine (fun v => v) rfl rfl rfl).1 none none nilUuid
      (.str "hi") (by decide) rfl⟩

/-! Association-list membership and key-uniqueness lemmas, feeding the
index well-formedness proofs. -/

theorem mem_alput {α β : Type} [DecidableEq α] {l : List (α × β)} {k : α} {v : β}
    {p : α × β} (h : p ∈ alput l k v) : p = (k, v) ∨ p ∈ l := by
  induction l with
  | nil => simpa [alput] using h
  | cons hd tl ih =>
    obtain ⟨k0, v0⟩ := hd
    by_cases h0 : k0 = k
    · subst h0
      simp only [alput, if_pos rfl] at h
      rcases List.mem_cons.mp h with heq | hm
      · exact Or.inl heq
      · exact Or.inr (List.mem_cons_of_mem _ hm)
    · simp only [alput, if_neg h0] at h
      rcases List.mem_cons.mp h with heq | hm
      · exact Or.inr (heq ▸ List.mem_cons_self _ _)
      · rcases ih hm with h1 | h1
        · exact Or.inl h1
        · exact Or.inr (List.mem_cons_of_mem _ h1)

theorem keys_nodup_alput {α β : Type} [DecidableEq α] {l : List (α × β)} (k : α) (v : β)
    (h : (l.map Prod.fst).Nodup) : ((alput l k v).map Prod.fst).Nodup := by
  induction l with
  | nil => simp [alput]
  | cons hd tl ih =>
    obtain ⟨k0, v0⟩ := hd
    simp only [List.map_cons, List.nodup_cons] at h
    by_cases h0 : k0 = k
    · subst h0
      have he : alput ((k0, v0) :: tl) k0 v = (k0, v) :: tl := by simp [alput]
      rw [he, List.map_cons, List.nodup_cons]
      exact ⟨h.1, h.2⟩
    · simp only [alput, if_neg h0, List.map_cons]
      rw [List.nodup_cons]
      refine ⟨?_, ih h.2⟩
      intro hk0
      rcases List.mem_map.mp hk0 with ⟨q, hq, hfst⟩
      rcases mem_alput hq with rfl | hql
      · simp only at hfst
        exact h0 hfst.symm
      · exact h.1 (List.mem_map.mpr ⟨q, hql, hfst⟩)

theorem mem_alerase {α β : Type} [DecidableEq α] {l : List (α × β)} {k : α}
    {p : α × β} (h : p ∈ alerase l k) : p ∈ l := by
  induction l with
  | nil => simp [alerase] at h
  | cons hd tl ih =>
    obtain ⟨k0, v0⟩ := hd
    by_cases h0 : k0 = k
    · subst h0
      simp only [alerase, if_pos rfl] at h
      exact List.mem_cons_of_mem _ h
    · simp only [alerase, if_neg h0] at h
      rcases List.mem_cons.mp h with heq | hm
      · exact heq ▸ List.mem_cons_self _ _
      · exact List.mem_cons_of_mem _ (ih hm)

theorem keys_nodup_alerase {α β : Type} [DecidableEq α] {l : List (α × β)} (k : α)
    (h : (l.map Prod.fst).Nodup) : ((alerase l k).map Prod.fst).Nodup := by
  induction l with
  | nil => simp [alerase]
  | cons hd tl ih =>
    obtain ⟨k0, v0⟩ := hd
    simp only [List.map_cons, List.nodup_cons] at h
    by_cases h0 : k0 = k
    · subst h0
      simpa [alerase] using h.2
    · simp only [alerase, if_neg h0, List.map_cons, List.nodup_cons]
      refine ⟨?_, ih h.2⟩
      intro hk0
      rcases List.mem_map.mp hk0 with ⟨q, hq, hfst⟩
      exact h.1 (List.mem_map.mpr ⟨q, mem_alerase hq, hfst⟩)

theorem mem_alerase_ne {α β : Type} [DecidableEq α] {l : List (α × β)} {k : α}
    (h : (l.map Prod.fst).Nodup) {p : α × β} (hp : p ∈ alerase l k) : p.1 ≠ k := by
  induction l with
  | nil => simp [alerase] at hp
  | cons hd tl ih =>
    obtain ⟨k0, v0⟩ := hd
    simp only [List.map_cons, List.nodup_cons] at h
    by_cases h0 : k0 = k
    · subst h0
      simp only [alerase, if_pos rfl] at hp
      intro hk
      exact h.1 (List.mem_map.mpr ⟨p, hp, hk⟩)
    · simp only [alerase, if_neg h0] at hp
      rcases List.mem_cons.mp hp with heq | hm
      · subst heq; exact h0
      · exact ih h.2 hm

/-! Index-entry lookup through the single-entry updates. -/

theorem idxget_push_self (idx : IndexMap) (ns coll f k : String) (id : Uuid) :
    idxget (index_push idx ns coll f k id) ns coll f k =
      some (if id ∈ (idxget idx ns coll f k).getD [] then
              (idxget idx ns coll f k).getD []
            else (idxget idx ns coll f k).getD [] ++ [id]) := by
  cases h1 : alget idx ns with
  | none => simp [index_push, idxget, alget2, alget_alupd_self, h1, alget]
  | some nsm =>
    cases h2 : alget nsm coll with
    | none => simp [index_push, idxget, alget2, alget_alupd_self, h1, h2, alget]
    | some colm =>
      cases h3 : alget colm f with
      | none => simp [index_push, idxget, alget2, alget_alupd_self, h1, h2, h3, alget]
      | some fm =>
        cases h4 : alget fm k <;>
          simp [index_push, idxget, alget2, alget_alupd_self, h1, h2, h3, h4, alget]

theorem idxget_push_other (idx : IndexMap) (ns coll f k : String) (id : Uuid)
    (ns' coll' f' k' : String) (h : ¬(ns' = ns ∧ coll' = coll ∧ f' = f ∧ k' = k)) :
    idxget (index_push idx ns coll f k id) ns' coll' f' k' =
      idxget idx ns' coll' f' k' := by
  by_cases h1 : ns' = ns
  case neg =>
    have hne : ns ≠ ns' := fun hh => h1 hh.symm
    simp [idxget, alget2, index_push, alget_alupd_ne _ _ _ _ _ hne]
  subst h1
  by_cases h2 : coll' = coll
  case neg =>
    have hne : coll ≠ coll' := fun hh => h2 hh.symm
    cases hg : alget idx ns' <;>
      simp [idxget, alget2, index_push, alget_alupd_self, hg,
        alget_alupd_ne _ _ _ _ _ hne, alget, hne]
  subst h2
  by_cases h3 : f' = f
  case neg =>
    have hne : f ≠ f' := fun hh => h3 hh.symm
    cases hg : alget idx ns' with
    | none =>
      simp [idxget, alget2, index_push, alget_alupd_self, hg,
        alget_alupd_ne _ _ _ _ _ hne, alget, hne]
    | some nsm =>
      cases hg2 : alget nsm coll' <;>
        simp [idxget, alget2, index_push, alget_alupd_self, hg, hg2,
          alget_alupd_ne _ _ _ _ _ hne, alget, hne]
  subst h3
  have h4 : k' ≠ k := by
    intro hh
    exact h ⟨rfl, rfl, rfl, hh⟩
  have hne : k ≠ k' := fun hh => h4 hh.symm
  cases hg : alget idx ns' with
  | none =>
    simp [idxget, alget2, index_push, alget_alupd_self, hg,
      alget_alupd_ne _ _ _ _ _ hne, alget, hne]
  | some nsm =>
    cases hg2 : alget nsm coll' with
    | none =>
      simp [idxget, alget2, index_push, alget_alupd_self, hg, hg2,
        alget_alupd_ne _ _ _ _ _ hne, alget, hne]
    | some colm =>
      cases hg3 : alget colm f' <;>
        simp [idxget, alget2, index_push, alget_alupd_self, hg, hg2, hg3,
          alget_alupd_ne _ _ _ _ _ hne, alget, hne]

theorem idxget_pull_self (idx : IndexMap) (ns coll f k : String) (id : Uuid) :
    idxget (index_pull idx ns coll f k id) ns coll f k =
      (idxget idx ns coll f k).map (List.filter (fun x => x ≠ id)) := by
  cases h1 : alget idx ns with
  | none => simp [index_pull, idxget, alget2, h1]
  | some nsm =>
    cases h2 : alget nsm coll with
    | none => simp [index_pull, idxget, alget2, h1, h2]
    | some colm =>
      cases h3 : alget colm f with
      | none => simp [index_pull, idxget, alget2, h1, h2, h3]
      | some fm =>
        cases h4 : alget fm k with
        | none => simp [index_pull, idxget, alget2, h1, h2, h3, h4]
        | some entry =>
          simp [index_pull, idxget, alget2, h1, h2, h3, h4, alget_alput_self]

theorem idxget_pull_other (idx : IndexMap) (ns coll f k : String) (id : Uuid)
    (ns' coll' f' k' : String) (h : ¬(ns' = ns ∧ coll' = coll ∧ f' = f ∧ k' = k)) :
    idxget (index_pull idx ns coll f k id) ns' coll' f' k' =
      idxget idx ns' coll' f' k' := by
  cases h1 : alget idx ns with
  | none => simp [index_pull, h1]
  | some nsm =>
    cases h2 : alget nsm coll with
    | none => simp [index_pull, h1, h2]
    | some colm =>
      cases h3 : alget colm f with
      | none => simp [index_pull, h1, h2, h3]
      | some fm =>
        cases h4 : alget fm k with
        | none => simp [index_pull, h1, h2, h3, h4]
        | some entry =>
          simp only [index_pull, h1, h2, h3, h4]
          by_cases e1 : ns' = ns
          case neg =>
            have hne : ns ≠ ns' := fun hh => e1 hh.symm
            simp [idxget, alget2, alget_alput_ne _ _ _ _ hne]
          subst e1
          by_cases e2 : coll' = coll
          case neg =>
            have hne : coll ≠ coll' := fun hh => e2 hh.symm
            simp [idxget, alget2, alget_alput_self, h1,
              alget_alput_ne _ _ _ _ hne]
          subst e2
          by_cases e3 : f' = f
          case neg =>
            have hne : f ≠ f' := fun hh => e3 hh.symm
            simp [idxget, alget2, alget_alput_self, h1, h2,
              alget_alput_ne _ _ _ _ hne]
          subst e3
          have e4 : k' ≠ k := fun hh => h ⟨rfl, rfl, rfl, hh⟩
          have hne : k ≠ k' := fun hh => e4 hh.symm
          simp [idxget, alget2, alget_alput_self, h1, h2, h3,
            alget_alput_ne _ _ _ _ hne]

theorem alget_map_snd {α β γ : Type} [DecidableEq α] (l : List (α × β)) (g : β → γ)
    (k : α) : alget (l.map (fun p => (p.1, g p.2))) k = (alget l k).map g := by
  induction l with
  | nil => rfl
  | cons hd tl ih =>
    obtain ⟨k0, v0⟩ := hd
    by_cases h0 : k0 = k <;> simp [alget, h0, ih]

theorem idxget_scrub (idx : IndexMap) (ns coll : String) (id : Uuid)
    (ns' coll' f k : String) :
    idxget (index_scrub_all idx ns coll id) ns' coll' f k =
      if ns' = ns ∧ coll' = coll then
        (idxget idx ns' coll' f k).map (List.filter (fun x => x ≠ id))
      else idxget idx ns' coll' f k := by
  cases h1 : alget idx ns with
  | none =>
    simp only [index_scrub_all, h1]
    by_cases e : ns' = ns ∧ coll' = coll
    · rcases e with ⟨rfl, rfl⟩
      simp [idxget, alget2, h1]
    · simp [e]
  | some nsm =>
    cases h2 : alget nsm coll with
    | none =>
      simp only [index_scrub_all, h1, h2]
      by_cases e : ns' = ns ∧ coll' = coll
      · rcases e with ⟨rfl, rfl⟩
        simp [idxget, alget2, h1, h2]
      · simp [e]
    | some colm =>
      simp only [index_scrub_all, h1, h2]
      by_cases e1 : ns' = ns
      case neg =>
        have hne : ns ≠ ns' := fun hh => e1 hh.symm
        simp [idxget, alget2, alget_alput_ne _ _ _ _ hne, e1]
      subst e1
      by_cases e2 : coll' = coll
      case neg =>
        have hne : coll ≠ coll' := fun hh => e2 hh.symm
        simp [idxget, alget2, alget_alput_self, h1,
          alget_alput_ne _ _ _ _ hne, e2]
      subst e2
      simp only [and_self, if_pos rfl, idxget, alget2, alget_alput_self, h1, h2,
        Option.getD_some, Option.bind_some, alget_map_snd]
      cases h3 : alget colm f <;>
        simp [alget_map_snd, alget_alput_self, h2, h3]

/-! Index-entry lookup through whole-value upserts and removals. -/

theorem index_upsert_into_eq_fold (idx : IndexMap) (ns coll : String) (id : Uuid)
    (json : JValue) :
    index_upsert_into idx ns coll id json =
      match asObjList json with
      | none => idx
      | some fields => fields.foldl (upsertStep ns coll id) idx := rfl

theorem index_remove_into_eq_fold (idx : IndexMap) (ns coll : String) (id : Uuid)
    (json : JValue) :
    index_remove_into idx ns coll id json =
      match asObjList json with
      | none => idx
      | some fields => fields.foldl (removeStep ns coll id) idx := rfl

/-- A push preserves membership of any id in any entry. -/
theorem idxget_push_mem (idx : IndexMap) (ns coll f k : String) (id : Uuid)
    (ns' coll' f' k' : String) (x : Uuid) (ids : List Uuid)
    (hids : idxget idx ns' coll' f' k' = some ids) (hx : x ∈ ids) :
    ∃ ids', idxget (index_push idx ns coll f k id) ns' coll' f' k' = some ids' ∧
      x ∈ ids' := by
  by_cases hc : ns' = ns ∧ coll' = coll ∧ f' = f ∧ k' = k
  · rcases hc with ⟨rfl, rfl, rfl, rfl⟩
    refine ⟨_, idxget_push_self idx ns' coll' f' k' id, ?_⟩
    rw [hids]
    by_cases hin : id ∈ ids <;> simp [hin, hx]
  · rw [idxget_push_other idx ns coll f k id ns' coll' f' k' hc]
    exact ⟨ids, hids, hx⟩

/-- The upsert fold preserves membership of any id in any entry. -/
theorem idxget_upsertfold_mem (fields : List (String × JValue)) (ns coll : String)
    (id : Uuid) :
    ∀ (idx : IndexMap) (ns' coll' f' k' : String) (x : Uuid) (ids : List Uuid),
      idxget idx ns' coll' f' k' = some ids → x ∈ ids →
      ∃ ids', idxget (fields.foldl (upsertStep ns coll id) idx) ns' coll' f' k' =
        some ids' ∧ x ∈ ids' := by
  induction fields with
  | nil => exact fun idx ns' coll' f' k' x ids h hx => ⟨ids, h, hx⟩
  | cons hd tl ih =>
    intro idx ns' coll' f' k' x ids h hx
    rw [List.foldl_cons]
    cases hkey : index_key hd.2 with
    | none =>
      simp only [upsertStep, hkey]
      exact ih idx ns' coll' f' k' x ids h hx
    | some key =>
      simp only [upsertStep, hkey]
      rcases idxget_push_mem idx ns coll hd.1 key id ns' coll' f' k' x ids h hx with
        ⟨ids1, h1, hx1⟩
      exact ih _ ns' coll' f' k' x ids1 h1 hx1

/-- After the upsert fold, each scalar field pair of the value has an entry
containing the id. -/
theorem idxget_upsertfold_self (fields : List (String × JValue)) (ns coll : String)
    (id : Uuid) (f0 : String) (fv : JValue) (key : String)
    (hmem : (f0, fv) ∈ fields) (hkey : index_key fv = some key) :
    ∀ idx : IndexMap,
      ∃ ids', idxget (fields.foldl (upsertStep ns coll id) idx) ns coll f0 key =
        some ids' ∧ id ∈ ids' := by
  induction fields with
  | nil => cases hmem
  | cons hd tl ih =>
    intro idx
    rw [List.foldl_cons]
    rcases List.mem_cons.mp hmem with heq | hmem'
    · subst heq
      simp only [upsertStep, hkey]
      by_cases htl : (f0, fv) ∈ tl
      · exact ih htl _
      · have hself := idxget_push_self idx ns coll f0 key id
        have hidin : id ∈ (if id ∈ (idxget idx ns coll f0 key).getD [] then
            (idxget idx ns coll f0 key).getD []
          else (idxget idx ns coll f0 key).getD [] ++ [id]) := by
          by_cases hin : id ∈ (idxget idx ns coll f0 key).getD [] <;> simp [hin]
        exact idxget_upsertfold_mem tl ns coll id _ ns coll f0 key id _ hself hidin
    · cases hkey0 : index_key hd.2 with
      | none => simp only [upsertStep, hkey0]; exact ih hmem' _
      | some key0 => simp only [upsertStep, hkey0]; exact ih hmem' _

/-- A pull preserves membership of every id other than the removed one. -/
theorem idxget_pull_mem (idx : IndexMap) (ns coll f k : String) (id : Uuid)
    (ns' coll' f' k' : String) (x : Uuid) (hx : x ≠ id) (ids : List Uuid)
    (hids : idxget idx ns' coll' f' k' = some ids) (hmem : x ∈ ids) :
    ∃ ids', idxget (index_pull idx ns coll f k id) ns' coll' f' k' = some ids' ∧
      x ∈ ids' := by
  by_cases hc : ns' = ns ∧ coll' = coll ∧ f' = f ∧ k' = k
  · rcases hc with ⟨rfl, rfl, rfl, rfl⟩
    refine ⟨_, by rw [idxget_pull_self, hids]; rfl, ?_⟩
    simp [List.mem_filter, hmem, hx]
  · rw [idxget_pull_other idx ns coll f k id ns' coll' f' k' hc]
    exact ⟨ids, hids, hmem⟩

/-- The remove fold preserves membership of every id other than the removed
one. -/
theorem idxget_removefold_mem (fields : List (String × JValue)) (ns coll : String)
    (id : Uuid) (x : Uuid) (hx : x ≠ id) :
    ∀ (idx : IndexMap) (ns' coll' f' k' : String) (ids : List Uuid),
      idxget idx ns' coll' f' k' = some ids → x ∈ ids →
      ∃ ids', idxget (fields.foldl (removeStep ns coll id) idx) ns' coll' f' k' =
        some ids' ∧ x ∈ ids' := by
  induction fields with
  | nil => exact fun idx ns' coll' f' k' ids h hm => ⟨ids, h, hm⟩
  | cons hd tl ih =>
    intro idx ns' coll' f' k' ids h hm
    rw [List.foldl_cons]
    cases hkey : index_key hd.2 with
    | none => simp only [removeStep, hkey]; exact ih idx ns' coll' f' k' ids h hm
    | some key =>
      simp only [removeStep, hkey]
      rcases idxget_pull_mem idx ns coll hd.1 key id ns' coll' f' k' x hx ids h hm with
        ⟨ids1, h1, hm1⟩
      exact ih _ ns' coll' f' k' ids1 h1 hm1

/-- Entries outside the target (namespace, collection) are untouched by the
remove fold. -/
theorem idxget_removefold_other (fields : List (String × JValue)) (ns coll : String)
    (id : Uuid) (ns' coll' : String) (h : ¬(ns' = ns ∧ coll' = coll)) :
    ∀ (idx : IndexMap) (f' k' : String),
      idxget (fields.foldl (removeStep ns coll id) idx) ns' coll' f' k' =
        idxget idx ns' coll' f' k' := by
  induction fields with
  | nil => exact fun idx f' k' => rfl
  | cons hd tl ih =>
    intro idx f' k'
    rw [List.foldl_cons]
    cases hkey : index_key hd.2 with
    | none => simp only [removeStep, hkey]; exact ih idx f' k'
    | some key =>
      simp only [removeStep, hkey]
      rw [ih _ f' k', idxget_pull_other]
      intro hc
      exact h ⟨hc.1, hc.2.1⟩

/-- Absence of the removed id from an entry survives further pulls. -/
theorem idxget_pull_absent (idx : IndexMap) (ns coll f k : String) (id : Uuid)
    (ns' coll' f' k' : String)
    (habs : ∀ ids, idxget idx ns' coll' f' k' = some ids → id ∉ ids) :
    ∀ ids', idxget (index_pull idx ns coll f k id) ns' coll' f' k' = some ids' →
      id ∉ ids' := by
  intro ids' hids'
  by_cases hc : ns' = ns ∧ coll' = coll ∧ f' = f ∧ k' = k
  · rcases hc with ⟨rfl, rfl, rfl, rfl⟩
    rw [idxget_pull_self] at hids'
    cases horig : idxget idx ns' coll' f' k' with
    | none => rw [horig] at hids'; cases hids'
    | some ids0 =>
      rw [horig] at hids'
      simp only [Option.map_some', Option.some.injEq] at hids'
      rw [← hids']
      simp [List.mem_filter]
  · rw [idxget_pull_other idx ns coll f k id ns' coll' f' k' hc] at hids'
    exact habs ids' hids'

/-- Absence of the removed id from an entry survives the whole remove fold. -/
theorem idxget_removefold_pres_absent (fields : List (String × JValue))
    (ns coll : String) (id : Uuid) (ns' coll' f' k' : String) :
    ∀ idx : IndexMap,
      (∀ ids, idxget idx ns' coll' f' k' = some ids → id ∉ ids) →
      ∀ ids', idxget (fields.foldl (removeStep ns coll id) idx) ns' coll' f' k' =
        some ids' → id ∉ ids' := by
  induction fields with
  | nil => exact fun idx habs => habs
  | cons hd tl ih =>
    intro idx habs ids' hids'
    rw [List.foldl_cons] at hids'
    cases hkey : index_key hd.2 with
    | none =>
      simp only [removeStep, hkey] at hids'
      exact ih idx habs ids' hids'
    | some key =>
      simp only [removeStep, hkey] at hids'
      exact ih _ (idxget_pull_absent idx ns coll hd.1 key id ns' coll' f' k' habs)
        ids' hids'

/-- After the remove fold, the removed id is absent from the entry of each
scalar field pair of the removed value. -/
theorem idxget_removefold_absent (fields : List (String × JValue)) (ns coll : String)
    (id : Uuid) (f0 : String) (fv : JValue) (key : String)
    (hmem : (f0, fv) ∈ fields) (hkey : index_key fv = some key) :
    ∀ (idx : IndexMap) (ids' : List Uuid),
      idxget (fields.foldl (removeStep ns coll id) idx) ns coll f0 key = some ids' →
      id ∉ ids' := by
  induction fields with
  | nil => cases hmem
  | cons hd tl ih =>
    intro idx ids' hids'
    rw [List.foldl_cons] at hids'
    rcases List.mem_cons.mp hmem with heq | hmem'
    · subst heq
      simp only [removeStep, hkey] at hids'
      by_cases htl : (f0, fv) ∈ tl
      · exact ih htl _ _ hids'
      · have habs : ∀ ids, idxget (index_pull idx ns coll f0 key id) ns coll f0 key =
            some ids → id ∉ ids := by
          intro ids hids
          rw [idxget_pull_self] at hids
          cases horig : idxget idx ns coll f0 key with
          | none => rw [horig] at hids; cases hids
          | some ids0 =>
            rw [horig] at hids
            simp only [Option.map_some', Option.some.injEq] at hids
            rw [← hids]
            simp [List.mem_filter]
        exact idxget_removefold_pres_absent tl ns coll id ns coll f0 key _ habs ids'
          hids'
    · cases hkey0 : index_key hd.2 with
      | none =>
        simp only [removeStep, hkey0] at hids'
        exact ih hmem' _ _ hids'
      | some key0 =>
        simp only [removeStep, hkey0] at hids'
        exact ih hmem' _ _ hids'

/-! The same facts lifted to `index_upsert_into` and `index_remove_into`. -/

theorem idxget_upsert_into_mem (idx : IndexMap) (ns coll : String) (id : Uuid)
    (json : JValue) (ns' coll' f' k' : String) (x : Uuid) (ids : List Uuid)
    (hids : idxget idx ns' coll' f' k' = some ids) (hx : x ∈ ids) :
    ∃ ids', idxget (index_upsert_into idx ns coll id json) ns' coll' f' k' =
      some ids' ∧ x ∈ ids' := by
  rw [index_upsert_into_eq_fold]
  cases hobj : asObjList json with
  | none => exact ⟨ids, hids, hx⟩
  | some fields => exact idxget_upsertfold_mem fields ns coll id idx ns' coll' f' k' x ids hids hx

theorem idxget_upsert_into_self (idx : IndexMap) (ns coll : String) (id : Uuid)
    (json : JValue) (fl : String) (fv : JValue) (k : String)
    (hjget : jget json fl = some fv) (hkey : index_key fv = some k) :
    ∃ ids, idxget (index_upsert_into idx ns coll id json) ns coll fl k =
      some ids ∧ id ∈ ids := by
  cases json with
  | obj fs => exact idxget_upsertfold_self fs.toList ns coll id fl fv k (alget_mem hjget) hkey idx
  | null => simp [jget] at hjget
  | bool b => simp [jget] at hjget
  | num q => simp [jget] at hjget
  | str s => simp [jget] at hjget
  | arr xs => simp [jget] at hjget

theorem idxget_remove_into_mem (idx : IndexMap) (ns coll : String) (id : Uuid)
    (json : JValue) (ns' coll' f' k' : String) (x : Uuid) (hx : x ≠ id)
    (ids : List Uuid) (hids : idxget idx ns' coll' f' k' = some ids) (hm : x ∈ ids) :
    ∃ ids', idxget (index_remove_into idx ns coll id json) ns' coll' f' k' =
      some ids' ∧ x ∈ ids' := by
  rw [index_remove_into_eq_fold]
  cases hobj : asObjList json with
  | none => exact ⟨ids, hids, hm⟩
  | some fields => exact idxget_removefold_mem fields ns coll id x hx idx ns' coll' f' k' ids hids hm

/-! Nodup preservation through index updates. -/

theorem EntriesNodup_push (idx : IndexMap) (ns coll f k : String) (id : Uuid)
    (h : EntriesNodup idx) : EntriesNodup (index_push idx ns coll f k id) := by
  intro ns' coll' f' k' ids hids
  by_cases hc : ns' = ns ∧ coll' = coll ∧ f' = f ∧ k' = k
  · rcases hc with ⟨rfl, rfl, rfl, rfl⟩
    rw [idxget_push_self] at hids
    simp only [Option.some.injEq] at hids
    subst hids
    have he : ((idxget idx ns' coll' f' k').getD []).Nodup := by
      cases horig : idxget idx ns' coll' f' k' with
      | none => simp
      | some ids0 => simpa using h ns' coll' f' k' ids0 horig
    by_cases hin : id ∈ (idxget idx ns' coll' f' k').getD []
    · simpa [hin] using he
    · simp [hin, List.nodup_append, he]
  · rw [idxget_push_other idx ns coll f k id ns' coll' f' k' hc] at hids
    exact h ns' coll' f' k' ids hids

theorem EntriesNodup_upsertfold (fields : List (String × JValue)) (ns coll : String)
    (id : Uuid) : ∀ idx, EntriesNodup idx →
    EntriesNodup (fields.foldl (upsertStep ns coll id) idx) := by
  induction fields with
  | nil => exact fun idx h => h
  | cons hd tl ih =>
    intro idx h
    rw [List.foldl_cons]
    cases hkey : index_key hd.2 with
    | none => simp only [upsertStep, hkey]; exact ih idx h
    | some key =>
      simp only [upsertStep, hkey]
      exact ih _ (EntriesNodup_push idx ns coll hd.1 key id h)

theorem EntriesNodup_upsert_into (idx : IndexMap) (ns coll : String) (id : Uuid)
    (json : JValue) (h : EntriesNodup idx) :
    EntriesNodup (index_upsert_into idx ns coll id json) := by
  rw [index_upsert_into_eq_fold]
  cases hobj : asObjList json with
  | none => exact h
  | some fields => exact EntriesNodup_upsertfold fields ns coll id idx h

theorem EntriesNodup_pull (idx : IndexMap) (ns coll f k : String) (id : Uuid)
    (h : EntriesNodup idx) : EntriesNodup (index_pull idx ns coll f k id) := by
  intro ns' coll' f' k' ids hids
  by_cases hc : ns' = ns ∧ coll' = coll ∧ f' = f ∧ k' = k
  · rcases hc with ⟨rfl, rfl, rfl, rfl⟩
    rw [idxget_pull_self] at hids
    cases horig : idxget idx ns' coll' f' k' with
    | none => rw [horig] at hids; cases hids
    | some ids0 =>
      rw [horig] at hids
      simp only [Option.map_some', Option.some.injEq] at hids
      subst hids
      exact (h ns' coll' f' k' ids0 horig).filter _
  · rw [idxget_pull_other idx ns coll f k id ns' coll' f' k' hc] at hids
    exact h ns' coll' f' k' ids hids

theorem EntriesNodup_removefold (fields : List (String × JValue)) (ns coll : String)
    (id : Uuid) : ∀ idx, EntriesNodup idx →
    EntriesNodup (fields.foldl (removeStep ns coll id) idx) := by
  induction fields with
  | nil => exact fun idx h => h
  | cons hd tl ih =>
    intro idx h
    rw [List.foldl_cons]
    cases hkey : index_key hd.2 with
    | none => simp only [removeStep, hkey]; exact ih idx h
    | some key =>
      simp only [removeStep, hkey]
      exact ih _ (EntriesNodup_pull idx ns coll hd.1 key id h)

theorem EntriesNodup_remove_into (idx : IndexMap) (ns coll : String) (id : Uuid)
    (json : JValue) (h : EntriesNodup idx) :
    EntriesNodup (index_remove_into idx ns coll id json) := by
  rw [index_remove_into_eq_fold]
  cases hobj : asObjList json with
  | none => exact h
  | some fields => exact EntriesNodup_removefold fields ns coll id idx h

theorem EntriesNodup_scrub (idx : IndexMap) (ns coll : String) (id : Uuid)
    (h : EntriesNodup idx) : EntriesNodup (index_scrub_all idx ns coll id) := by
  intro ns' coll' f' k' ids hids
  rw [idxget_scrub] at hids
  by_cases hc : ns' = ns ∧ coll' = coll
  · rw [if_pos hc] at hids
    cases horig : idxget idx ns' coll' f' k' with
    | none => rw [horig] at hids; cases hids
    | some ids0 =>
      rw [horig] at hids
      simp only [Option.map_some', Option.some.injEq] at hids
      subst hids
      exact (h ns' coll' f' k' ids0 horig).filter _
  · rw [if_neg hc] at hids
    exact h ns' coll' f' k' ids hids

/-! Two-level map lookups through document inserts and deletes. -/

theorem alget2_docsInsert_self (m : DocMap) (ns coll : String) (id : Uuid)
    (json : JValue) :
    alget2 (docsInsert m ns coll id json) ns coll =
      some (alput ((alget2 m ns coll).getD []) id json) := by
  cases h1 : alget m ns with
  | none => simp [docsInsert, alget2, alget_alupd_self, h1, alget]
  | some nsm => simp [docsInsert, alget2, alget_alupd_self, h1]

theorem alget2_docsInsert_other (m : DocMap) (ns coll : String) (id : Uuid)
    (json : JValue) (ns' coll' : String) (h : ¬(ns' = ns ∧ coll' = coll)) :
    alget2 (docsInsert m ns coll id json) ns' coll' = alget2 m ns' coll' := by
  by_cases h1 : ns' = ns
  case neg =>
    have hne : ns ≠ ns' := fun hh => h1 hh.symm
    simp [docsInsert, alget2, alget_alupd_ne _ _ _ _ _ hne]
  subst h1
  have hcoll : coll ≠ coll' := fun hc => h ⟨rfl, hc.symm⟩
  cases h2 : alget m ns' with
  | none =>
    simp [docsInsert, alget2, alget_alupd_self, h2,
      alget_alupd_ne _ _ _ _ _ hcoll, alget, hcoll]
  | some nsm =>
    simp [docsInsert, alget2, alget_alupd_self, h2,
      alget_alupd_ne _ _ _ _ _ hcoll]

theorem alget2_put2_self {β : Type} (m : List (String × List (String × β)))
    (ns coll : String) (nsm : List (String × β)) (x : β) :
    alget2 (alput m ns (alput nsm coll x)) ns coll = some x := by
  simp [alget2, alget_alput_self]

theorem alget2_put2_other {β : Type} (m : List (String × List (String × β)))
    (ns coll : String) (nsm : List (String × β)) (x : β)
    (h1 : alget m ns = some nsm) (ns' coll' : String)
    (h : ¬(ns' = ns ∧ coll' = coll)) :
    alget2 (alput m ns (alput nsm coll x)) ns' coll' = alget2 m ns' coll' := by
  by_cases hns : ns' = ns
  · subst hns
    have hcoll : coll ≠ coll' := fun hc => h ⟨rfl, hc.symm⟩
    simp [alget2, alget_alput_self, h1, alget_alput_ne _ _ _ _ hcoll]
  · have hne : ns ≠ ns' := fun hh => hns hh.symm
    simp [alget2, alget_alput_ne _ _ _ _ hne]

/-! Preservation of the inner-key nodup invariant. -/

theorem InnersNodup_docsInsert (m : DocMap) (ns coll : String) (id : Uuid)
    (json : JValue) (h : InnersNodup m) :
    InnersNodup (docsInsert m ns coll id json) := by
  intro ns' coll' inner hget
  by_cases hc : ns' = ns ∧ coll' = coll
  · rcases hc with ⟨rfl, rfl⟩
    rw [alget2_docsInsert_self] at hget
    simp only [Option.some.injEq] at hget
    subst hget
    apply keys_nodup_alput
    cases horig : alget2 m ns' coll' with
    | none => simp
    | some inner0 => simpa using h ns' coll' inner0 horig
  · rw [alget2_docsInsert_other m ns coll id json ns' coll' hc] at hget
    exact h _ _ _ hget

theorem InnersNodup_del (m : DocMap) (ns coll : String)
    (nsm : List (String × List (Uuid × JValue))) (inner : List (Uuid × JValue))
    (id : Uuid) (h : InnersNodup m)
    (h1 : alget m ns = some nsm) (h2 : alget nsm coll = some inner) :
    InnersNodup (alput m ns (alput nsm coll (alerase inner id))) := by
  intro ns' coll' inner' hget
  by_cases hc : ns' = ns ∧ coll' = coll
  · rcases hc with ⟨rfl, rfl⟩
    rw [alget2_put2_self] at hget
    simp only [Option.some.injEq] at hget
    subst hget
    exact keys_nodup_alerase id (h ns' coll' inner (by simp [alget2, h1, h2]))
  · rw [alget2_put2_other m ns coll nsm _ h1 ns' coll' hc] at hget
    exact h _ _ _ hget

/-! Preservation of index completeness. -/

theorem IndexComplete_put (m : DocMap) (idx : IndexMap) (ns coll : String) (id : Uuid)
    (json : JValue) (h : IndexComplete m idx) :
    IndexComplete (docsInsert m ns coll id json)
      (index_upsert_into idx ns coll id json) := by
  intro ns' coll' inner hget id' v' hmem fl fv k hjget hkey
  by_cases hc : ns' = ns ∧ coll' = coll
  · rcases hc with ⟨rfl, rfl⟩
    rw [alget2_docsInsert_self] at hget
    simp only [Option.some.injEq] at hget
    subst hget
    rcases mem_alput hmem with heq | hmem0
    · rw [Prod.mk.injEq] at heq
      obtain ⟨rfl, rfl⟩ := heq
      exact idxget_upsert_into_self idx ns' coll' id' v' fl fv k hjget hkey
    · cases horig : alget2 m ns' coll' with
      | none => rw [horig] at hmem0; simp at hmem0
      | some inner0 =>
        rw [horig] at hmem0
        simp only [Option.getD_some] at hmem0
        rcases h ns' coll' inner0 horig id' v' hmem0 fl fv k hjget hkey with ⟨ids, hids, hin⟩
        exact idxget_upsert_into_mem idx ns' coll' id json ns' coll' fl k id' ids hids hin
  · rw [alget2_docsInsert_other m ns coll id json ns' coll' hc] at hget
    rcases h ns' coll' inner hget id' v' hmem fl fv k hjget hkey with ⟨ids, hids, hin⟩
    exact idxget_upsert_into_mem idx ns coll id json ns' coll' fl k id' ids hids hin

theorem IndexComplete_del (m : DocMap) (idx : IndexMap) (ns coll : String)
    (nsm : List (String × List (Uuid × JValue))) (inner : List (Uuid × JValue))
    (id : Uuid) (old : JValue) (hnod : InnersNodup m) (h : IndexComplete m idx)
    (h1 : alget m ns = some nsm) (h2 : alget nsm coll = some inner) :
    IndexComplete (alput m ns (alput nsm coll (alerase inner id)))
      (index_remove_into idx ns coll id old) := by
  intro ns' coll' inner' hget id' v' hmem fl fv k hjget hkey
  by_cases hc : ns' = ns ∧ coll' = coll
  · rcases hc with ⟨rfl, rfl⟩
    rw [alget2_put2_self] at hget
    simp only [Option.some.injEq] at hget
    subst hget
    have hinner_nod : (inner.map Prod.fst).Nodup :=
      hnod ns' coll' inner (by simp [alget2, h1, h2])
    have hne : id' ≠ id := mem_alerase_ne hinner_nod hmem
    have hmem1 : (id', v') ∈ inner := mem_alerase hmem
    rcases h ns' coll' inner (by simp [alget2, h1, h2]) id' v' hmem1 fl fv k hjget hkey
      with ⟨ids, hids, hin⟩
    exact idxget_remove_into_mem idx ns' coll' id old ns' coll' fl k id' hne ids hids hin
  · rw [alget2_put2_other m ns coll nsm _ h1 ns' coll' hc] at hget
    rcases h ns' coll' inner' hget id' v' hmem fl fv k hjget hkey with ⟨ids, hids, hin⟩
    rw [index_remove_into_eq_fold]
    cases hobj : asObjList old with
    | none => exact ⟨ids, hids, hin⟩
    | some fields =>
      rw [idxget_removefold_other fields ns coll id ns' coll' hc idx fl k]
      exact ⟨ids, hids, hin⟩

theorem IndexComplete_scrub (m : DocMap) (idx : IndexMap) (ns coll : String)
    (nsm : List (String × List (Uuid × JValue))) (inner : List (Uuid × JValue))
    (id : Uuid) (hnod : InnersNodup m) (h : IndexComplete m idx)
    (h1 : alget m ns = some nsm) (h2 : alget nsm coll = some inner) :
    IndexComplete (alput m ns (alput nsm coll (alerase inner id)))
      (index_scrub_all idx ns coll id) := by
  intro ns' coll' inner' hget id' v' hmem fl fv k hjget hkey
  by_cases hc : ns' = ns ∧ coll' = coll
  · rcases hc with ⟨rfl, rfl⟩
    rw [alget2_put2_self] at hget
    simp only [Option.some.injEq] at hget
    subst hget
    have hinner_nod : (inner.map Prod.fst).Nodup :=
      hnod ns' coll' inner (by simp [alget2, h1, h2])
    have hne : id' ≠ id := mem_alerase_ne hinner_nod hmem
    have hmem1 : (id', v') ∈ inner := mem_alerase hmem
    rcases h ns' coll' inner (by simp [alget2, h1, h2]) id' v' hmem1 fl fv k hjget hkey
      with ⟨ids, hids, hin⟩
    refine ⟨ids.filter (fun x => x ≠ id), ?_, ?_⟩
    · rw [idxget_scrub, if_pos ⟨rfl, rfl⟩, hids]
      rfl
    · simp [List.mem_filter, hin, hne]
  · rw [alget2_put2_other m ns coll nsm _ h1 ns' coll' hc] at hget
    rcases h ns' coll' inner' hget id' v' hmem fl fv k hjget hkey with ⟨ids, hids, hin⟩
    rw [idxget_scrub, if_neg hc]
    exact ⟨ids, hids, hin⟩

/-! One-sided well-formedness preservation. -/

theorem SideWF_put (m : DocMap) (idx : IndexMap) (ns coll : String) (id : Uuid)
    (json : JValue) (h : SideWF m idx) :
    SideWF (docsInsert m ns coll id json) (index_upsert_into idx ns coll id json) :=
  ⟨InnersNodup_docsInsert m ns coll id json h.1,
   EntriesNodup_upsert_into idx ns coll id json h.2.1,
   IndexComplete_put m idx ns coll id json h.2.2⟩

theorem SideWF_del (m : DocMap) (idx : IndexMap) (ns coll : String)
    (nsm : List (String × List (Uuid × JValue))) (inner : List (Uuid × JValue))
    (id : Uuid) (old : JValue) (h : SideWF m idx)
    (h1 : alget m ns = some nsm) (h2 : alget nsm coll = some inner) :
    SideWF (alput m ns (alput nsm coll (alerase inner id)))
      (index_remove_into idx ns coll id old) :=
  ⟨InnersNodup_del m ns coll nsm inner id h.1 h1 h2,
   EntriesNodup_remove_into idx ns coll id old h.2.1,
   IndexComplete_del m idx ns coll nsm inner id old h.1 h.2.2 h1 h2⟩

theorem SideWF_scrub (m : DocMap) (idx : IndexMap) (ns coll : String)
    (nsm : List (String × List (Uuid × JValue))) (inner : List (Uuid × JValue))
    (id : Uuid) (h : SideWF m idx)
    (h1 : alget m ns = some nsm) (h2 : alget nsm coll = some inner) :
    SideWF (alput m ns (alput nsm coll (alerase inner id)))
      (index_scrub_all idx ns coll id) :=
  ⟨InnersNodup_del m ns coll nsm inner id h.1 h1 h2,
   EntriesNodup_scrub idx ns coll id h.2.1,
   IndexComplete_scrub m idx ns coll nsm inner id h.1 h.2.2 h1 h2⟩

/-- Scrubbing an id that is not stored under the target collection keeps the
pair well-formed with the map unchanged. -/
theorem SideWF_scrub_gen (m : DocMap) (idx : IndexMap) (ns coll : String) (id : Uuid)
    (h : SideWF m idx)
    (hno : ∀ inner, alget2 m ns coll = some inner → alget inner id = none) :
    SideWF m (index_scrub_all idx ns coll id) := by
  refine ⟨h.1, EntriesNodup_scrub idx ns coll id h.2.1, ?_⟩
  intro ns' coll' inner' hget id' v' hmem fl fv k hjget hkey
  rcases h.2.2 ns' coll' inner' hget id' v' hmem fl fv k hjget hkey with ⟨ids, hids, hin⟩
  rw [idxget_scrub]
  by_cases hc : ns' = ns ∧ coll' = coll
  · rcases hc with ⟨rfl, rfl⟩
    have hne : id' ≠ id := by
      intro heq
      subst heq
      have := alget_isSome_of_mem hmem
      rw [hno inner' hget] at this
      cases this
    rw [if_pos ⟨rfl, rfl⟩, hids]
    exact ⟨_, rfl, by simp [List.mem_filter, hin, hne]⟩
  · rw [if_neg hc]
    exact ⟨ids, hids, hin⟩

/-! Engine-level preservation of the well-formedness invariant. -/

/-- Transfer of memory well-formedness along equal data components. -/
theorem MemWF_of_eq (m m' : Mem) (h1 : m'.data.docs = m.data.docs)
    (h2 : m'.data.doc_index = m.data.doc_index) (h3 : m'.data.rows = m.data.rows)
    (h4 : m'.data.row_index = m.data.row_index) (h : MemWF m) : MemWF m' := by
  unfold MemWF
  rw [h1, h2, h3, h4]
  exact h

theorem MemWF_initMem (params : VectorParams) : MemWF (initMem params) := by
  constructor <;>
    exact ⟨fun ns coll inner hget => by simp [alget2, alget, initMem, Collections.empty] at hget,
      fun ns coll f k ids hids => by
        simp [idxget, alget2, alget, initMem, Collections.empty] at hids,
      fun ns coll inner hget => by
        simp [alget2, alget, initMem, Collections.empty] at hget⟩

theorem vector_index_data (st : Engine) (ns : String) :
    (vector_index st ns).2.mem.data = st.mem.data := by
  unfold vector_index
  cases h : alget st.mem.vectors ns <;> rfl

theorem add_edge_data (walErr : Option String) (st : Engine) (src dst : Uuid)
    (w : Rat) : (add_edge walErr st src dst w).2.mem.data = st.mem.data := by
  unfold add_edge
  by_cases ho : st.owns src = false
  · simp [ho]
  · simp only [if_neg ho]
    cases walErr <;> rfl

theorem foldl_add_edge2_data (walErr : Option String) (id : Uuid)
    (hits : List (Uuid × Rat)) :
    ∀ st : Engine,
      (hits.foldl
        (fun acc h =>
          let weight := 1 / (1 + |h.2|)
          let acc1 := (add_edge walErr acc id h.1 weight).2
          (add_edge walErr acc1 h.1 id weight).2)
        st).mem.data = st.mem.data := by
  induction hits with
  | nil => exact fun st => rfl
  | cons hd tl ih =>
    intro st
    rw [List.foldl_cons, ih, add_edge_data, add_edge_data]

theorem auto_link_data (walErr : Option String) (annHits : List (Uuid × Rat))
    (st : Engine) (id : Uuid) (ns : String) :
    (auto_link_neighbors walErr annHits st id ns).mem.data = st.mem.data := by
  unfold auto_link_neighbors
  by_cases hk : st.link_top_k = 0
  · simp [hk]
  · simp only [if_neg hk]
    cases hv : (alget st.mem.vectors ns).bind (fun idx => alget idx.inner id) with
    | none => rfl
    | some v => exact foldl_add_edge2_data walErr id _ st

theorem put_vector_data (walErr : Option String) (normF : List Rat → List Rat)
    (annHits : List (Uuid × Rat)) (st : Engine) (ns : Option String) (id : Uuid)
    (vector : List Rat) (meta : Option (List (String × String))) :
    (put_vector_with_meta_ns walErr normF annHits st ns id vector meta).2.mem.data =
      st.mem.data := by
  unfold put_vector_with_meta_ns
  by_cases ho : st.owns id = false
  · simp [ho]
  · simp only [if_neg ho]
    cases walErr with
    | some msg => rfl
    | none =>
      dsimp only [append_record]
      split
      · exact vector_index_data _ _
      · rw [auto_link_data]
        exact vector_index_data _ _

theorem delete_vector_data (walErr : Option String) (st : Engine) (id : Uuid) :
    (delete_vector walErr st id).2.mem.data = st.mem.data := by
  unfold delete_vector
  by_cases ho : st.owns id = false
  · simp [ho]
  · simp only [if_neg ho]
    cases walErr with
    | some msg => rfl
    | none => rfl

theorem EngineWF_put_doc_ns (walErr : Option String) (st : Engine)
    (ns coll : Option String) (id : Uuid) (json : JValue) (h : EngineWF st) :
    EngineWF (put_doc_ns walErr st ns coll id json).2 := by
  unfold EngineWF at *
  unfold put_doc_ns
  by_cases ho : st.owns id = false
  · simp only [if_pos ho]; exact h
  · simp only [if_neg ho]
    cases he : enforce_doc_schema st ns coll id json with
    | error e => exact h
    | ok u =>
      cases walErr with
      | some msg => exact h
      | none => exact ⟨SideWF_put _ _ _ _ _ _ h.1, h.2⟩

theorem EngineWF_put_row_ns (walErr : Option String) (st : Engine)
    (ns tbl : Option String) (id : Uuid) (json : JValue) (h : EngineWF st) :
    EngineWF (put_row_ns walErr st ns tbl id json).2 := by
  unfold EngineWF at *
  unfold put_row_ns
  by_cases ho : st.owns id = false
  · simp only [if_pos ho]; exact h
  · simp only [if_neg ho]
    cases he : enforce_row_schema st ns tbl id json with
    | error e => exact h
    | ok u =>
      cases walErr with
      | some msg => exact h
      | none => exact ⟨h.1, SideWF_put _ _ _ _ _ _ h.2⟩

theorem EngineWF_delete_doc_ns (walErr : Option String) (st : Engine)
    (ns coll : Option String) (id : Uuid) (h : EngineWF st) :
    EngineWF (delete_doc_ns walErr st ns coll id).2 := by
  unfold EngineWF at *
  unfold delete_doc_ns
  by_cases ho : st.owns id = false
  · simp only [if_pos ho]; exact h
  · simp only [if_neg ho]
    cases walErr with
    | some msg => exact h
    | none =>
      dsimp only [append_record]
      cases h1 : alget st.mem.data.docs (nsKey ns) with
      | none => exact h
      | some nsm =>
        dsimp only
        cases h2 : alget nsm (nsKey coll) with
        | none => exact h
        | some inner =>
          dsimp only
          cases h3 : alget inner id with
          | none => exact h
          | some old => exact ⟨SideWF_del _ _ _ _ _ _ _ _ h.1 h1 h2, h.2⟩

theorem EngineWF_delete_row_ns (walErr : Option String) (st : Engine)
    (ns tbl : Option String) (id : Uuid) (h : EngineWF st) :
    EngineWF (delete_row_ns walErr st ns tbl id).2 := by
  unfold EngineWF at *
  unfold delete_row_ns
  by_cases ho : st.owns id = false
  · simp only [if_pos ho]; exact h
  · simp only [if_neg ho]
    cases walErr with
    | some msg => exact h
    | none =>
      dsimp only [append_record]
      cases h1 : alget st.mem.data.rows (nsKey ns) with
      | none => exact h
      | some nsm =>
        dsimp only
        cases h2 : alget nsm (nsKey tbl) with
        | none => exact h
        | some inner =>
          dsimp only
          cases h3 : alget inner id with
          | none => exact h
          | some old => exact ⟨h.1, SideWF_del _ _ _ _ _ _ _ _ h.2 h1 h2⟩

theorem EngineWF_put_vector (walErr : Option String) (normF : List Rat → List Rat)
    (annHits : List (Uuid × Rat)) (st : Engine) (ns : Option String) (id : Uuid)
    (vector : List Rat) (meta : Option (List (String × String))) (h : EngineWF st) :
    EngineWF (put_vector_with_meta_ns walErr normF annHits st ns id vector meta).2 := by
  unfold EngineWF MemWF at *
  rw [put_vector_data]
  exact h

theorem EngineWF_delete_vector (walErr : Option String) (st : Engine) (id : Uuid)
    (h : EngineWF st) : EngineWF (delete_vector walErr st id).2 := by
  unfold EngineWF MemWF at *
  rw [delete_vector_data]
  exact h

theorem EngineWF_add_edge (walErr : Option String) (st : Engine) (src dst : Uuid)
    (w : Rat) (h : EngineWF st) : EngineWF (add_edge walErr st src dst w).2 := by
  unfold EngineWF MemWF at *
  rw [add_edge_data]
  exact h

theorem EngineWF_set_doc_schema (walErr : Option String) (st : Engine)
    (ns coll : Option String) (schema : SchemaDef) (h : EngineWF st) :
    EngineWF (set_doc_schema walErr st ns coll schema).2 := by
  unfold EngineWF at *
  unfold set_doc_schema
  cases walErr with
  | some msg => exact h
  | none => exact MemWF_of_eq st.mem _ rfl rfl rfl rfl h

theorem EngineWF_set_row_schema (walErr : Option String) (st : Engine)
    (ns tbl : Option String) (schema : SchemaDef) (h : EngineWF st) :
    EngineWF (set_row_schema walErr st ns tbl schema).2 := by
  unfold EngineWF at *
  unfold set_row_schema
  cases walErr with
  | some msg => exact h
  | none => exact MemWF_of_eq st.mem _ rfl rfl rfl rfl h

theorem EngineWF_vacuum (ioErr : Option String) (st : Engine) (h : EngineWF st) :
    EngineWF (vacuum ioErr st).2 := by
  unfold EngineWF at *
  unfold vacuum
  cases ioErr with
  | some msg => exact MemWF_of_eq st.mem _ rfl rfl rfl rfl h
  | none => exact MemWF_of_eq st.mem _ rfl rfl rfl rfl h

theorem MemWF_openStep (normF : List Rat → List Rat) (params : VectorParams)
    (m : Mem) (rec : Rec) (m2 : Mem) (h : MemWF m)
    (hstep : openStep normF params m rec = .ok m2) : MemWF m2 := by
  cases rec with
  | put family key payload nso collo tblo =>
    cases family with
    | Doc =>
      unfold openStep at hstep; dsimp only at hstep
      cases hd : payload.decodeJson with
      | error e => rw [hd] at hstep; cases hstep
      | ok v =>
        rw [hd] at hstep
        cases hstep
        exact ⟨SideWF_put _ _ _ _ _ _ h.1, h.2⟩
    | Row =>
      unfold openStep at hstep; dsimp only at hstep
      cases hd : payload.decodeJson with
      | error e => rw [hd] at hstep; cases hstep
      | ok v =>
        rw [hd] at hstep
        cases hstep
        exact ⟨h.1, SideWF_put _ _ _ _ _ _ h.2⟩
    | Vec =>
      unfold openStep at hstep; dsimp only at hstep
      cases hd : payload.decodeVecRec with
      | some r =>
        rw [hd] at hstep
        cases hstep
        exact MemWF_of_eq m _ rfl rfl rfl rfl h
      | none =>
        rw [hd] at hstep
        cases hf : payload.decodeF32 with
        | error e => rw [hf] at hstep; cases hstep
        | ok vec =>
          rw [hf] at hstep
          cases hv : alget m.vectors "default" with
          | some idx =>
            rw [hv] at hstep
            cases hstep
            exact MemWF_of_eq m _ rfl rfl rfl rfl h
          | none => rw [hv] at hstep; cases hstep; exact h
    | Graph =>
      unfold openStep at hstep; dsimp only at hstep
      cases hd : payload.decodeEdge with
      | error e => rw [hd] at hstep; cases hstep
      | ok e =>
        rw [hd] at hstep
        cases hstep
        exact MemWF_of_eq m _ rfl rfl rfl rfl h
  | del family key nso collo tblo =>
    cases family with
    | Doc =>
      unfold openStep at hstep; dsimp only at hstep
      cases h1 : alget m.data.docs (nsKey nso) with
      | none => rw [h1] at hstep; cases hstep; exact h
      | some nsm =>
        rw [h1] at hstep
        dsimp only at hstep
        cases h2 : alget nsm (nsKey collo) with
        | none => rw [h2] at hstep; cases hstep; exact h
        | some inner =>
          rw [h2] at hstep
          dsimp only at hstep
          cases h3 : alget inner key with
          | none => rw [h3] at hstep; cases hstep; exact h
          | some old =>
            rw [h3] at hstep
            cases hstep
            exact ⟨SideWF_del _ _ _ _ _ _ _ _ h.1 h1 h2, h.2⟩
    | Row =>
      unfold openStep at hstep; dsimp only at hstep
      cases h1 : alget m.data.rows (nsKey nso) with
      | none => rw [h1] at hstep; cases hstep; exact h
      | some nsm =>
        rw [h1] at hstep
        dsimp only at hstep
        cases h2 : alget nsm (nsKey tblo) with
        | none => rw [h2] at hstep; cases hstep; exact h
        | some inner =>
          rw [h2] at hstep
          dsimp only at hstep
          cases h3 : alget inner key with
          | none => rw [h3] at hstep; cases hstep; exact h
          | some old =>
            rw [h3] at hstep
            cases hstep
            exact ⟨h.1, SideWF_del _ _ _ _ _ _ _ _ h.2 h1 h2⟩
    | Vec =>
      unfold openStep at hstep; dsimp only at hstep
      cases hv : alget m.vectors (nsKey nso) with
      | some idx =>
        rw [hv] at hstep
        cases hstep
        exact MemWF_of_eq m _ rfl rfl rfl rfl h
      | none => rw [hv] at hstep; cases hstep; exact h
    | Graph =>
      unfold openStep at hstep; dsimp only at hstep
      cases hstep
      exact h
  | schemaRec family nso collo tblo schema =>
    cases family with
    | Doc =>
      unfold openStep at hstep; dsimp only at hstep
      cases hstep
      exact MemWF_of_eq m _ rfl rfl rfl rfl h
    | Row =>
      unfold openStep at hstep; dsimp only at hstep
      cases hstep
      exact MemWF_of_eq m _ rfl rfl rfl rfl h
    | Vec => unfold openStep at hstep; cases hstep; exact h
    | Graph => unfold openStep at hstep; cases hstep; exact h
  | addEdge src dst weight =>
    unfold openStep at hstep; dsimp only at hstep
    cases hstep
    exact MemWF_of_eq m _ rfl rfl rfl rfl h

theorem MemWF_replaySteps (normF : List Rat → List Rat) (params : VectorParams) :
    ∀ (recs : List Rec) (m m2 : Mem), MemWF m →
      replaySteps normF params recs m = .ok m2 → MemWF m2 := by
  intro recs
  induction recs with
  | nil =>
    intro m m2 h hstep
    unfold replaySteps at hstep
    cases hstep
    exact h
  | cons r rest ih =>
    intro m m2 h hstep
    unfold replaySteps at hstep
    cases hs : openStep normF params m r with
    | error e => rw [hs] at hstep; cases hstep
    | ok m1 =>
      rw [hs] at hstep
      exact ih m1 m2 (MemWF_openStep normF params m r m1 h hs) hstep

theorem EngineWF_apply_record (normF : List Rat → List Rat) (st : Engine) (rec : Rec)
    (h : EngineWF st) : EngineWF (apply_record normF st rec).2 := by
  unfold EngineWF at *
  cases rec with
  | put family key payload nso collo tblo =>
    cases family with
    | Doc =>
      unfold apply_record; dsimp only
      cases hd : payload.decodeJson with
      | error e => exact h
      | ok v => exact ⟨SideWF_put _ _ _ _ _ _ h.1, h.2⟩
    | Row =>
      unfold apply_record; dsimp only
      cases hd : payload.decodeJson with
      | error e => exact h
      | ok v => exact ⟨h.1, SideWF_put _ _ _ _ _ _ h.2⟩
    | Vec =>
      unfold apply_record; dsimp only
      cases hd : payload.decodeVecRec with
      | some r =>
        dsimp only
        cases hins : VectorIndex.insertP normF (vector_index st (nsKey r.nspace)).1
            key r.vector r.meta with
        | mk res idx2 =>
          cases res with
          | error e =>
            exact MemWF_of_eq st.mem _
              (by rw [vector_index_data]) (by rw [vector_index_data])
              (by rw [vector_index_data]) (by rw [vector_index_data]) h
          | ok u =>
            exact MemWF_of_eq st.mem _
              (by rw [show ((vector_index st (nsKey r.nspace)).2).mem.data =
                    st.mem.data from vector_index_data st (nsKey r.nspace)])
              (by rw [show ((vector_index st (nsKey r.nspace)).2).mem.data =
                    st.mem.data from vector_index_data st (nsKey r.nspace)])
              (by rw [show ((vector_index st (nsKey r.nspace)).2).mem.data =
                    st.mem.data from vector_index_data st (nsKey r.nspace)])
              (by rw [show ((vector_index st (nsKey r.nspace)).2).mem.data =
                    st.mem.data from vector_index_data st (nsKey r.nspace)]) h
      | none =>
        dsimp only
        cases hins : VectorIndex.insertP normF (vector_index st "default").1
            key [] none with
        | mk res idx2 =>
          cases res with
          | error e =>
            exact MemWF_of_eq st.mem _
              (by rw [vector_index_data]) (by rw [vector_index_data])
              (by rw [vector_index_data]) (by rw [vector_index_data]) h
          | ok u =>
            exact MemWF_of_eq st.mem _
              (by rw [show ((vector_index st "default").2).mem.data =
                    st.mem.data from vector_index_data st "default"])
              (by rw [show ((vector_index st "default").2).mem.data =
                    st.mem.data from vector_index_data st "default"])
              (by rw [show ((vector_index st "default").2).mem.data =
                    st.mem.data from vector_index_data st "default"])
              (by rw [show ((vector_index st "default").2).mem.data =
                    st.mem.data from vector_index_data st "default"]) h
    | Graph =>
      unfold apply_record; dsimp only
      cases hd : payload.decodeEdge with
      | error e => exact h
      | ok e => exact MemWF_of_eq st.mem _ rfl rfl rfl rfl h
  | del family key nso collo tblo =>
    cases family with
    | Doc =>
      unfold apply_record; dsimp only
      cases h1 : alget st.mem.data.docs (nsKey nso) with
      | none =>
        have hno : ∀ inner,
            alget2 st.mem.data.docs (nsKey nso) (nsKey collo) = some inner →
            alget inner key = none := by
          intro inner hg
          rw [alget2, h1] at hg
          cases hg
        exact ⟨SideWF_scrub_gen _ _ _ _ key h.1 hno, h.2⟩
      | some nsm =>
        dsimp only
        cases h2 : alget nsm (nsKey collo) with
        | none =>
          have hno : ∀ inner,
              alget2 st.mem.data.docs (nsKey nso) (nsKey collo) = some inner →
              alget inner key = none := by
            intro inner hg
            rw [alget2, h1] at hg
            simp only [Option.some_bind] at hg
            rw [h2] at hg
            cases hg
          exact ⟨SideWF_scrub_gen _ _ _ _ key h.1 hno, h.2⟩
        | some inner =>
          exact ⟨SideWF_scrub _ _ _ _ _ _ key h.1 h1 h2, h.2⟩
    | Row =>
      unfold apply_record; dsimp only
      cases h1 : alget st.mem.data.rows (nsKey nso) with
      | none =>
        have hno : ∀ inner,
            alget2 st.mem.data.rows (nsKey nso) (nsKey tblo) = some inner →
            alget inner key = none := by
          intro inner hg
          rw [alget2, h1] at hg
          cases hg
        exact ⟨h.1, SideWF_scrub_gen _ _ _ _ key h.2 hno⟩
      | some nsm =>
        dsimp only
        cases h2 : alget nsm (nsKey tblo) with
        | none =>
          have hno : ∀ inner,
              alget2 st.mem.data.rows (nsKey nso) (nsKey tblo) = some inner →
              alget inner key = none := by
            intro inner hg
            rw [alget2, h1] at hg
            simp only [Option.some_bind] at hg
            rw [h2] at hg
            cases hg
          exact ⟨h.1, SideWF_scrub_gen _ _ _ _ key h.2 hno⟩
        | some inner =>
          exact ⟨h.1, SideWF_scrub _ _ _ _ _ _ key h.2 h1 h2⟩
    | Vec =>
      unfold apply_record; dsimp only
      cases hv : alget st.mem.vector_ns key with
      | some ns =>
        dsimp only
        exact MemWF_of_eq st.mem _
          (by rw [show ((vector_index st ns).2).mem.data = st.mem.data from
                vector_index_data st ns])
          (by rw [show ((vector_index st ns).2).mem.data = st.mem.data from
                vector_index_data st ns])
          (by rw [show ((vector_index st ns).2).mem.data = st.mem.data from
                vector_index_data st ns])
          (by rw [show ((vector_index st ns).2).mem.data = st.mem.data from
                vector_index_data st ns]) h
      | none => exact h
    | Graph => exact h
  | schemaRec family nso collo tblo schema =>
    cases family with
    | Doc => exact MemWF_of_eq st.mem _ rfl rfl rfl rfl h
    | Row => exact MemWF_of_eq st.mem _ rfl rfl rfl rfl h
    | Vec => exact h
    | Graph => exact h
  | addEdge src dst weight => exact MemWF_of_eq st.mem _ rfl rfl rfl rfl h

theorem EngineWF_apply_one (walErr : Option String) (normF : List Rat → List Rat)
    (st : Engine) (rec : Rec) (h : EngineWF st) :
    EngineWF (apply_one walErr normF st rec).2 := by
  unfold apply_one
  cases walErr with
  | some msg => exact h
  | none => exact EngineWF_apply_record normF _ rec h

/-- Every reachable engine state is well-formed: the two document maps and
their secondary indexes satisfy the nodup and completeness invariants. -/
theorem reached_WF (st : Engine) (h : Reached st) : EngineWF st := by
  induction h with
  | opened normF params recs m hm =>
    exact MemWF_replaySteps normF params recs _ m (MemWF_initMem params) hm
  | put_doc_step walErr st ns coll id json h ih =>
    exact EngineWF_put_doc_ns walErr st ns coll id json ih
  | put_row_step walErr st ns tbl id json h ih =>
    exact EngineWF_put_row_ns walErr st ns tbl id json ih
  | delete_doc_step walErr st ns coll id h ih =>
    exact EngineWF_delete_doc_ns walErr st ns coll id ih
  | delete_row_step walErr st ns tbl id h ih =>
    exact EngineWF_delete_row_ns walErr st ns tbl id ih
  | put_vector_step walErr normF annHits st ns id vector meta h ih =>
    exact EngineWF_put_vector walErr normF annHits st ns id vector meta ih
  | delete_vector_step walErr st id h ih =>
    exact EngineWF_delete_vector walErr st id ih
  | add_edge_step walErr st src dst w h ih =>
    exact EngineWF_add_edge walErr st src dst w ih
  | set_doc_schema_step walErr st ns coll schema h ih =>
    exact EngineWF_set_doc_schema walErr st ns coll schema ih
  | set_row_schema_step walErr st ns tbl schema h ih =>
    exact EngineWF_set_row_schema walErr st ns tbl schema ih
  | apply_step walErr normF st rec h ih =>
    exact EngineWF_apply_one walErr normF st rec ih
  | vacuum_step ioErr st h ih =>
    exact EngineWF_vacuum ioErr st ih

/-! The two query paths of `filter_map_with_index` in the absence of
offset/limit truncation. -/

theorem collect_filtered_inner_no_trunc (sid stot : Nat)
    (filter : List (String × JValue)) (limit : Nat) :
    ∀ (inner out : List (Uuid × JValue)) (skipped : Nat),
      out.length + inner.length < limit →
      collect_filtered_inner sid stot filter limit 0 inner skipped out =
        (out ++ inner.filter (fun q => ownsFn sid stot q.1 && value_matches q.2 filter),
          skipped) := by
  intro inner
  induction inner with
  | nil =>
    intro out skipped h
    simp [collect_filtered_inner]
  | cons hd tl ih =>
    intro out skipped h
    obtain ⟨id, v⟩ := hd
    rw [List.length_cons] at h
    by_cases how : ownsFn sid stot id = false
    · simp only [collect_filtered_inner, if_pos how]
      rw [ih out skipped (by omega)]
      simp [List.filter_cons, how]
    · simp only [collect_filtered_inner, if_neg how]
      have ho : ownsFn sid stot id = true := by
        cases hx : ownsFn sid stot id
        · exact absurd hx how
        · rfl
      by_cases hm : value_matches v filter = false
      · rw [if_pos hm]
        rw [ih out skipped (by omega)]
        simp [List.filter_cons, ho, hm]
      · rw [if_neg hm]
        have hmm : value_matches v filter = true := by
          cases hx : value_matches v filter
          · exact absurd hx hm
          · rfl
        have hsk : ¬ skipped < 0 := by omega
        rw [if_neg hsk]
        have hout : out.length < limit := by omega
        rw [if_pos hout]
        have hlen : ¬ limit ≤ (out ++ [(id, v)]).length := by
          simp only [List.length_append, List.length_singleton]
          omega
        rw [if_neg hlen]
        rw [ih (out ++ [(id, v)]) skipped
          (by simp only [List.length_append, List.length_singleton]; omega)]
        simp [List.filter_cons, ho, hmm]

theorem candidate_loop_no_trunc (sid stot : Nat) (inner : List (Uuid × JValue))
    (filter : List (String × JValue)) (limit : Nat) :
    ∀ (cands : List Uuid) (out : List (Uuid × JValue)) (skipped : Nat),
      out.length + (cands.filterMap (candFilter sid stot inner filter)).length < limit →
      candidate_loop sid stot inner filter limit 0 cands skipped out =
        out ++ cands.filterMap (candFilter sid stot inner filter) := by
  intro cands
  induction cands with
  | nil =>
    intro out skipped h
    simp [candidate_loop]
  | cons id rest ih =>
    intro out skipped h
    by_cases how : ownsFn sid stot id = false
    · have hcf : candFilter sid stot inner filter id = none := by
        simp [candFilter, how]
      rw [List.filterMap_cons, hcf] at h
      simp only [candidate_loop, if_pos how]
      rw [ih out skipped h, List.filterMap_cons, hcf]
    · simp only [candidate_loop, if_neg how]
      cases hv : alget inner id with
      | none =>
        have hcf : candFilter sid stot inner filter id = none := by
          simp [candFilter, how, hv]
        rw [List.filterMap_cons, hcf] at h
        rw [ih out skipped h, List.filterMap_cons, hcf]
      | some v =>
        dsimp only
        by_cases hm : value_matches v filter = false
        · have hcf : candFilter sid stot inner filter id = none := by
            simp [candFilter, how, hv, hm]
          rw [List.filterMap_cons, hcf] at h
          rw [if_pos hm]
          rw [ih out skipped h, List.filterMap_cons, hcf]
        · have hcf : candFilter sid stot inner filter id = some (id, v) := by
            simp [candFilter, how, hv, hm]
          rw [List.filterMap_cons, hcf] at h
          simp only [List.length_cons] at h
          rw [if_neg hm]
          have hsk : ¬ skipped < 0 := by omega
          rw [if_neg hsk]
          have hlen : ¬ limit ≤ (out ++ [(id, v)]).length := by
            simp only [List.length_append, List.length_singleton]
            omega
          rw [if_neg hlen]
          rw [ih (out ++ [(id, v)]) skipped
            (by simp only [List.length_append, List.length_singleton]; omega)]
          rw [List.filterMap_cons, hcf]
          simp [List.append_assoc]

theorem gather_candidates_eq_fold (cm : List (String × List (String × List Uuid)))
    (filter : List (String × JValue)) :
    gather_candidates cm filter = filter.foldl (gatherStep cm) none := rfl

theorem gatherfold_mem (cm : List (String × List (String × List Uuid))) (id : Uuid) :
    ∀ (filter : List (String × JValue)) (cand : Option (List Uuid)),
      (∀ f fv, (f, fv) ∈ filter → ∀ k, index_key fv = some k →
        ∃ fm e, alget cm f = some fm ∧ alget fm k = some e ∧ id ∈ e) →
      (∀ c, cand = some c → id ∈ c) →
      ∀ ids0, filter.foldl (gatherStep cm) cand = some ids0 → id ∈ ids0 := by
  intro filter
  induction filter with
  | nil =>
    intro cand hprobe hcand ids0 hfold
    exact hcand ids0 hfold
  | cons hd tl ih =>
    intro cand hprobe hcand ids0 hfold
    rw [List.foldl_cons] at hfold
    obtain ⟨f, fv⟩ := hd
    cases hk : index_key fv with
    | none =>
      rw [show gatherStep cm cand (f, fv) = cand from by simp [gatherStep, hk]] at hfold
      exact ih cand (fun f' fv' hm => hprobe f' fv' (List.mem_cons_of_mem _ hm))
        hcand ids0 hfold
    | some k =>
      rcases hprobe f fv (by simp) k hk with ⟨fm, e, hfm, he, hid⟩
      cases cand with
      | none =>
        rw [show gatherStep cm none (f, fv) = some e from by
          simp [gatherStep, hk, hfm, he]] at hfold
        refine ih _ (fun f' fv' hm => hprobe f' fv' (List.mem_cons_of_mem _ hm)) ?_
          ids0 hfold
        intro c hc
        cases hc
        exact hid
      | some prev =>
        rw [show gatherStep cm (some prev) (f, fv) =
            some (e.filter (fun i => i ∈ prev)) from by
          simp [gatherStep, hk, hfm, he]] at hfold
        refine ih _ (fun f' fv' hm => hprobe f' fv' (List.mem_cons_of_mem _ hm)) ?_
          ids0 hfold
        intro c hc
        cases hc
        simp only [List.mem_filter]
        exact ⟨hid, by simpa using hcand prev rfl⟩

theorem gatherfold_bound (cm : List (String × List (String × List Uuid))) (limit : Nat)
    (hent : ∀ f fm k e, alget cm f = some fm → alget fm k = some e →
      e.length < limit) :
    ∀ (filter : List (String × JValue)) (cand : Option (List Uuid)),
      (∀ c, cand = some c → c.length < limit) →
      ∀ ids0, filter.foldl (gatherStep cm) cand = some ids0 → ids0.length < limit := by
  intro filter
  induction filter with
  | nil =>
    intro cand hcand ids0 hfold
    exact hcand ids0 hfold
  | cons hd tl ih =>
    intro cand hcand ids0 hfold
    rw [List.foldl_cons] at hfold
    obtain ⟨f, fv⟩ := hd
    cases hk : index_key fv with
    | none =>
      rw [show gatherStep cm cand (f, fv) = cand from by simp [gatherStep, hk]] at hfold
      exact ih cand hcand ids0 hfold
    | some k =>
      cases hfm : alget cm f with
      | none =>
        rw [show gatherStep cm cand (f, fv) = cand from by
          simp [gatherStep, hk, hfm]] at hfold
        exact ih cand hcand ids0 hfold
      | some fm =>
        cases he : alget fm k with
        | none =>
          rw [show gatherStep cm cand (f, fv) = cand from by
            simp [gatherStep, hk, hfm, he]] at hfold
          exact ih cand hcand ids0 hfold
        | some e =>
          have hel := hent f fm k e hfm he
          cases cand with
          | none =>
            rw [show gatherStep cm none (f, fv) = some e from by
              simp [gatherStep, hk, hfm, he]] at hfold
            refine ih _ ?_ ids0 hfold
            intro c hc
            cases hc
            exact hel
          | some prev =>
            rw [show gatherStep cm (some prev) (f, fv) =
                some (e.filter (fun i => i ∈ prev)) from by
              simp [gatherStep, hk, hfm, he]] at hfold
            refine ih _ ?_ ids0 hfold
            intro c hc
            cases hc
            exact lt_of_le_of_lt (List.length_filter_le _ _) hel

theorem value_matches_scalar_eq (v : JValue) (filter : List (String × JValue))
    (hm : value_matches v filter = true) (f : String) (fv : JValue)
    (hmem : (f, fv) ∈ filter) (k : String) (hk : index_key fv = some k) :
    jget v f = some fv := by
  unfold value_matches at hm
  rw [List.all_eq_true] at hm
  have hp := hm (f, fv) hmem
  cases hj : jget v f with
  | none =>
    rw [hj] at hp
    simp at hp
  | some fv' =>
    rw [hj] at hp
    dsimp only at hp
    cases fv with
    | str s =>
      have he : fv' = .str s := by simpa [value_compare] using hp
      rw [he]
    | num q =>
      have he : fv' = .num q := by simpa [value_compare] using hp
      rw [he]
    | bool b =>
      have he : fv' = .bool b := by simpa [value_compare] using hp
      rw [he]
    | null => simp [index_key] at hk
    | arr xs => simp [index_key] at hk
    | obj fs => simp [index_key] at hk

/-- Membership equivalence between the index-assisted query and the full
scan, for a well-formed map/index pair, an equality-only scalar filter,
offset zero, and a limit that exceeds the collection and every index
entry of the collection. -/
theorem filter_map_with_index_equiv (sid stot : Nat)
    (stats : List (String × List (String × Nat))) (map : DocMap) (idx : IndexMap)
    (nsv collv : String) (filter : List (String × JValue)) (limit : Nat)
    (hWF : SideWF map idx)
    (inner : List (Uuid × JValue)) (hinner : alget2 map nsv collv = some inner)
    (hlim1 : inner.length < limit)
    (hlim2 : ∀ f k ids, idxget idx nsv collv f k = some ids → ids.length < limit)
    (p : Uuid × JValue) :
    p ∈ filter_map_with_index sid stot stats map idx (some nsv) (some collv)
        filter limit 0 ↔
      p ∈ filter_map sid stot map (some nsv) (some collv) filter limit 0 := by
  have hfull : filter_map sid stot map (some nsv) (some collv) filter limit 0 =
      inner.filter (fun q => ownsFn sid stot q.1 && value_matches q.2 filter) := by
    unfold filter_map
    dsimp only
    rw [hinner]
    dsimp only
    rw [collect_filtered_inner_no_trunc sid stot filter limit inner [] 0
      (by simpa using hlim1)]
    simp
  unfold filter_map_with_index
  dsimp only
  cases hns : alget idx nsv with
  | none => exact Iff.rfl
  | some ns_map =>
    dsimp only
    cases hcm : alget ns_map collv with
    | none => exact Iff.rfl
    | some cm =>
      dsimp only
      have halcm : alget2 idx nsv collv = some cm := by
        rw [alget2, hns]
        simpa using hcm
      cases hg : gather_candidates cm filter with
      | none => exact Iff.rfl
      | some ids =>
        dsimp only
        rw [hinner]
        dsimp only
        split
        case isFalse => exact Iff.rfl
        case isTrue hheur =>
          have hnod : (inner.map Prod.fst).Nodup := hWF.1 nsv collv inner hinner
          have hidslen : ids.length < limit := by
            rw [gather_candidates_eq_fold] at hg
            refine gatherfold_bound cm limit ?_ filter none (fun c hc => by cases hc)
              ids hg
            intro f fm k e hfm he
            exact hlim2 f k e (by simp [idxget, halcm, hfm, he])
          rw [candidate_loop_no_trunc sid stot inner filter limit ids [] 0
            (by
              simp only [List.length_nil, Nat.zero_add]
              exact lt_of_le_of_lt (List.length_filterMap_le _ _) hidslen)]
          rw [hfull]
          simp only [List.nil_append]
          constructor
          · intro hp
            rcases List.mem_filterMap.mp hp with ⟨id0, hid0, hcf⟩
            unfold candFilter at hcf
            by_cases how : ownsFn sid stot id0 = false
            · rw [if_pos how] at hcf
              cases hcf
            · rw [if_neg how] at hcf
              cases hv : alget inner id0 with
              | none =>
                rw [hv] at hcf
                cases hcf
              | some v =>
                rw [hv] at hcf
                dsimp only at hcf
                by_cases hmm : value_matches v filter = false
                · rw [if_pos hmm] at hcf
                  cases hcf
                · rw [if_neg hmm] at hcf
                  cases hcf
                  refine List.mem_filter.mpr ⟨alget_mem hv, ?_⟩
                  have h1 : ownsFn sid stot id0 = true := by
                    cases hx : ownsFn sid stot id0
                    · exact absurd hx how
                    · rfl
                  have h2 : value_matches v filter = true := by
                    cases hx : value_matches v filter
                    · exact absurd hx hmm
                    · rfl
                  simp [h1, h2]
          · intro hp
            obtain ⟨id0, v⟩ := p
            have hpmem := (List.mem_filter.mp hp).1
            have hpred := (List.mem_filter.mp hp).2
            simp only [Bool.and_eq_true] at hpred
            have h1 : ownsFn sid stot id0 = true := hpred.1
            have h2 : value_matches v filter = true := hpred.2
            have hv : alget inner id0 = some v := mem_alget hnod hpmem
            have hprobe : ∀ f fv, (f, fv) ∈ filter → ∀ k, index_key fv = some k →
                ∃ fm e, alget cm f = some fm ∧ alget fm k = some e ∧ id0 ∈ e := by
              intro f fv hmemf k hk
              have hjget : jget v f = some fv :=
                value_matches_scalar_eq v filter h2 f fv hmemf k hk
              rcases hWF.2.2 nsv collv inner hinner id0 v hpmem f fv k hjget hk with
                ⟨e, he, hine⟩
              rw [idxget, halcm] at he
              simp only [Option.some_bind] at he
              cases hfm : alget cm f with
              | none =>
                rw [hfm] at he
                cases he
              | some fm =>
                rw [hfm] at he
                simp only [Option.some_bind] at he
                exact ⟨fm, e, rfl, he, hine⟩
            have hid0 : id0 ∈ ids := by
              rw [gather_candidates_eq_fold] at hg
              exact gatherfold_mem cm id0 filter none hprobe (fun c hc => by cases hc)
                ids hg
            refine List.mem_filterMap.mpr ⟨id0, hid0, ?_⟩
            simp [candFilter, h1, hv, h2]

/-- A freshly opened engine with no WAL is a reachable state. -/
theorem reached_empty : Reached emptyEngine :=
  Reached.opened (fun v => v) VectorParams.dfl [] (initMem VectorParams.dfl) rfl

theorem reached_c9a : Reached c9a :=
  Reached.put_doc_step none emptyEngine none none nilUuid c9objA reached_empty

theorem reached_c9b : Reached c9b :=
  Reached.put_doc_step none c9a none none nilUuid c9objB reached_c9a

/-- C7: on every reachable engine state, for a namespace/collection pair and
an equality-only filter on indexed scalar fields, with offset 0 and a limit
too large for truncation to occur (larger than the collection and than
every index entry of the collection), the index-assisted
`query_docs_ns` / `query_rows_ns` return exactly the same (id, value)
pairs as the full scan `filter_map` — whichever way the cost heuristic
decides. -/
theorem C7_index_path_equals_full_scan (st : Engine) (h : Reached st)
    (nsv collv : String) (filter : List (String × JValue)) (limit : Nat)
    (_hscalar : ∀ p, p ∈ filter → (index_key p.2).isSome) :
    (∀ inner, alget2 st.mem.data.docs nsv collv = some inner →
      inner.length < limit →
      (∀ f k ids, idxget st.mem.data.doc_index nsv collv f k = some ids →
        ids.length < limit) →
      ∀ p, p ∈ query_docs_ns st (some nsv) (some collv) filter limit 0 ↔
        p ∈ filter_map st.shard_id st.shard_total st.mem.data.docs
            (some nsv) (some collv) filter limit 0) ∧
    (∀ inner, alget2 st.mem.data.rows nsv collv = some inner →
      inner.length < limit →
      (∀ f k ids, idxget st.mem.data.row_index nsv collv f k = some ids →
        ids.length < limit) →
      ∀ p, p ∈ query_rows_ns st (some nsv) (some collv) filter limit 0 ↔
        p ∈ filter_map st.shard_id st.shard_total st.mem.data.rows
            (some nsv) (some collv) filter limit 0) := by
  have hWF := reached_WF st h
  exact ⟨fun inner hinner h1 h2 p =>
      filter_map_with_index_equiv st.shard_id st.shard_total st.stats.docs
        st.mem.data.docs st.mem.data.doc_index nsv collv filter limit hWF.1
        inner hinner h1 h2 p,
    fun inner hinner h1 h2 p =>
      filter_map_with_index_equiv st.shard_id st.shard_total st.stats.docs
        st.mem.data.rows st.mem.data.row_index nsv collv filter limit hWF.2
        inner hinner h1 h2 p⟩

/-- C7 witness: on the engine holding the single document `{ a: "1" }`, the
equality filter `a = "1"` with limit 5 takes the candidate path and both
paths return exactly that document. -/
theorem C7_index_path_equals_full_scan_witness :
    (∀ p, p ∈ query_docs_ns c9a (some "default") (some "default")
        [("a", JValue.str "1")] 5 0 ↔
      p ∈ filter_map c9a.shard_id c9a.shard_total c9a.mem.data.docs
          (some "default") (some "default") [("a", JValue.str "1")] 5 0) ∧
    query_docs_ns c9a (some "default") (some "default") [("a", JValue.str "1")] 5 0 =
      [(nilUuid, c9objA)] := by
  constructor
  · refine (C7_index_path_equals_full_scan c9a reached_c9a "default" "default"
      [("a", JValue.str "1")] 5 (by decide)).1 [(nilUuid, c9objA)] rfl (by decide) ?_
    intro f k ids hids
    have hidx : c9a.mem.data.doc_index =
        [("default", [("default", [("a", [("1", [nilUuid])])])])] := rfl
    rw [hidx] at hids
    simp only [idxget,
      show alget2 ([("default", [("default", [("a", [("1", [nilUuid])])])])] :
          IndexMap) "default" "default" = some [("a", [("1", [nilUuid])])] from rfl,
      Option.some_bind] at hids
    by_cases hf : ("a" : String) = f
    · subst hf
      simp only [show alget [("a", [("1", [nilUuid])])] "a" =
          some [("1", [nilUuid])] from rfl, Option.some_bind] at hids
      by_cases hk : ("1" : String) = k
      · subst hk
        simp only [show alget [("1", [nilUuid])] "1" = some [nilUuid] from rfl,
          Option.some.injEq] at hids
        rw [← hids]
        decide
      · rw [show alget [("1", [nilUuid])] k = none from by simp [alget, hk]] at hids
        cases hids
    · rw [show alget [("a", [("1", [nilUuid])])] f = none from by
        simp [alget, hf]] at hids
      cases hids
  · rfl

/-- C9 counterexample: update-then-delete leaves a stale index entry holding
the deleted id.  After putting `{ a: "1" }`, overwriting with `{ a: "2" }`
and deleting the nil UUID, the delete reports success and the document is
gone, yet the index entry for field `a`, value `"1"` still lists the nil
UUID — the claim says the id appears in no entry of the index after the
delete. -/
theorem C9_counterexample :
    (delete_doc_ns none c9b none none nilUuid).1 = .ok () ∧
    get_doc_ns (delete_doc_ns none c9b none none nilUuid).2 none none nilUuid =
      none ∧
    idxget (delete_doc_ns none c9b none none nilUuid).2.mem.data.doc_index
      "default" "default" "a" "1" = some [nilUuid] := by
  refine ⟨rfl, rfl, rfl⟩

/-- C9 (amended): on every reachable engine state, every indexable scalar
field of every stored doc and row is reachable through the secondary
equality index; and a successful `delete_doc_ns` / `delete_row_ns` of a
stored id removes the id from the index entry of every scalar field of
the value stored at deletion time.  (Entries keyed by former values of an
updated document are not touched — see the counterexample — so the id can
remain in stale entries of the same collection.) -/
theorem C9_index_invariant_and_delete_scrub (st : Engine) (h : Reached st) :
    (IndexComplete st.mem.data.docs st.mem.data.doc_index ∧
     IndexComplete st.mem.data.rows st.mem.data.row_index) ∧
    (∀ ns coll id nsm inner old,
      st.owns id = true →
      alget st.mem.data.docs (nsKey ns) = some nsm →
      alget nsm (nsKey coll) = some inner →
      alget inner id = some old →
      (delete_doc_ns none st ns coll id).1 = .ok () ∧
      ∀ f fv k ids, jget old f = some fv → index_key fv = some k →
        idxget (delete_doc_ns none st ns coll id).2.mem.data.doc_index
          (nsKey ns) (nsKey coll) f k = some ids → id ∉ ids) ∧
    (∀ ns tbl id nsm inner old,
      st.owns id = true →
      alget st.mem.data.rows (nsKey ns) = some nsm →
      alget nsm (nsKey tbl) = some inner →
      alget inner id = some old →
      (delete_row_ns none st ns tbl id).1 = .ok () ∧
      ∀ f fv k ids, jget old f = some fv → index_key fv = some k →
        idxget (delete_row_ns none st ns tbl id).2.mem.data.row_index
          (nsKey ns) (nsKey tbl) f k = some ids → id ∉ ids) := by
  have hWF := reached_WF st h
  refine ⟨⟨hWF.1.2.2, hWF.2.2.2⟩, ?_, ?_⟩
  · intro ns coll id nsm inner old ho h1 h2 h3
    have ho' : ¬(st.owns id = false) := by simp [ho]
    have hred : delete_doc_ns none st ns coll id =
        (.ok (), { st with
          wal := st.wal ++ [Rec.del .Doc id (some (nsKey ns)) (some (nsKey coll)) none],
          mem := { st.mem with data := { st.mem.data with
            docs := alput st.mem.data.docs (nsKey ns)
              (alput nsm (nsKey coll) (alerase inner id)),
            doc_index := index_remove_into st.mem.data.doc_index (nsKey ns)
              (nsKey coll) id old } },
          stats := { st.stats with
            docs := bumpStat st.stats.docs (nsKey ns) (nsKey coll) (-1) } }) := by
      unfold delete_doc_ns
      rw [if_neg ho']
      dsimp only [append_record]
      rw [h1]
      dsimp only
      rw [h2]
      dsimp only
      rw [h3]
    constructor
    · rw [hred]
    · intro f fv k ids hjget hkey hids
      rw [hred] at hids
      dsimp only at hids
      cases old with
      | obj fs =>
        have hmem : (f, fv) ∈ fs.toList := alget_mem hjget
        rw [index_remove_into_eq_fold] at hids
        exact idxget_removefold_absent fs.toList (nsKey ns) (nsKey coll) id f fv k
          hmem hkey _ ids hids
      | null => simp [jget] at hjget
      | bool b => simp [jget] at hjget
      | num q => simp [jget] at hjget
      | str s => simp [jget] at hjget
      | arr xs => simp [jget] at hjget
  · intro ns tbl id nsm inner old ho h1 h2 h3
    have ho' : ¬(st.owns id = false) := by simp [ho]
    have hred : delete_row_ns none st ns tbl id =
        (.ok (), { st with
          wal := st.wal ++ [Rec.del .Row id (some (nsKey ns)) none (some (nsKey tbl))],
          mem := { st.mem with data := { st.mem.data with
            rows := alput st.mem.data.rows (nsKey ns)
              (alput nsm (nsKey tbl) (alerase inner id)),
            row_index := index_remove_into st.mem.data.row_index (nsKey ns)
              (nsKey tbl) id old } },
          stats := { st.stats with
            rows := bumpStat st.stats.rows (nsKey ns) (nsKey tbl) (-1) } }) := by
      unfold delete_row_ns
      rw [if_neg ho']
      dsimp only [append_record]
      rw [h1]
      dsimp only
      rw [h2]
      dsimp only
      rw [h3]
    constructor
    · rw [hred]
    · intro f fv k ids hjget hkey hids
      rw [hred] at hids
      dsimp only at hids
      cases old with
      | obj fs =>
        have hmem : (f, fv) ∈ fs.toList := alget_mem hjget
        rw [index_remove_into_eq_fold] at hids
        exact idxget_removefold_absent fs.toList (nsKey ns) (nsKey tbl) id f fv k
          hmem hkey _ ids hids
      | null => simp [jget] at hjget
      | bool b => simp [jget] at hjget
      | num q => simp [jget] at hjget
      | str s => simp [jget] at hjget
      | arr xs => simp [jget] at hjget

/-- C9 witness: deleting the nil UUID from the engine that stores
`{ a: "2" }` under it succeeds, and the id is gone from the index entry of
field `a`, value `"2"` — the value stored at deletion time. -/
theorem C9_index_invariant_and_delete_scrub_witness :
    (delete_doc_ns none c9b none none nilUuid).1 = .ok () ∧
    ∀ ids, idxget (delete_doc_ns none c9b none none nilUuid).2.mem.data.doc_index
        "default" "default" "a" "2" = some ids → nilUuid ∉ ids := by
  have h := (C9_index_invariant_and_delete_scrub c9b reached_c9b).2.1 none none
    nilUuid [("default", [(nilUuid, c9objB)])] [(nilUuid, c9objB)] c9objB
    rfl rfl rfl rfl
  exact ⟨h.1, fun ids hids => h.2 "a" (JValue.str "2") "2" ids rfl rfl hids⟩

end Pieskieo
